import Mathlib

/-!
# Path-addressed facade over a nested-bucket key-value store (cnk3x/bolt)

A shallow embedding of `bucket.go`: the transaction handle `bucket`, its path
resolver `getBucket` / `bucketKeySplit`, and the operations `CreateBucket`,
`Set`, `Get`, `Del` and `Scan`.

The storage engine (`go.etcd.io/bbolt`) is an external library.  It is modelled
here as a tree of key-sorted entry lists together with the engine calls the
facade makes (`Bucket`, `CreateBucketIfNotExists`, `Put`, `Get`, `Delete`,
`DeleteBucket`, `ForEach`, `ForEachBucket`, `Cursor.Seek` / `Next`), each one
following the checks the engine performs, in the engine's order.

Conventions.
* A Go `*bbolt.Bucket` is a `BucketRef`: the chain of names leading from the
  root bucket to the open bucket; `nil` is `none`.
* The transaction is mutated in place in Go; here every operation returns the
  handle after the call next to its Go results.
* A run-time panic (nil bucket dereference, slice index out of range) is the
  outer `none` of an operation's result.
* The transaction is open while the handle is used (no `ErrTxClosed`), and a
  `Scan` visitor does not write to the store it is iterating.
-/

namespace Bolt

set_option linter.dupNamespace false

/-! ## Byte strings -/

abbrev Byte := Fin 256

abbrev Bytes := List Byte

/-- The test `bytes.Compare(a, b) < 0`: byte-wise lexicographic order. -/
def bytesLt : Bytes → Bytes → Bool
  | [], [] => false
  | [], _ :: _ => true
  | _ :: _, [] => false
  | a :: as, b :: bs => if a < b then true else if b < a then false else bytesLt as bs

/-- The test `bytes.HasPrefix(k, scan)`. -/
def hasPrefix (k scan : Bytes) : Bool := scan.isPrefixOf k

/-! ## Errors -/

/-- The error values the facade and the engine can return, the three "stop"
signals `Scan` swallows, and any other error a visitor may return. -/
inductive Error where
  | ErrBucketNotFound
  | ErrBucketExists
  | ErrBucketNameRequired
  | ErrKeyRequired
  | ErrTxNotWritable
  | ErrIncompatibleValue
  | ErrKeyTooLarge
  | ErrValueTooLarge
  | EOF
  | SkipAll
  | SkipDir
  | other (code : Nat)
  deriving DecidableEq, Repr

/-! ## The store -/

/-- An entry of a bucket: a leaf value, or a nested bucket with its own
key-ordered entries. -/
inductive Node where
  | leaf (value : Bytes) : Node
  | bucket (entries : List (Bytes × Node)) : Node

/-- The contents of one bucket, in key order. -/
abbrev Entries := List (Bytes × Node)

/-- The value a cursor reports for an entry: `nil` for a nested bucket. -/
def Node.value : Node → Option Bytes
  | .leaf v => some v
  | .bucket _ => none

/-- Whether the entry carries the engine's bucket flag. -/
def Node.isBucket : Node → Bool
  | .leaf _ => false
  | .bucket _ => true

/-- A transaction: the root bucket's entries and whether it is read-write
(`Update` / `Batch`) or read-only (`View`). -/
structure Tx where
  root : Entries
  writable : Bool

/-- A reference to an open bucket: the names leading to it from the root
bucket (`[]` is the root bucket itself). -/
abbrev BucketRef := List Bytes

/-- `bbolt.MaxKeySize`. -/
def MaxKeySize : Nat := 32768

/-- `bbolt.MaxValueSize`. -/
def MaxValueSize : Nat := 2 ^ 31 - 2

/-! ## Engine: one bucket -/

/-- A cursor seek: the entries from the first key `≥ key` on. -/
def seek : Entries → Bytes → Entries
  | [], _ => []
  | (k, n) :: rest, key => if bytesLt k key then seek rest key else (k, n) :: rest

/-- The entry stored under exactly `key`, found by a seek. -/
def findEntry (es : Entries) (key : Bytes) : Option Node :=
  match seek es key with
  | (k, n) :: _ => if k = key then some n else none
  | [] => none

/-- The entries of the child bucket `name`; `none` when `name` is absent or a
leaf. -/
def childBucket (es : Entries) (name : Bytes) : Option Entries :=
  match findEntry es name with
  | some (.bucket c) => some c
  | _ => none

/-- Engine `node.put`: replace the entry at `key`, or insert it at the seek
position. -/
def putEntry : Entries → Bytes → Node → Entries
  | [], key, n => [(key, n)]
  | (k, x) :: rest, key, n =>
    if bytesLt k key then (k, x) :: putEntry rest key n
    else if k = key then (key, n) :: rest
    else (key, n) :: (k, x) :: rest

/-- Engine `node.del`: remove the entry at `key` if the seek finds it. -/
def delEntry : Entries → Bytes → Entries
  | [], _ => []
  | (k, x) :: rest, key =>
    if bytesLt k key then (k, x) :: delEntry rest key
    else if k = key then rest
    else (k, x) :: rest

/-- Rewrite the contents of the child bucket `name` (found by a seek) with
`g`; nothing changes when `name` is absent or a leaf. -/
def modifyChild : Entries → Bytes → (Entries → Entries) → Entries
  | [], _, _ => []
  | (k, x) :: rest, name, g =>
    if bytesLt k name then (k, x) :: modifyChild rest name g
    else if k = name then
      match x with
      | .bucket c => (k, .bucket (g c)) :: rest
      | .leaf v => (k, .leaf v) :: rest
    else (k, x) :: rest

/-! ## Engine: buckets addressed from the root -/

/-- The contents of the bucket a reference names, if it exists. -/
def bucketAt : Entries → BucketRef → Option Entries
  | es, [] => some es
  | es, name :: rest =>
    match childBucket es name with
    | some c => bucketAt c rest
    | none => none

/-- Rewrite the contents of the bucket a reference names with `f`. -/
def modifyAt : BucketRef → (Entries → Entries) → Entries → Entries
  | [], f, es => f es
  | name :: rest, f, es => modifyChild es name (modifyAt rest f)

/-- The entries an open bucket currently holds. -/
def Tx.contents (tx : Tx) (r : BucketRef) : Entries :=
  (bucketAt tx.root r).getD []

namespace bbolt

/-- Engine `(*Bucket).Bucket(name)`: the nested bucket, or `nil`. -/
def Bucket.Bucket (tx : Tx) (r : BucketRef) (name : Bytes) : Option BucketRef :=
  match childBucket (tx.contents r) name with
  | some _ => some (r ++ [name])
  | none => none

/-- Engine `(*Bucket).CreateBucketIfNotExists(key)`. -/
def Bucket.CreateBucketIfNotExists (tx : Tx) (r : BucketRef) (key : Bytes) :
    Tx × Option BucketRef × Option Error :=
  if tx.writable = false then (tx, none, some .ErrTxNotWritable)
  else if key.length = 0 then (tx, none, some .ErrBucketNameRequired)
  else
    match findEntry (tx.contents r) key with
    | some (.bucket _) => (tx, some (r ++ [key]), none)
    | some (.leaf _) => (tx, none, some .ErrIncompatibleValue)
    | none =>
      ({ tx with root := modifyAt r (fun es => putEntry es key (.bucket [])) tx.root },
        some (r ++ [key]), none)

/-- Engine `(*Bucket).Put(key, value)`. -/
def Bucket.Put (tx : Tx) (r : BucketRef) (key value : Bytes) : Tx × Option Error :=
  if tx.writable = false then (tx, some .ErrTxNotWritable)
  else if key.length = 0 then (tx, some .ErrKeyRequired)
  else if key.length > MaxKeySize then (tx, some .ErrKeyTooLarge)
  else if value.length > MaxValueSize then (tx, some .ErrValueTooLarge)
  else
    match findEntry (tx.contents r) key with
    | some (.bucket _) => (tx, some .ErrIncompatibleValue)
    | _ => ({ tx with root := modifyAt r (fun es => putEntry es key (.leaf value)) tx.root }, none)

/-- Engine `(*Bucket).Get(key)`: `nil` when the key is absent or a nested
bucket. -/
def Bucket.Get (tx : Tx) (r : BucketRef) (key : Bytes) : Option Bytes :=
  match findEntry (tx.contents r) key with
  | some (.leaf v) => some v
  | _ => none

/-- Engine `(*Bucket).Delete(key)`. -/
def Bucket.Delete (tx : Tx) (r : BucketRef) (key : Bytes) : Tx × Option Error :=
  if tx.writable = false then (tx, some .ErrTxNotWritable)
  else
    match findEntry (tx.contents r) key with
    | none => (tx, none)
    | some (.bucket _) => (tx, some .ErrIncompatibleValue)
    | some (.leaf _) =>
      ({ tx with root := modifyAt r (fun es => delEntry es key) tx.root }, none)

/-- Engine `(*Bucket).DeleteBucket(key)`: removes the nested bucket with all
it contains. -/
def Bucket.DeleteBucket (tx : Tx) (r : BucketRef) (key : Bytes) : Tx × Option Error :=
  if tx.writable = false then (tx, some .ErrTxNotWritable)
  else
    match findEntry (tx.contents r) key with
    | none => (tx, some .ErrBucketNotFound)
    | some (.leaf _) => (tx, some .ErrIncompatibleValue)
    | some (.bucket _) =>
      ({ tx with root := modifyAt r (fun es => delEntry es key) tx.root }, none)

/-- The loop of `(*Bucket).ForEach`: every entry in key order, a nested bucket
with a `nil` value; stops at the first error. -/
def forEachLoop {σ : Type} (fn : σ → Bytes → Option Bytes → σ × Option Error) :
    σ → Entries → σ × Option Error
  | s, [] => (s, none)
  | s, (k, n) :: rest =>
    match fn s k n.value with
    | (s1, some e) => (s1, some e)
    | (s1, none) => forEachLoop fn s1 rest

/-- The loop of `(*Bucket).ForEachBucket`: every nested bucket in key order;
stops at the first error. -/
def forEachBucketLoop {σ : Type} (fn : σ → Bytes → σ × Option Error) :
    σ → Entries → σ × Option Error
  | s, [] => (s, none)
  | s, (k, n) :: rest =>
    if n.isBucket then
      match fn s k with
      | (s1, some e) => (s1, some e)
      | (s1, none) => forEachBucketLoop fn s1 rest
    else forEachBucketLoop fn s rest

/-- Engine `(*Bucket).ForEach(fn)`; `s` is the state the callback threads. -/
def Bucket.ForEach {σ : Type} (tx : Tx) (r : BucketRef)
    (fn : σ → Bytes → Option Bytes → σ × Option Error) (s : σ) : σ × Option Error :=
  forEachLoop fn s (tx.contents r)

/-- Engine `(*Bucket).ForEachBucket(fn)`. -/
def Bucket.ForEachBucket {σ : Type} (tx : Tx) (r : BucketRef)
    (fn : σ → Bytes → σ × Option Error) (s : σ) : σ × Option Error :=
  forEachBucketLoop fn s (tx.contents r)

/-- Engine `(*Cursor).Seek(seek)` on a fresh cursor of the bucket: the cursor
is the list of entries from its position on. -/
def Cursor.Seek (tx : Tx) (r : BucketRef) (key : Bytes) : Entries :=
  seek (tx.contents r) key

/-- Engine `(*Cursor).Next()`. -/
def Cursor.Next (cur : Entries) : Entries := cur.tail

/-- Engine `(*Tx).Bucket(name)`, which is `tx.root.Bucket(name)`. -/
def Tx.Bucket (tx : Tx) (name : Bytes) : Option BucketRef :=
  Bucket.Bucket tx [] name

/-- Engine `(*Tx).CreateBucketIfNotExists(name)`, on the root bucket. -/
def Tx.CreateBucketIfNotExists (tx : Tx) (name : Bytes) :
    Tx × Option BucketRef × Option Error :=
  Bucket.CreateBucketIfNotExists tx [] name

/-- Engine `(*Tx).DeleteBucket(name)`, on the root bucket. -/
def Tx.DeleteBucket (tx : Tx) (name : Bytes) : Tx × Option Error :=
  Bucket.DeleteBucket tx [] name

/-- Engine `(*Tx).ForEach(fn)`: the root bucket's `ForEach`, handing each name
with `tx.root.Bucket(name)`. -/
def Tx.ForEach {σ : Type} (tx : Tx)
    (fn : σ → Bytes → Option BucketRef → σ × Option Error) (s : σ) : σ × Option Error :=
  Bucket.ForEach tx [] (fun s k _ => fn s k (Bucket.Bucket tx [] k)) s

end bbolt

/-! ## The facade (`bucket.go`) -/

/-- The transaction handle `bucket`: the engine transaction and the deferred
error.  (The `db` back-pointer is only returned by `DB()`.) -/
structure bucket where
  tx : Tx
  err : Option Error

/-- One call `fn(k, v, bucket)` made by `Scan`. -/
structure Visit where
  k : Bytes
  v : Option Bytes
  bucket : Bool
  deriving DecidableEq, Repr

/-- The visitor `fn` of `Scan`: its answer to a call may depend on the calls
it has received before (a Go closure with state). -/
abbrev Visitor := List Visit → Visit → Option Error

/-- Calling the visitor: the call is recorded and its answer returned. -/
def callFn (fn : Visitor) (calls : List Visit) (c : Visit) : List Visit × Option Error :=
  (calls ++ [c], fn calls c)

namespace bucket

/-- `Err`. -/
def Err (b : bucket) : Option Error := b.err

/-- The `for i, name := range bucketPath` loop of `getBucket`, from index `i`
on, with the current transaction, bucket `n` and (nil) error. -/
def getBucketLoop (create : Bool) :
    Nat → List Bytes → Tx → Option BucketRef → Option (Tx × Option BucketRef × Option Error)
  | _, [], tx, n => some (tx, n, none)
  | i, name :: rest, tx, n =>
    let step : Option (Tx × Option BucketRef × Option Error) :=
      if create then
        if i = 0 then some (bbolt.Tx.CreateBucketIfNotExists tx name)
        else
          match n with
          | none => none
          | some r => some (bbolt.Bucket.CreateBucketIfNotExists tx r name)
      else
        if i = 0 then some (tx, bbolt.Tx.Bucket tx name, none)
        else
          match n with
          | none => none
          | some r => some (tx, bbolt.Bucket.Bucket tx r name, none)
    match step with
    | none => none
    | some (tx1, n1, some e) => some (tx1, n1, some e)
    | some (tx1, none, none) => some (tx1, none, some .ErrBucketNotFound)
    | some (tx1, some r1, none) => getBucketLoop create (i + 1) rest tx1 (some r1)

/-- `getBucket`: the handle after the call, the bucket `n` and `*err`. -/
def getBucket (b : bucket) (bucketPath : List Bytes) (create : Bool) :
    Option (bucket × Option BucketRef × Option Error) :=
  match b.err with
  | some e => some (b, none, some e)
  | none =>
    if bucketPath.length = 0 then some (b, none, some .ErrBucketNameRequired)
    else
      match getBucketLoop create 0 bucketPath b.tx none with
      | none => none
      | some (tx1, n, err) => some ({ b with tx := tx1 }, n, err)

/-- `bucketKeySplit`: slicing an empty `keyPath` panics. -/
def bucketKeySplit (b : bucket) (keyPath : List Bytes) (create : Bool) :
    Option (bucket × Option BucketRef × Bytes × Option Error) :=
  if keyPath.length = 0 then none
  else
    match keyPath[keyPath.length - 1]? with
    | none => none
    | some key =>
      match b.getBucket (keyPath.take (keyPath.length - 1)) create with
      | none => none
      | some (b1, n, err) => some (b1, n, key, err)

/-- `CreateBucket`. -/
def CreateBucket (b : bucket) (path : List Bytes) : Option (bucket × Option Error) :=
  match b.getBucket path true with
  | none => none
  | some (b1, _, err) => some (b1, err)

/-- `Set`. -/
def Set (b : bucket) (keyPath : List Bytes) (value : Bytes) : Option (bucket × Option Error) :=
  match b.err with
  | some e => some (b, some e)
  | none =>
    match keyPath.length with
    | 0 => some (b, some .ErrKeyRequired)
    | 1 => some (b, some .ErrBucketNameRequired)
    | _ =>
      match b.bucketKeySplit keyPath true with
      | none => none
      | some (b1, _, _, some e) => some (b1, some e)
      | some (_, none, _, none) => none
      | some (b1, some r, key, none) =>
        match bbolt.Bucket.Put b1.tx r key value with
        | (tx2, err) => some ({ b1 with tx := tx2 }, err)

/-- `Get`. -/
def Get (b : bucket) (keyPath : List Bytes) : Option (bucket × Option Bytes × Option Error) :=
  match b.err with
  | some e => some (b, none, some e)
  | none =>
    match keyPath.length with
    | 0 => some (b, none, some .ErrKeyRequired)
    | 1 => some (b, none, some .ErrBucketNameRequired)
    | _ =>
      match b.bucketKeySplit keyPath false with
      | none => none
      | some (b1, _, _, some e) => some (b1, none, some e)
      | some (_, none, _, none) => none
      | some (b1, some r, key, none) => some (b1, bbolt.Bucket.Get b1.tx r key, none)

/-- `Del`. -/
def Del (b : bucket) (keyPath : List Bytes) : Option (bucket × Option Error) :=
  match b.err with
  | some e => some (b, some e)
  | none =>
    match keyPath.length with
    | 0 => some (b, some .ErrKeyRequired)
    | 1 =>
      match keyPath[0]? with
      | none => none
      | some name =>
        match bbolt.Tx.DeleteBucket b.tx name with
        | (tx1, err) => some ({ b with tx := tx1 }, err)
    | _ =>
      match b.bucketKeySplit keyPath false with
      | none => none
      | some (b1, _, _, some e) => some (b1, some e)
      | some (_, none, _, none) => none
      | some (b1, some r, key, none) =>
        if (bbolt.Bucket.Bucket b1.tx r key).isSome then
          match bbolt.Bucket.DeleteBucket b1.tx r key with
          | (tx2, err) => some ({ b1 with tx := tx2 }, err)
        else
          match bbolt.Bucket.Delete b1.tx r key with
          | (tx2, err) => some ({ b1 with tx := tx2 }, err)

/-- The cursor loop of the prefixed `Scan`: `cur` is the cursor after `Seek`
or `Next`; the loop ends at the end of the bucket, at the first key without
the prefix, or at the first error of `fn`. -/
def scanCursorLoop (scan : Bytes) (fn : Visitor) : List Visit → Entries → List Visit × Option Error
  | calls, [] => (calls, none)
  | calls, (k, n) :: rest =>
    if hasPrefix k scan = false then (calls, none)
    else
      match callFn fn calls ⟨k, n.value, false⟩ with
      | (calls1, some e) => (calls1, some e)
      | (calls1, none) => scanCursorLoop scan fn calls1 (bbolt.Cursor.Next ((k, n) :: rest))

/-- The inner function literal of `Scan`: the handle, the calls made to `fn`
and the error before the stop signals are filtered. -/
def scanBody (b : bucket) (keyPath : List Bytes) (scan : Bytes) (fn : Visitor) :
    Option (bucket × List Visit × Option Error) :=
  if keyPath.length = 0 then
    match bbolt.Tx.ForEach b.tx (fun calls name _ => callFn fn calls ⟨name, none, true⟩) [] with
    | (calls, err) => some (b, calls, err)
  else
    match b.getBucket keyPath false with
    | none => none
    | some (b1, _, some e) => some (b1, [], some e)
    | some (_, none, none) => none
    | some (b1, some r, none) =>
      if scan.length = 0 then
        match bbolt.Bucket.ForEachBucket b1.tx r
            (fun calls k => callFn fn calls ⟨k, none, true⟩) [] with
        | (calls1, some e) => some (b1, calls1, some e)
        | (calls1, none) =>
          match bbolt.Bucket.ForEach b1.tx r
              (fun calls k v =>
                if (bbolt.Bucket.Bucket b1.tx r k).isNone then
                  callFn fn calls ⟨k, v, (bbolt.Bucket.Bucket b1.tx r k).isSome⟩
                else (calls, none)) calls1 with
          | (calls2, err) => some (b1, calls2, err)
      else
        match bbolt.Bucket.ForEachBucket b1.tx r
            (fun calls k =>
              if hasPrefix k scan then callFn fn calls ⟨k, none, true⟩ else (calls, none)) [] with
        | (calls1, some e) => some (b1, calls1, some e)
        | (calls1, none) =>
          match scanCursorLoop scan fn calls1 (bbolt.Cursor.Seek b1.tx r scan) with
          | (calls2, err) => some (b1, calls2, err)

/-- `Scan`: the handle after the call, the calls made to `fn` in order, and
the returned error. -/
def Scan (b : bucket) (keyPath : List Bytes) (scan : Bytes) (fn : Visitor) :
    Option (bucket × List Visit × Option Error) :=
  match b.err with
  | some e => some (b, [], some e)
  | none =>
    match scanBody b keyPath scan fn with
    | none => none
    | some (b1, calls, err) =>
      if err = some .EOF ∨ err = some .SkipAll ∨ err = some .SkipDir then some (b1, calls, none)
      else some (b1, calls, err)

end bucket

/-! ## Well-formed stores -/

mutual
/-- The engine keeps the keys of every bucket strictly increasing (so each
name occurs once per bucket): the check for one entry and all below it. -/
def Node.wf : Node → Bool
  | .leaf _ => true
  | .bucket es => entriesWf es
/-- The check for the entries of one bucket and all below them. -/
def entriesWf : Entries → Bool
  | [] => true
  | (k, n) :: rest => rest.all (fun e => bytesLt k e.1) && n.wf && entriesWf rest
end

/-- A store state of the engine: keys strictly increasing in every bucket. -/
def Tx.wf (tx : Tx) : Bool := entriesWf tx.root

/-- The calls a bucket pass makes for the child buckets of `es`. -/
def bucketVisits (es : Entries) : List Visit :=
  (es.filter (fun e => e.2.isBucket)).map (fun e => ⟨e.1, none, true⟩)

/-- The calls a leaf pass makes for the leaf entries of `es`. -/
def leafVisits (es : Entries) : List Visit :=
  (es.filter (fun e => !e.2.isBucket)).map (fun e => ⟨e.1, e.2.value, false⟩)

/-- The keys of one bucket are strictly increasing. -/
def keysSorted (es : Entries) : Prop :=
  es.Pairwise (fun a b => bytesLt a.1 b.1 = true)

/-- What a bucket holds directly: every name with its leaf value (`none` for
a child bucket) and its bucket flag. -/
def listing (es : Entries) : List (Bytes × Option Bytes × Bool) :=
  es.map (fun e => (e.1, e.2.value, e.2.isBucket))

/-- The entries of a bucket other than the one named `key`. -/
def without (es : Entries) (key : Bytes) : Entries :=
  es.filter (fun e => decide (e.1 ≠ key))

/-- The root bucket of the engine holds only buckets. -/
def Tx.rootBuckets (tx : Tx) : Bool := tx.root.all (fun e => e.2.isBucket)

/-- The calls `calls` were made to `fn` one after the other, every call but
the last returned `nil`, and the last returned `last` (`nil` when no call
was made). -/
inductive Ran (fn : Visitor) : List Visit → Option Error → Prop where
  | start : Ran fn [] none
  | call (calls : List Visit) (c : Visit) : Ran fn calls none → Ran fn (calls ++ [c]) (fn calls c)

/-- The filter at the end of `Scan`: the stop signals become `nil`. -/
def stopFilter (e : Error) : Option Error :=
  if e = .EOF ∨ e = .SkipAll ∨ e = .SkipDir then none else some e

/-! ## The database handle (`db.go`) -/

/-- The engine's open database `*bbolt.DB`: the committed root bucket and the
file path.  (The database stays open and is read-write, as `Open` opens it;
file-level failures of commit and close are left out.) -/
structure bbolt.DB where
  root : Entries
  path : String

/-- Engine `(*DB).View(f)`: `f` runs on a read-only transaction, which is
rolled back.  `s` is the state the callback threads. -/
def bbolt.DB.View {σ : Type} (db : bbolt.DB) (f : σ → Tx → σ × Tx × Option Error) (s : σ) :
    σ × bbolt.DB × Option Error :=
  match f s ⟨db.root, false⟩ with
  | (s1, _, err) => (s1, db, err)

/-- Engine `(*DB).Update(f)`: `f` runs on a read-write transaction, committed
when `f` returns `nil` and rolled back otherwise. -/
def bbolt.DB.Update {σ : Type} (db : bbolt.DB) (f : σ → Tx → σ × Tx × Option Error) (s : σ) :
    σ × bbolt.DB × Option Error :=
  match f s ⟨db.root, true⟩ with
  | (s1, tx1, none) => (s1, { db with root := tx1.root }, none)
  | (s1, _, some e) => (s1, db, some e)

/-- Engine `(*DB).Batch(f)` with a single caller: `f` runs in a batched
`Update`; when it fails there, it is run again alone in an `Update` of its
own. -/
def bbolt.DB.Batch {σ : Type} (db : bbolt.DB) (f : σ → Tx → σ × Tx × Option Error) (s : σ) :
    σ × bbolt.DB × Option Error :=
  match bbolt.DB.Update db f s with
  | (s1, db1, none) => (s1, db1, none)
  | (s1, db1, some _) => bbolt.DB.Update db1 f s1

/-- The handle `boltDB`: the engine database (`nil` when opening failed) and
the error of opening it. -/
structure boltDB where
  bolt : Option bbolt.DB
  err : Option Error

/-- `Open`, given what `bbolt.Open` returned. -/
def Open (opened : Option bbolt.DB × Option Error) : boltDB :=
  { bolt := opened.1, err := opened.2 }

/-- `From`. -/
def From (bolt : Option bbolt.DB) : boltDB :=
  { bolt := bolt, err := none }

/-- A function `fn` handed to `View`, `Update` or `Batch`: from the handle it
receives to the transaction as it leaves it and the error it returns. -/
abbrev TxFunc := bucket → Tx × Option Error

/-- The closure `func(t *bbolt.Tx) error { return fn(&bucket{db: b, tx: t}) }`;
the handles `fn` is invoked with are recorded. -/
def txClosure (fn : TxFunc) (log : List bucket) (t : Tx) : List bucket × Tx × Option Error :=
  (log ++ [{ tx := t, err := none }], fn { tx := t, err := none })

namespace boltDB

/-- `Path`; `toSlash` is `filepath.ToSlash`. -/
def Path (toSlash : String → String) (b : boltDB) : Option String :=
  match b.bolt with
  | some db => some (toSlash db.path)
  | none => some ""

/-- `Copy`: `copied` is what `tx.Copy(w)` returns; calling `View` on a `nil`
database panics. -/
def Copy (b : boltDB) (copied : Option Error) : Option (Option Error) :=
  match b.bolt with
  | none => none
  | some db => some (bbolt.DB.View db (fun (s : Unit) t => (s, t, copied)) ()).2.2

/-- `CopyFile`: `copied` is what `tx.CopyFile(path, mode)` returns. -/
def CopyFile (b : boltDB) (copied : Option Error) : Option (Option Error) :=
  match b.bolt with
  | none => none
  | some db => some (bbolt.DB.View db (fun (s : Unit) t => (s, t, copied)) ()).2.2

/-- `View`: the handle after the call, the returned error and the handles
`fn` was invoked with. -/
def View (b : boltDB) (fn : TxFunc) : Option (boltDB × Option Error × List bucket) :=
  match b.err with
  | some e => some (b, some e, [])
  | none =>
    match b.bolt with
    | none => none
    | some db =>
      match bbolt.DB.View db (txClosure fn) [] with
      | (log, db1, err) => some ({ b with bolt := some db1 }, err, log)

/-- `Update`. -/
def Update (b : boltDB) (fn : TxFunc) : Option (boltDB × Option Error × List bucket) :=
  match b.err with
  | some e => some (b, some e, [])
  | none =>
    match b.bolt with
    | none => none
    | some db =>
      match bbolt.DB.Update db (txClosure fn) [] with
      | (log, db1, err) => some ({ b with bolt := some db1 }, err, log)

/-- `Batch`. -/
def Batch (b : boltDB) (fn : TxFunc) : Option (boltDB × Option Error × List bucket) :=
  match b.err with
  | some e => some (b, some e, [])
  | none =>
    match b.bolt with
    | none => none
    | some db =>
      match bbolt.DB.Batch db (txClosure fn) [] with
      | (log, db1, err) => some ({ b with bolt := some db1 }, err, log)

/-- `Close`: `closed` is what the engine's `Close` returns; calling it on a
`nil` database panics. -/
def Close (b : boltDB) (closed : Option Error) : Option (Option Error) :=
  match b.err with
  | some _ =>
    match b.bolt with
    | none => none
    | some _ => some closed
  | none => some none

/-- `Bolt`. -/
def Bolt (b : boltDB) : Option bbolt.DB × Option Error :=
  match b.err with
  | some e => (none, some e)
  | none => (b.bolt, none)

end boltDB


/-- The leaf value stored under `key` in one bucket (what the engine's `Get`
returns there). -/
def leafValue (es : Entries) (key : Bytes) : Option Bytes :=
  match findEntry es key with
  | some (.leaf v) => some v
  | _ => none

/-- The leaf value stored at the key path `pre ++ [key]`: `none` when the
bucket `pre` does not exist or holds no leaf `key`. -/
def leafAt (root : Entries) (pre : BucketRef) (key : Bytes) : Option Bytes :=
  match bucketAt root pre with
  | some C => leafValue C key
  | none => none

/-- From `root` to `root1` buckets were at most added: every bucket that
existed still exists, and the leaf entries of the store are the same (none
written, removed or changed). -/
def Grown (root root1 : Entries) : Prop :=
  (∀ pre, (bucketAt root pre).isSome = true → (bucketAt root1 pre).isSome = true) ∧
  (∀ pre key, leafAt root1 pre key = leafAt root pre key)


/-- From `root` to `root1` buckets were at most added, and only ones named by
an initial segment of `path`: every bucket that existed still exists, the
leaf entries of the store are the same, and a bucket that exists now either
existed before or lies at an initial segment of `path`. -/
def CreatedAlong (path : List Bytes) (root root1 : Entries) : Prop :=
  Grown root root1 ∧
  ∀ r, (bucketAt root1 r).isSome = true → (bucketAt root r).isSome = true ∨ r <+: path

/-! ## Scenario data -/

/-- The key `users`. -/
def kUsers : Bytes := [117, 115, 101, 114, 115]

/-- The key `alice`. -/
def kAlice : Bytes := [97, 108, 105, 99, 101]

/-- The key `bob`. -/
def kBob : Bytes := [98, 111, 98]

/-- The key `admins`. -/
def kAdmins : Bytes := [97, 100, 109, 105, 110, 115]

/-- The value `A1`. -/
def vA1 : Bytes := [65, 49]

/-- The value `B1`. -/
def vB1 : Bytes := [66, 49]

/-- A visitor that always returns `nil`. -/
def okVisitor : Visitor := fun _ _ => none

/-- The empty store in a read-write transaction. -/
def emptyRW : bucket := { tx := { root := [], writable := true }, err := none }

/-- The store `users/{admins/, alice = A1, bob = B1}` in a read-write
transaction. -/
def usersStore : bucket :=
  { tx := { root := [(kUsers, .bucket [(kAdmins, .bucket []), (kAlice, .leaf vA1), (kBob, .leaf vB1)])],
            writable := true },
    err := none }

/-- The store `users/{alice = A1}` in a read-only transaction. -/
def aliceRO : bucket :=
  { tx := { root := [(kUsers, .bucket [(kAlice, .leaf vA1)])], writable := false }, err := none }

/-- A visitor that always returns `io.EOF`. -/
def eofVisitor : Visitor := fun _ _ => some .EOF

/-- A visitor that returns an error of its own at its second call. -/
def failSecondVisitor : Visitor := fun calls _ => if calls.length = 1 then some (.other 7) else none

/-- A handle whose database failed to open with the error `other 2`. -/
def failedDB : boltDB := Open (none, some (.other 2))

/-- A caller's function that stores `alice = A1` under `users`. -/
def setAlice : TxFunc := fun b =>
  match b.Set [kUsers, kAlice] vA1 with
  | some (b1, err) => (b1.tx, err)
  | none => (b.tx, none)

/-- The store `users/{alice = A1}` in a read-write transaction. -/
def aliceRW : bucket :=
  { tx := { root := [(kUsers, .bucket [(kAlice, .leaf vA1)])], writable := true }, err := none }

/-- A value one byte longer than `MaxValueSize`. -/
def bigValue : Bytes := List.replicate (MaxValueSize + 1) 0

end Bolt

namespace Bolt

open bucket

/-! ## Byte order -/

theorem bytesLt_irrefl (a : Bytes) : bytesLt a a = false := by
  induction a with
  | nil => rfl
  | cons x xs ih => simp [bytesLt, ih]

theorem bytesLt_asymm : ∀ (a b : Bytes), bytesLt a b = true → bytesLt b a = false
  | [], [], h => by simp [bytesLt] at h
  | [], _ :: _, _ => by simp [bytesLt]
  | _ :: _, [], h => by simp [bytesLt] at h
  | x :: xs, y :: ys, h => by
    simp only [bytesLt] at h ⊢
    by_cases hxy : x < y
    · have : ¬ y < x := not_lt_of_lt hxy
      simp [this, hxy]
    · by_cases hyx : y < x
      · simp [hxy, hyx] at h
      · simp only [hxy, hyx, if_false] at h ⊢
        exact bytesLt_asymm xs ys h

theorem bytesLt_trans : ∀ (a b c : Bytes), bytesLt a b = true → bytesLt b c = true →
    bytesLt a c = true
  | [], _, [], _, h2 => by cases ‹Bytes› <;> simp [bytesLt] at h2
  | [], _, _ :: _, _, _ => by simp [bytesLt]
  | _ :: _, [], _, h1, _ => by simp [bytesLt] at h1
  | _ :: _, _ :: _, [], _, h2 => by simp [bytesLt] at h2
  | x :: xs, y :: ys, z :: zs, h1, h2 => by
    simp only [bytesLt] at h1 h2 ⊢
    by_cases hxy : x < y
    · by_cases hyz : y < z
      · simp [lt_trans hxy hyz]
      · by_cases hzy : z < y
        · simp [hyz, hzy] at h2
        · have : y = z := le_antisymm (not_lt.mp hzy) (not_lt.mp hyz)
          subst this
          simp [hxy]
    · by_cases hyx : y < x
      · simp [hxy, hyx] at h1
      · have hxy2 : x = y := le_antisymm (not_lt.mp hyx) (not_lt.mp hxy)
        subst hxy2
        simp only [hxy, if_false] at h1
        by_cases hxz : x < z
        · simp [hxz]
        · by_cases hzx : z < x
          · simp [hxz, hzx] at h2
          · simp only [hxz, hzx, if_false] at h2 ⊢
            exact bytesLt_trans xs ys zs h1 h2

theorem bytesLt_total : ∀ (a b : Bytes), bytesLt a b = false → a ≠ b → bytesLt b a = true
  | [], [], _, h => absurd rfl h
  | [], _ :: _, h, _ => by simp [bytesLt] at h
  | _ :: _, [], _, _ => by simp [bytesLt]
  | x :: xs, y :: ys, h, hne => by
    simp only [bytesLt] at h ⊢
    by_cases hxy : x < y
    · simp [hxy] at h
    · by_cases hyx : y < x
      · simp [hyx]
      · have hxy2 : x = y := le_antisymm (not_lt.mp hyx) (not_lt.mp hxy)
        subst hxy2
        simp only [hxy, if_false] at h ⊢
        exact bytesLt_total xs ys h (fun e => hne (by rw [e]))

/-! ## One bucket: seek, put, delete, rewrite -/

theorem findEntry_nil (key : Bytes) : findEntry [] key = none := rfl

theorem findEntry_cons (k : Bytes) (x : Node) (rest : Entries) (key : Bytes) :
    findEntry ((k, x) :: rest) key =
      if bytesLt k key then findEntry rest key else if k = key then some x else none := by
  by_cases h : bytesLt k key = true
  · simp [findEntry, seek, h]
  · simp [findEntry, seek, h]

theorem findEntry_mem (es : Entries) (key : Bytes) (n : Node) (h : findEntry es key = some n) :
    (key, n) ∈ es := by
  induction es with
  | nil => simp [findEntry_nil] at h
  | cons e rest ih =>
    obtain ⟨k, x⟩ := e
    rw [findEntry_cons] at h
    by_cases h1 : bytesLt k key = true
    · simp only [h1, if_true] at h
      exact List.mem_cons_of_mem _ (ih h)
    · by_cases h2 : k = key
      · subst h2
        simp [h1] at h
        simp [h]
      · simp [h1, h2] at h

theorem findEntry_putEntry_self (es : Entries) (key : Bytes) (n : Node) :
    findEntry (putEntry es key n) key = some n := by
  induction es with
  | nil => simp [putEntry, findEntry_cons, bytesLt_irrefl]
  | cons e rest ih =>
    obtain ⟨k, x⟩ := e
    by_cases h1 : bytesLt k key = true
    · simp [putEntry, findEntry_cons, h1, ih]
    · by_cases h2 : k = key
      · simp [putEntry, findEntry_cons, h1, h2, bytesLt_irrefl]
      · simp [putEntry, findEntry_cons, h1, h2, bytesLt_irrefl]

theorem findEntry_modifyChild_self (es : Entries) (name : Bytes) (g : Entries → Entries) :
    findEntry (modifyChild es name g) name =
      match findEntry es name with
      | some (.bucket c) => some (.bucket (g c))
      | other => other := by
  induction es with
  | nil => simp [modifyChild, findEntry_nil]
  | cons e rest ih =>
    obtain ⟨k, x⟩ := e
    by_cases h1 : bytesLt k name = true
    · simp [modifyChild, findEntry_cons, h1, ih]
    · by_cases h2 : k = name
      · subst h2
        cases x <;> simp [modifyChild, findEntry_cons, h1]
      · simp [modifyChild, findEntry_cons, h1, h2]

theorem findEntry_modifyChild_other (es : Entries) (name key : Bytes) (g : Entries → Entries)
    (hne : key ≠ name) : findEntry (modifyChild es name g) key = findEntry es key := by
  induction es with
  | nil => simp [modifyChild]
  | cons e rest ih =>
    obtain ⟨k, x⟩ := e
    by_cases h1 : bytesLt k name = true
    · simp [modifyChild, findEntry_cons, h1, ih]
    · by_cases h2 : k = name
      · subst h2
        have : ¬ k = key := fun e => hne e.symm
        cases x <;> simp [modifyChild, findEntry_cons, h1, this]
      · simp [modifyChild, findEntry_cons, h1, h2]

theorem childBucket_modifyChild_self (es : Entries) (name : Bytes) (g : Entries → Entries) :
    childBucket (modifyChild es name g) name = (childBucket es name).map g := by
  unfold childBucket
  rw [findEntry_modifyChild_self]
  cases h : findEntry es name with
  | none => simp
  | some x => cases x <;> simp

theorem childBucket_modifyChild_other (es : Entries) (name key : Bytes) (g : Entries → Entries)
    (hne : key ≠ name) : childBucket (modifyChild es name g) key = childBucket es key := by
  unfold childBucket
  rw [findEntry_modifyChild_other es name key g hne]

theorem childBucket_putEntry_bucket (es : Entries) (key : Bytes) (c : Entries) :
    childBucket (putEntry es key (.bucket c)) key = some c := by
  simp [childBucket, findEntry_putEntry_self]

theorem childBucket_eq_some (es : Entries) (name : Bytes) (c : Entries) :
    childBucket es name = some c ↔ findEntry es name = some (.bucket c) := by
  unfold childBucket
  cases h : findEntry es name with
  | none => simp
  | some x => cases x <;> simp

theorem childBucket_eq_none (es : Entries) (name : Bytes) :
    childBucket es name = none ↔ ∀ c, findEntry es name ≠ some (.bucket c) := by
  unfold childBucket
  cases h : findEntry es name with
  | none => simp
  | some x => cases x <;> simp

/-! ## Buckets addressed from the root -/

theorem bucketAt_append (root : Entries) (r q : BucketRef) :
    bucketAt root (r ++ q) = (bucketAt root r).bind (fun es => bucketAt es q) := by
  induction r generalizing root with
  | nil => simp [bucketAt]
  | cons name rest ih =>
    simp only [List.cons_append, bucketAt]
    cases childBucket root name with
    | none => simp
    | some c => simpa using ih c

theorem bucketAt_snoc (root : Entries) (r : BucketRef) (name : Bytes) :
    bucketAt root (r ++ [name]) = (bucketAt root r).bind (fun es => childBucket es name) := by
  rw [bucketAt_append]
  congr 1
  funext es
  simp only [bucketAt]
  cases childBucket es name <;> rfl

theorem bucketAt_modifyAt_self (root : Entries) (r : BucketRef) (f : Entries → Entries) :
    bucketAt (modifyAt r f root) r = (bucketAt root r).map f := by
  induction r generalizing root with
  | nil => simp [bucketAt, modifyAt]
  | cons name rest ih =>
    simp only [bucketAt, modifyAt, childBucket_modifyChild_self]
    cases childBucket root name with
    | none => simp
    | some c => simpa using ih c

/-- A path fails to resolve exactly when, along the chain from the root, one
of its segments (the first or a later one) names no child bucket of the
bucket reached so far. -/
theorem bucketAt_eq_none_iff (root : Entries) (path : BucketRef) :
    bucketAt root path = none ↔
      ∃ pre name post B, path = pre ++ name :: post ∧ bucketAt root pre = some B ∧
        childBucket B name = none := by
  induction path generalizing root with
  | nil =>
    constructor
    · intro h
      simp [bucketAt] at h
    · rintro ⟨pre, name, post, B, hp, -, -⟩
      simp at hp
  | cons n rest ih =>
    constructor
    · intro h
      cases hc : childBucket root n with
      | none => exact ⟨[], n, rest, root, rfl, rfl, hc⟩
      | some c =>
        simp only [bucketAt, hc] at h
        obtain ⟨pre, name, post, B, hp, hB, hn⟩ := (ih c).mp h
        exact ⟨n :: pre, name, post, B, by simp [hp], by simp [bucketAt, hc, hB], hn⟩
    · rintro ⟨pre, name, post, B, hp, hB, hn⟩
      cases pre with
      | nil =>
        simp only [List.nil_append, List.cons.injEq] at hp
        simp only [bucketAt, Option.some.injEq] at hB
        rw [hp.1, hB]
        simp [bucketAt, hn]
      | cons m pre =>
        simp only [List.cons_append, List.cons.injEq] at hp
        rw [← hp.1] at hB
        simp only [bucketAt] at hB ⊢
        cases hc : childBucket root n with
        | none => rfl
        | some c =>
          simp only [hc] at hB ⊢
          exact (ih c).mpr ⟨pre, name, post, B, hp.2, hB, hn⟩

theorem contents_of_bucketAt (tx : Tx) (r : BucketRef) (es : Entries)
    (h : bucketAt tx.root r = some es) : tx.contents r = es := by
  simp [Tx.contents, h]

/-! ## The resolver loop -/

theorem getBucketLoop_index (create : Bool) (path : List Bytes) (i j : Nat) (tx : Tx)
    (n : Option BucketRef) :
    getBucketLoop create (i + 1) path tx n = getBucketLoop create (j + 1) path tx n := by
  induction path generalizing i j tx n with
  | nil => simp [getBucketLoop]
  | cons name rest ih =>
    simp only [getBucketLoop, Nat.add_one_ne_zero, if_false]
    split
    · rfl
    · rfl
    · rfl
    · exact ih _ _ _ _

theorem getBucketLoop_zero (create : Bool) (name : Bytes) (rest : List Bytes) (tx : Tx)
    (n : Option BucketRef) :
    getBucketLoop create 0 (name :: rest) tx n =
      getBucketLoop create 1 (name :: rest) tx (some []) := by
  simp only [getBucketLoop, if_true, Nat.add_one_ne_zero, if_false, one_ne_zero,
    bbolt.Tx.CreateBucketIfNotExists, bbolt.Tx.Bucket]
  split
  · rfl
  · rfl
  · rfl
  · exact getBucketLoop_index _ _ _ _ _ _

theorem getBucketLoop_lookup (tx : Tx) (path : List Bytes) (i : Nat) (cur : BucketRef)
    (es : Entries) (hcur : bucketAt tx.root cur = some es) :
    getBucketLoop false (i + 1) path tx (some cur) =
      some (match bucketAt es path with
        | some _ => (tx, some (cur ++ path), none)
        | none => (tx, none, some .ErrBucketNotFound)) := by
  induction path generalizing i cur es with
  | nil => simp [getBucketLoop, bucketAt]
  | cons name rest ih =>
    cases hc : childBucket es name with
    | none =>
      simp [getBucketLoop, bbolt.Bucket.Bucket, contents_of_bucketAt tx cur es hcur, hc, bucketAt]
    | some c =>
      have hnext : bucketAt tx.root (cur ++ [name]) = some c := by
        rw [bucketAt_snoc, hcur]; simp [hc]
      have := ih (i + 1) (cur ++ [name]) c hnext
      simp [getBucketLoop, bbolt.Bucket.Bucket, contents_of_bucketAt tx cur es hcur, hc, bucketAt,
        this]

/-- A non-creating resolution of a non-empty path: the path itself when it
names a bucket, `ErrBucketNotFound` otherwise; the store is not touched. -/
theorem getBucket_lookup (tx : Tx) (path : List Bytes) (hne : path ≠ []) :
    getBucket ⟨tx, none⟩ path false =
      some (match bucketAt tx.root path with
        | some _ => (⟨tx, none⟩, some path, none)
        | none => (⟨tx, none⟩, none, some .ErrBucketNotFound)) := by
  cases path with
  | nil => exact absurd rfl hne
  | cons name rest =>
    have h := getBucketLoop_lookup tx (name :: rest) 0 [] tx.root rfl
    simp only [getBucket, List.length_cons, Nat.add_one_ne_zero, if_false, getBucketLoop_zero]
    rw [show (0 : Nat) + 1 = 1 from rfl] at h
    rw [h]
    cases bucketAt tx.root (name :: rest) <;> simp

/-! ## Creating resolution -/

theorem createBucketIfNotExists_ok (tx tx1 : Tx) (cur : BucketRef) (name : Bytes) (es : Entries)
    (n1 : Option BucketRef) (hcur : bucketAt tx.root cur = some es)
    (h : bbolt.Bucket.CreateBucketIfNotExists tx cur name = (tx1, n1, none)) :
    n1 = some (cur ++ [name]) ∧ (∃ c, bucketAt tx1.root (cur ++ [name]) = some c) ∧
      tx1.writable = tx.writable ∧ tx.writable = true ∧ name.length ≠ 0 := by
  unfold bbolt.Bucket.CreateBucketIfNotExists at h
  rw [contents_of_bucketAt tx cur es hcur] at h
  by_cases hw : tx.writable = false
  · simp [hw] at h
  · by_cases hn : name.length = 0
    · simp [hw, hn] at h
    · rw [if_neg hw, if_neg hn] at h
      have hw1 : tx.writable = true := by simpa using hw
      cases hf : findEntry es name with
      | none =>
        rw [hf] at h
        simp only [Prod.mk.injEq] at h
        obtain ⟨h1, h2, -⟩ := h
        subst h1
        refine ⟨h2.symm, ⟨[], ?_⟩, rfl, hw1, hn⟩
        simp [bucketAt_snoc, bucketAt_modifyAt_self, hcur, childBucket_putEntry_bucket]
      | some x =>
        cases x with
        | leaf v => rw [hf] at h; simp at h
        | bucket c =>
          rw [hf] at h
          simp only [Prod.mk.injEq] at h
          obtain ⟨h1, h2, -⟩ := h
          subst h1
          refine ⟨h2.symm, ⟨c, ?_⟩, rfl, hw1, hn⟩
          simp [bucketAt_snoc, hcur, childBucket, hf]

theorem createBucketIfNotExists_err (tx tx1 : Tx) (cur : BucketRef) (name : Bytes)
    (n1 : Option BucketRef) (e : Error)
    (h : bbolt.Bucket.CreateBucketIfNotExists tx cur name = (tx1, n1, some e)) :
    tx1 = tx ∧ n1 = none := by
  unfold bbolt.Bucket.CreateBucketIfNotExists at h
  by_cases hw : tx.writable = false
  · simp [hw] at h; simp [h]
  · by_cases hn : name.length = 0
    · simp [hw, hn] at h; simp [h]
    · simp only [hw, hn, if_false] at h
      cases hf : findEntry (tx.contents cur) name with
      | none => simp [hf] at h
      | some x =>
        cases x with
        | leaf v => simp [hf] at h; simp [h]
        | bucket c => simp [hf] at h

theorem createBucketIfNotExists_existing (tx : Tx) (cur : BucketRef) (name : Bytes)
    (es c : Entries) (hcur : bucketAt tx.root cur = some es) (hw : tx.writable = true)
    (hn : name.length ≠ 0) (hc : childBucket es name = some c) :
    bbolt.Bucket.CreateBucketIfNotExists tx cur name = (tx, some (cur ++ [name]), none) := by
  unfold bbolt.Bucket.CreateBucketIfNotExists
  rw [contents_of_bucketAt tx cur es hcur, (childBucket_eq_some es name c).mp hc]
  simp [hw, hn]

/-- A creating resolution that succeeds returns the bucket at the end of the
path, which then exists; the transaction is read-write and no name is empty. -/
theorem getBucketLoop_create_ok (path : List Bytes) (i : Nat) (tx tx1 : Tx) (cur : BucketRef)
    (es : Entries) (n : Option BucketRef) (hcur : bucketAt tx.root cur = some es)
    (h : getBucketLoop true (i + 1) path tx (some cur) = some (tx1, n, none)) :
    n = some (cur ++ path) ∧ (∃ c, bucketAt tx1.root (cur ++ path) = some c) ∧
      tx1.writable = tx.writable ∧ (path ≠ [] → tx.writable = true) ∧
      ∀ name ∈ path, name.length ≠ 0 := by
  induction path generalizing i tx cur es with
  | nil =>
    simp only [getBucketLoop, Option.some.injEq, Prod.mk.injEq] at h
    obtain ⟨h1, h2, -⟩ := h
    subst h1
    exact ⟨by simp [h2.symm], ⟨es, by simpa using hcur⟩, rfl, fun hh => absurd rfl hh, by simp⟩
  | cons name rest ih =>
    simp only [getBucketLoop, Nat.add_one_ne_zero, if_false, if_true] at h
    rcases hstep : bbolt.Bucket.CreateBucketIfNotExists tx cur name with ⟨tx2, n2, e2⟩
    rw [hstep] at h
    cases e2 with
    | some e => simp at h
    | none =>
      obtain ⟨hn2, ⟨c, hc⟩, hw2, hw, hlen⟩ := createBucketIfNotExists_ok tx tx2 cur name es n2 hcur hstep
      subst hn2
      simp only at h
      obtain ⟨r1, r2, r3, -, r5⟩ := ih (i + 1) tx2 (cur ++ [name]) c hc h
      refine ⟨by simp [r1], ?_, by rw [r3, hw2], fun _ => hw, ?_⟩
      · obtain ⟨c2, hc2⟩ := r2
        exact ⟨c2, by simpa using hc2⟩
      · intro x hx
        rcases List.mem_cons.mp hx with rfl | hx
        · exact hlen
        · exact r5 x hx

/-- A creating resolution of a path that already names a bucket, in a
read-write transaction and with no empty name, changes nothing. -/
theorem getBucketLoop_create_existing (path : List Bytes) (i : Nat) (tx : Tx) (cur : BucketRef)
    (es c : Entries) (hcur : bucketAt tx.root cur = some es) (hw : tx.writable = true)
    (hlen : ∀ name ∈ path, name.length ≠ 0) (hc : bucketAt es path = some c) :
    getBucketLoop true (i + 1) path tx (some cur) = some (tx, some (cur ++ path), none) := by
  induction path generalizing i cur es with
  | nil => simp [getBucketLoop]
  | cons name rest ih =>
    simp only [bucketAt] at hc
    cases hch : childBucket es name with
    | none => simp [hch] at hc
    | some c1 =>
      simp only [hch] at hc
      have hnext : bucketAt tx.root (cur ++ [name]) = some c1 := by
        rw [bucketAt_snoc, hcur]; simp [hch]
      have hstep := createBucketIfNotExists_existing tx cur name es c1 hcur hw
        (hlen name (List.mem_cons_self _ _)) hch
      have := ih (i + 1) (cur ++ [name]) c1 hnext
        (fun x hx => hlen x (List.mem_cons_of_mem _ hx)) hc
      simp [getBucketLoop, hstep, this]

/-! ## Dispatch on the path length -/

theorem getBucket_create (tx : Tx) (path : List Bytes) (hne : path ≠ []) :
    getBucket ⟨tx, none⟩ path true =
      match getBucketLoop true 1 path tx (some []) with
      | none => none
      | some (tx1, n, err) => some (⟨tx1, none⟩, n, err) := by
  cases path with
  | nil => exact absurd rfl hne
  | cons name rest =>
    simp only [getBucket, List.length_cons, Nat.add_one_ne_zero, if_false, getBucketLoop_zero]

theorem bucketKeySplit_snoc (b : bucket) (pre : List Bytes) (key : Bytes) (create : Bool) :
    bucketKeySplit b (pre ++ [key]) create =
      match b.getBucket pre create with
      | none => none
      | some (b1, n, err) => some (b1, n, key, err) := by
  simp [bucketKeySplit]

theorem length_snoc_cons (a : Bytes) (pre : List Bytes) (key : Bytes) :
    ((a :: pre) ++ [key]).length = pre.length + 2 := by
  simp

theorem Set_deep (b : bucket) (pre : List Bytes) (key value : Bytes) (hb : b.err = none)
    (hpre : pre ≠ []) :
    bucket.Set b (pre ++ [key]) value =
      match b.getBucket pre true with
      | none => none
      | some (b1, _, some e) => some (b1, some e)
      | some (_, none, none) => none
      | some (b1, some r, none) =>
        some ({ b1 with tx := (bbolt.Bucket.Put b1.tx r key value).1 },
          (bbolt.Bucket.Put b1.tx r key value).2) := by
  cases pre with
  | nil => exact absurd rfl hpre
  | cons a pre =>
    unfold bucket.Set
    rw [hb, length_snoc_cons, bucketKeySplit_snoc]
    simp only
    rcases b.getBucket (a :: pre) true with _ | ⟨b1, n, e⟩
    · rfl
    · cases e <;> cases n <;> rfl

theorem Get_deep (b : bucket) (pre : List Bytes) (key : Bytes) (hb : b.err = none)
    (hpre : pre ≠ []) :
    Get b (pre ++ [key]) =
      match b.getBucket pre false with
      | none => none
      | some (b1, _, some e) => some (b1, none, some e)
      | some (_, none, none) => none
      | some (b1, some r, none) => some (b1, bbolt.Bucket.Get b1.tx r key, none) := by
  cases pre with
  | nil => exact absurd rfl hpre
  | cons a pre =>
    unfold Get
    rw [hb, length_snoc_cons, bucketKeySplit_snoc]
    simp only
    rcases b.getBucket (a :: pre) false with _ | ⟨b1, n, e⟩
    · rfl
    · cases e <;> cases n <;> rfl

theorem Del_deep (b : bucket) (pre : List Bytes) (key : Bytes) (hb : b.err = none)
    (hpre : pre ≠ []) :
    Del b (pre ++ [key]) =
      match b.getBucket pre false with
      | none => none
      | some (b1, _, some e) => some (b1, some e)
      | some (_, none, none) => none
      | some (b1, some r, none) =>
        if (bbolt.Bucket.Bucket b1.tx r key).isSome then
          some ({ b1 with tx := (bbolt.Bucket.DeleteBucket b1.tx r key).1 },
            (bbolt.Bucket.DeleteBucket b1.tx r key).2)
        else
          some ({ b1 with tx := (bbolt.Bucket.Delete b1.tx r key).1 },
            (bbolt.Bucket.Delete b1.tx r key).2) := by
  cases pre with
  | nil => exact absurd rfl hpre
  | cons a pre =>
    unfold Del
    rw [hb, length_snoc_cons, bucketKeySplit_snoc]
    simp only
    rcases b.getBucket (a :: pre) false with _ | ⟨b1, n, e⟩
    · rfl
    · cases e <;> cases n <;> rfl

/-- A key path of length at least two is a non-empty bucket path followed by
the terminal segment. -/
theorem exists_snoc_of_two_le (p : List Bytes) (h : 2 ≤ p.length) :
    ∃ pre key, pre ≠ [] ∧ p = pre ++ [key] ∧ p.dropLast = pre := by
  have hne : p ≠ [] := by
    intro e
    rw [e] at h
    simp at h
  refine ⟨p.dropLast, p.getLast hne, ?_, (List.dropLast_append_getLast hne).symm, rfl⟩
  intro e
  have := congrArg List.length e
  simp at this
  omega

theorem put_ok (tx tx2 : Tx) (r : BucketRef) (key value : Bytes)
    (h : bbolt.Bucket.Put tx r key value = (tx2, none)) :
    tx2 = { tx with root := modifyAt r (fun es => putEntry es key (.leaf value)) tx.root } := by
  unfold bbolt.Bucket.Put at h
  by_cases hw : tx.writable = false
  · rw [if_pos hw] at h; simp at h
  · rw [if_neg hw] at h
    by_cases h1 : key.length = 0
    · rw [if_pos h1] at h; simp at h
    · rw [if_neg h1] at h
      by_cases h2 : key.length > MaxKeySize
      · rw [if_pos h2] at h; simp at h
      · rw [if_neg h2] at h
        by_cases h3 : value.length > MaxValueSize
        · rw [if_pos h3] at h; simp at h
        · rw [if_neg h3] at h
          split at h
          · simp at h
          · simp only [Prod.mk.injEq, and_true] at h
            exact h.symm

/-! ## Well-formed stores -/

theorem entriesWf_cons (k : Bytes) (n : Node) (rest : Entries) :
    entriesWf ((k, n) :: rest) =
      (rest.all (fun e => bytesLt k e.1) && n.wf && entriesWf rest) := by
  simp [entriesWf]

theorem entriesWf_sorted (es : Entries) (h : entriesWf es = true) : keysSorted es := by
  induction es with
  | nil => exact List.Pairwise.nil
  | cons e rest ih =>
    obtain ⟨k, n⟩ := e
    rw [entriesWf_cons] at h
    simp only [Bool.and_eq_true, List.all_eq_true] at h
    exact List.Pairwise.cons (fun e he => h.1.1 e he) (ih h.2)

theorem entriesWf_child (es : Entries) (k : Bytes) (c : Entries) (h : entriesWf es = true)
    (hm : (k, Node.bucket c) ∈ es) : entriesWf c = true := by
  induction es with
  | nil => simp at hm
  | cons e rest ih =>
    obtain ⟨k0, n⟩ := e
    rw [entriesWf_cons] at h
    simp only [Bool.and_eq_true] at h
    rcases List.mem_cons.mp hm with heq | hm
    · simp only [Prod.mk.injEq] at heq
      have h2 := h.1.2
      rw [← heq.2] at h2
      simpa [Node.wf] using h2
    · exact ih h.2 hm

theorem entriesWf_bucketAt (root : Entries) (r : BucketRef) (B : Entries)
    (h : entriesWf root = true) (hB : bucketAt root r = some B) : entriesWf B = true := by
  induction r generalizing root with
  | nil =>
    simp only [bucketAt, Option.some.injEq] at hB
    rw [← hB]; exact h
  | cons name rest ih =>
    simp only [bucketAt] at hB
    cases hc : childBucket root name with
    | none => simp [hc] at hB
    | some c =>
      simp only [hc] at hB
      have hm := findEntry_mem root name _ ((childBucket_eq_some root name c).mp hc)
      exact ih c (entriesWf_child root name c h hm) hB

theorem findEntry_of_mem (es : Entries) (k : Bytes) (n : Node) (hs : keysSorted es)
    (hm : (k, n) ∈ es) : findEntry es k = some n := by
  induction es with
  | nil => simp at hm
  | cons e rest ih =>
    obtain ⟨k0, x⟩ := e
    rw [findEntry_cons]
    have hs2 := List.pairwise_cons.mp hs
    rcases List.mem_cons.mp hm with heq | hm
    · simp only [Prod.mk.injEq] at heq
      rw [← heq.1, ← heq.2]
      simp [bytesLt_irrefl]
    · have hlt : bytesLt k0 k = true := hs2.1 (k, n) hm
      simp [hlt, ih hs2.2 hm]

theorem without_eq_self (es : Entries) (key : Bytes) (h : ∀ e ∈ es, e.1 ≠ key) :
    without es key = es := by
  unfold without
  rw [List.filter_eq_self]
  intro e he
  simpa using h e he

theorem without_cons_ne (k : Bytes) (x : Node) (rest : Entries) (key : Bytes) (h : k ≠ key) :
    without ((k, x) :: rest) key = (k, x) :: without rest key := by
  simp [without, h]

theorem without_cons_eq (k : Bytes) (x : Node) (rest : Entries) :
    without ((k, x) :: rest) k = without rest k := by
  simp [without]

theorem delEntry_eq_without (es : Entries) (key : Bytes) (hs : keysSorted es) :
    delEntry es key = without es key := by
  induction es with
  | nil => rfl
  | cons e rest ih =>
    obtain ⟨k, x⟩ := e
    have hs2 := List.pairwise_cons.mp hs
    by_cases h1 : bytesLt k key = true
    · have hne : k ≠ key := by
        intro e
        rw [e, bytesLt_irrefl] at h1
        exact Bool.noConfusion h1
      rw [without_cons_ne k x rest key hne, ← ih hs2.2]
      simp [delEntry, h1]
    · have hf : bytesLt k key = false := by simpa using h1
      by_cases h2 : k = key
      · subst h2
        have hrest : without rest k = rest := by
          apply without_eq_self
          intro e he e2
          have := hs2.1 e he
          rw [e2, bytesLt_irrefl] at this
          exact Bool.noConfusion this
        rw [without_cons_eq, hrest]
        simp [delEntry, hf]
      · have hlt : bytesLt key k = true := bytesLt_total k key hf h2
        have hrest : without rest key = rest := by
          apply without_eq_self
          intro e he e2
          have h3 := bytesLt_trans key k e.1 hlt (hs2.1 e he)
          rw [e2, bytesLt_irrefl] at h3
          exact Bool.noConfusion h3
        rw [without_cons_ne k x rest key h2, hrest]
        simp [delEntry, hf, h2]

theorem findEntry_none_without (es : Entries) (key : Bytes) (hs : keysSorted es)
    (h : findEntry es key = none) : without es key = es := by
  apply without_eq_self
  intro e he e2
  have := findEntry_of_mem es e.1 e.2 hs he
  rw [e2, h] at this
  exact Option.noConfusion this

theorem findEntry_without_self (es : Entries) (key : Bytes) :
    findEntry (without es key) key = none := by
  cases h : findEntry (without es key) key with
  | none => rfl
  | some n =>
    have hm := findEntry_mem _ _ _ h
    simp [without] at hm

/-! ## Frame of a rewrite below a path -/

theorem listing_modifyChild (es : Entries) (name : Bytes) (g : Entries → Entries) :
    listing (modifyChild es name g) = listing es := by
  induction es with
  | nil => rfl
  | cons e rest ih =>
    obtain ⟨k, x⟩ := e
    by_cases h1 : bytesLt k name = true
    · simp only [modifyChild, h1, if_true]
      simp only [listing, List.map_cons] at ih ⊢
      rw [ih]
    · by_cases h2 : k = name
      · subst h2
        have hf : bytesLt k k = false := bytesLt_irrefl k
        cases x <;> simp [modifyChild, hf, listing, Node.value, Node.isBucket]
      · simp [modifyChild, h1, h2]

/-- Rewriting the bucket at `pre` leaves every bucket whose path does not
pass through `pre` with the same direct contents. -/
theorem bucketAt_modifyAt_frame (pre : BucketRef) (f : Entries → Entries) (root : Entries)
    (q : BucketRef) (hq : ¬ pre <+: q) :
    (bucketAt (modifyAt pre f root) q).map listing = (bucketAt root q).map listing := by
  induction pre generalizing root q with
  | nil => exact absurd (List.nil_prefix) hq
  | cons m pre ih =>
    cases q with
    | nil => simp [bucketAt, modifyAt, listing_modifyChild]
    | cons n q =>
      simp only [bucketAt, modifyAt]
      by_cases hnm : n = m
      · subst hnm
        rw [childBucket_modifyChild_self]
        cases hc : childBucket root n with
        | none => simp
        | some c =>
          have hq2 : ¬ pre <+: q := by
            intro hp
            exact hq ((List.prefix_cons_inj n).mpr hp)
          simpa using ih c q hq2
      · rw [childBucket_modifyChild_other root m n _ hnm]

theorem engineGet_absent (tx : Tx) (pre : BucketRef) (key : Bytes) (B : Entries)
    (hB : bucketAt tx.root pre = some B) (habs : ∀ v, (key, Node.leaf v) ∉ B) :
    bbolt.Bucket.Get tx pre key = none := by
  unfold bbolt.Bucket.Get
  rw [contents_of_bucketAt tx pre B hB]
  cases hf : findEntry B key with
  | none => rfl
  | some x =>
    cases x with
    | bucket c => rfl
    | leaf v => exact absurd (findEntry_mem B key _ hf) (habs v)

/-! ## Deleting -/

theorem keysSorted_without (es : Entries) (key : Bytes) (hs : keysSorted es) :
    keysSorted (without es key) :=
  List.Pairwise.sublist (List.filter_sublist es) hs

theorem findEntry_without_other (es : Entries) (key t : Bytes) (hs : keysSorted es)
    (hne : t ≠ key) : findEntry (without es key) t = findEntry es t := by
  cases h : findEntry es t with
  | some n =>
    apply findEntry_of_mem _ _ _ (keysSorted_without es key hs)
    have hm := findEntry_mem es t n h
    simp [without, hm, hne]
  | none =>
    cases h2 : findEntry (without es key) t with
    | none => rfl
    | some n =>
      have hm := findEntry_mem _ _ _ h2
      have hm2 : (t, n) ∈ es := (List.mem_filter.mp hm).1
      rw [findEntry_of_mem es t n hs hm2] at h
      exact Option.noConfusion h

theorem bucketAt_cons_none (root : Entries) (name : Bytes) (rest : BucketRef)
    (h : childBucket root name = none) : bucketAt root (name :: rest) = none := by
  simp [bucketAt, h]

theorem childBucket_without_self (es : Entries) (key : Bytes) :
    childBucket (without es key) key = none := by
  simp [childBucket, findEntry_without_self]

/-- The engine's delete step of `Del` in a read-write transaction, on the
bucket `B` at `pre` with sorted keys: no error, `B` loses exactly the entry
named `key`, and no bucket off the path `pre` changes its direct contents. -/
theorem engineDel_result (tx : Tx) (pre : BucketRef) (key : Bytes) (B : Entries)
    (hw : tx.writable = true) (hB : bucketAt tx.root pre = some B) (hs : keysSorted B) :
    ∃ tx1,
      (if (bbolt.Bucket.Bucket tx pre key).isSome then bbolt.Bucket.DeleteBucket tx pre key
        else bbolt.Bucket.Delete tx pre key) = (tx1, none) ∧
      tx1.writable = true ∧
      bucketAt tx1.root pre = some (without B key) ∧
      ∀ q, ¬ pre <+: q → (bucketAt tx1.root q).map listing = (bucketAt tx.root q).map listing := by
  have hcont := contents_of_bucketAt tx pre B hB
  cases hf : findEntry B key with
  | none =>
    refine ⟨tx, ?_, hw, ?_, fun _ _ => rfl⟩
    · simp [bbolt.Bucket.Bucket, bbolt.Bucket.Delete, hcont, childBucket, hf, hw]
    · rw [hB, findEntry_none_without B key hs hf]
  | some x =>
    refine ⟨{ tx with root := modifyAt pre (fun es => delEntry es key) tx.root }, ?_, hw, ?_, ?_⟩
    · cases x with
      | leaf v =>
        simp [bbolt.Bucket.Bucket, bbolt.Bucket.Delete, hcont, childBucket, hf, hw]
      | bucket c =>
        simp [bbolt.Bucket.Bucket, bbolt.Bucket.DeleteBucket, hcont, childBucket, hf, hw]
    · simp only [bucketAt_modifyAt_self, hB, Option.map_some', delEntry_eq_without B key hs]
    · intro q hq
      exact bucketAt_modifyAt_frame pre _ tx.root q hq

/-! ## The two passes of `Scan` -/

theorem forEachBucketLoop_record (cb : List Visit → Bytes → List Visit × Option Error)
    (hcb : ∀ calls k, cb calls k = (calls ++ [⟨k, none, true⟩], none))
    (es : Entries) (calls : List Visit) :
    bbolt.forEachBucketLoop cb calls es = (calls ++ bucketVisits es, none) := by
  induction es generalizing calls with
  | nil => simp [bbolt.forEachBucketLoop, bucketVisits]
  | cons e rest ih =>
    obtain ⟨k, n⟩ := e
    cases n with
    | leaf v =>
      simp only [bbolt.forEachBucketLoop, Node.isBucket]
      rw [if_neg (by simp), ih]
      simp [bucketVisits, Node.isBucket]
    | bucket c =>
      simp only [bbolt.forEachBucketLoop, Node.isBucket, if_true, hcb]
      rw [ih]
      simp [bucketVisits, Node.isBucket]

theorem forEachBucketLoop_all (fn : Visitor) (hfn : ∀ calls c, fn calls c = none)
    (es : Entries) (calls : List Visit) :
    bbolt.forEachBucketLoop (fun calls k => callFn fn calls ⟨k, none, true⟩) calls es =
      (calls ++ bucketVisits es, none) :=
  forEachBucketLoop_record _ (fun calls k => by simp [callFn, hfn]) es calls

theorem forEachLoop_record (cb : List Visit → Bytes → Option Bytes → List Visit × Option Error)
    (es : Entries)
    (hleaf : ∀ calls k v, (k, Node.leaf v) ∈ es →
      cb calls k (some v) = (calls ++ [⟨k, some v, false⟩], none))
    (hbucket : ∀ calls k c, (k, Node.bucket c) ∈ es → cb calls k none = (calls, none))
    (calls : List Visit) :
    bbolt.forEachLoop cb calls es = (calls ++ leafVisits es, none) := by
  induction es generalizing calls with
  | nil => simp [bbolt.forEachLoop, leafVisits]
  | cons e rest ih =>
    obtain ⟨k, n⟩ := e
    have ih2 := ih (fun calls k v hm => hleaf calls k v (List.mem_cons_of_mem _ hm))
      (fun calls k c hm => hbucket calls k c (List.mem_cons_of_mem _ hm))
    cases n with
    | leaf v =>
      simp only [bbolt.forEachLoop, Node.value, hleaf calls k v (List.mem_cons_self _ _)]
      rw [ih2]
      simp [leafVisits, Node.isBucket, Node.value]
    | bucket c =>
      simp only [bbolt.forEachLoop, Node.value, hbucket calls k c (List.mem_cons_self _ _)]
      rw [ih2]
      simp [leafVisits, Node.isBucket]

theorem forEachLoop_leaves (fn : Visitor) (hfn : ∀ calls c, fn calls c = none)
    (isB : Bytes → Option BucketRef) (es : Entries)
    (hflag : ∀ e ∈ es, (isB e.1).isSome = e.2.isBucket) (calls : List Visit) :
    bbolt.forEachLoop
        (fun calls k v =>
          if (isB k).isNone then callFn fn calls ⟨k, v, (isB k).isSome⟩ else (calls, none))
        calls es =
      (calls ++ leafVisits es, none) := by
  apply forEachLoop_record
  · intro calls k v hm
    have hk := hflag (k, .leaf v) hm
    have h1 : isB k = none := by
      cases h : isB k with
      | none => rfl
      | some r => simp [h, Node.isBucket] at hk
    simp [h1, callFn, hfn]
  · intro calls k c hm
    have hk := hflag (k, .bucket c) hm
    cases h : isB k with
    | none => simp [h, Node.isBucket] at hk
    | some r => simp

theorem engineBucket_flag (tx : Tx) (r : BucketRef) (B : Entries)
    (hB : bucketAt tx.root r = some B) (hs : keysSorted B) :
    ∀ e ∈ B, (bbolt.Bucket.Bucket tx r e.1).isSome = e.2.isBucket := by
  intro e he
  obtain ⟨k, n⟩ := e
  have hf := findEntry_of_mem B k n hs he
  cases n <;>
    simp [bbolt.Bucket.Bucket, contents_of_bucketAt tx r B hB, childBucket, hf, Node.isBucket]

theorem visit_names (es : Entries) :
    (bucketVisits es ++ leafVisits es).map Visit.k =
      (es.filter (fun e => e.2.isBucket)).map Prod.fst ++
        (es.filter (fun e => !e.2.isBucket)).map Prod.fst := by
  simp [bucketVisits, leafVisits, List.map_map, Function.comp_def]

theorem visit_names_perm (es : Entries) :
    ((bucketVisits es ++ leafVisits es).map Visit.k).Perm (es.map Prod.fst) := by
  rw [visit_names, ← List.map_append]
  exact List.Perm.map _ (List.filter_append_perm _ es)

theorem names_nodup (es : Entries) (hs : keysSorted es) : (es.map Prod.fst).Nodup := by
  unfold List.Nodup
  rw [List.pairwise_map]
  refine List.Pairwise.imp ?_ hs
  intro a b hab e
  rw [e, bytesLt_irrefl] at hab
  exact Bool.noConfusion hab

theorem bucketVisits_sorted (es : Entries) (hs : keysSorted es) :
    (bucketVisits es).Pairwise (fun a b => bytesLt a.k b.k = true) := by
  unfold bucketVisits
  rw [List.pairwise_map]
  exact List.Pairwise.sublist (List.filter_sublist es) hs

theorem leafVisits_sorted (es : Entries) (hs : keysSorted es) :
    (leafVisits es).Pairwise (fun a b => bytesLt a.k b.k = true) := by
  unfold leafVisits
  rw [List.pairwise_map]
  exact List.Pairwise.sublist (List.filter_sublist es) hs

/-! ## Every operation keeps the store well formed -/

theorem entriesWf_iff (es : Entries) :
    entriesWf es = true ↔ keysSorted es ∧ ∀ e ∈ es, e.2.wf = true := by
  induction es with
  | nil => simp [entriesWf, keysSorted]
  | cons e rest ih =>
    obtain ⟨k, n⟩ := e
    rw [entriesWf_cons]
    simp only [Bool.and_eq_true, List.all_eq_true, ih, keysSorted, List.pairwise_cons,
      List.mem_cons, forall_eq_or_imp]
    constructor
    · rintro ⟨⟨h1, h2⟩, h3, h4⟩
      exact ⟨⟨h1, h3⟩, h2, h4⟩
    · rintro ⟨⟨h1, h3⟩, h2, h4⟩
      exact ⟨⟨h1, h2⟩, h3, h4⟩

theorem putEntry_cons_lt (k : Bytes) (x : Node) (rest : Entries) (key : Bytes) (n : Node)
    (h : bytesLt k key = true) :
    putEntry ((k, x) :: rest) key n = (k, x) :: putEntry rest key n := by
  simp [putEntry, h]

theorem putEntry_cons_eq (k : Bytes) (x : Node) (rest : Entries) (n : Node) :
    putEntry ((k, x) :: rest) k n = (k, n) :: rest := by
  simp [putEntry, bytesLt_irrefl]

theorem putEntry_cons_gt (k : Bytes) (x : Node) (rest : Entries) (key : Bytes) (n : Node)
    (h : bytesLt k key = false) (hne : k ≠ key) :
    putEntry ((k, x) :: rest) key n = (key, n) :: (k, x) :: rest := by
  simp [putEntry, h, hne]

theorem mem_putEntry (es : Entries) (key : Bytes) (n : Node) (e : Bytes × Node)
    (h : e ∈ putEntry es key n) : e = (key, n) ∨ e ∈ es := by
  induction es with
  | nil => simpa [putEntry] using h
  | cons e0 rest ih =>
    obtain ⟨k, x⟩ := e0
    by_cases h1 : bytesLt k key = true
    · rw [putEntry_cons_lt k x rest key n h1] at h
      rcases List.mem_cons.mp h with h | h
      · exact Or.inr (by simp [h])
      · rcases ih h with h | h
        · exact Or.inl h
        · exact Or.inr (List.mem_cons_of_mem _ h)
    · have hf : bytesLt k key = false := by simpa using h1
      by_cases h2 : k = key
      · subst h2
        rw [putEntry_cons_eq] at h
        rcases List.mem_cons.mp h with h | h
        · exact Or.inl h
        · exact Or.inr (List.mem_cons_of_mem _ h)
      · rw [putEntry_cons_gt k x rest key n hf h2] at h
        rcases List.mem_cons.mp h with h | h
        · exact Or.inl h
        · exact Or.inr h

theorem keysSorted_putEntry (es : Entries) (key : Bytes) (n : Node) (hs : keysSorted es) :
    keysSorted (putEntry es key n) := by
  induction es with
  | nil => simp [putEntry, keysSorted]
  | cons e0 rest ih =>
    obtain ⟨k, x⟩ := e0
    have hs2 := List.pairwise_cons.mp hs
    by_cases h1 : bytesLt k key = true
    · rw [putEntry_cons_lt k x rest key n h1]
      refine List.Pairwise.cons ?_ (ih hs2.2)
      intro e he
      rcases mem_putEntry rest key n e he with h | h
      · rw [h]; exact h1
      · exact hs2.1 e h
    · have hf : bytesLt k key = false := by simpa using h1
      by_cases h2 : k = key
      · subst h2
        rw [putEntry_cons_eq]
        exact List.Pairwise.cons (fun e he => hs2.1 e he) hs2.2
      · have hlt : bytesLt key k = true := bytesLt_total k key hf h2
        rw [putEntry_cons_gt k x rest key n hf h2]
        refine List.Pairwise.cons ?_ hs
        intro e he
        rcases List.mem_cons.mp he with h | h
        · rw [h]; exact hlt
        · exact bytesLt_trans key k e.1 hlt (hs2.1 e h)

theorem entriesWf_putEntry (es : Entries) (key : Bytes) (n : Node) (h : entriesWf es = true)
    (hn : n.wf = true) : entriesWf (putEntry es key n) = true := by
  rw [entriesWf_iff] at h ⊢
  refine ⟨keysSorted_putEntry es key n h.1, ?_⟩
  intro e he
  rcases mem_putEntry es key n e he with h2 | h2
  · rw [h2]; exact hn
  · exact h.2 e h2

theorem entriesWf_delEntry (es : Entries) (key : Bytes) (h : entriesWf es = true) :
    entriesWf (delEntry es key) = true := by
  rw [entriesWf_iff] at h
  rw [delEntry_eq_without es key h.1, entriesWf_iff]
  exact ⟨keysSorted_without es key h.1, fun e he => h.2 e (List.mem_filter.mp he).1⟩

theorem modifyChild_keys (es : Entries) (name : Bytes) (g : Entries → Entries) :
    (modifyChild es name g).map Prod.fst = es.map Prod.fst := by
  have hl := congrArg (List.map (fun t : Bytes × Option Bytes × Bool => t.1))
    (listing_modifyChild es name g)
  simpa [listing, List.map_map, Function.comp_def] using hl

theorem keysSorted_iff_keys (es : Entries) :
    keysSorted es ↔ (es.map Prod.fst).Pairwise (fun a b => bytesLt a b = true) := by
  unfold keysSorted
  rw [List.pairwise_map]

theorem mem_modifyChild (es : Entries) (name : Bytes) (g : Entries → Entries)
    (e : Bytes × Node) (h : e ∈ modifyChild es name g) :
    e ∈ es ∨ ∃ c, (name, Node.bucket c) ∈ es ∧ e = (name, Node.bucket (g c)) := by
  induction es with
  | nil => simp [modifyChild] at h
  | cons e0 rest ih =>
    obtain ⟨k, x⟩ := e0
    by_cases h1 : bytesLt k name = true
    · have : modifyChild ((k, x) :: rest) name g = (k, x) :: modifyChild rest name g := by
        simp [modifyChild, h1]
      rw [this] at h
      rcases List.mem_cons.mp h with h | h
      · exact Or.inl (by simp [h])
      · rcases ih h with h | ⟨c, hc, he⟩
        · exact Or.inl (List.mem_cons_of_mem _ h)
        · exact Or.inr ⟨c, List.mem_cons_of_mem _ hc, he⟩
    · have hf : bytesLt k name = false := by simpa using h1
      by_cases h2 : k = name
      · subst h2
        cases x with
        | leaf v =>
          have : modifyChild ((k, .leaf v) :: rest) k g = (k, .leaf v) :: rest := by
            simp [modifyChild, hf]
          rw [this] at h
          exact Or.inl h
        | bucket c =>
          have : modifyChild ((k, .bucket c) :: rest) k g = (k, .bucket (g c)) :: rest := by
            simp [modifyChild, hf]
          rw [this] at h
          rcases List.mem_cons.mp h with h | h
          · exact Or.inr ⟨c, List.mem_cons_self _ _, h⟩
          · exact Or.inl (List.mem_cons_of_mem _ h)
      · have : modifyChild ((k, x) :: rest) name g = (k, x) :: rest := by
          simp [modifyChild, hf, h2]
        rw [this] at h
        exact Or.inl h

theorem entriesWf_modifyChild (es : Entries) (name : Bytes) (g : Entries → Entries)
    (hg : ∀ c, entriesWf c = true → entriesWf (g c) = true) (h : entriesWf es = true) :
    entriesWf (modifyChild es name g) = true := by
  rw [entriesWf_iff] at h ⊢
  constructor
  · rw [keysSorted_iff_keys, modifyChild_keys, ← keysSorted_iff_keys]
    exact h.1
  · intro e he
    rcases mem_modifyChild es name g e he with h2 | ⟨c, hc, h2⟩
    · exact h.2 e h2
    · rw [h2]
      have := h.2 _ hc
      simp only [Node.wf] at this ⊢
      exact hg c this

theorem entriesWf_modifyAt (r : BucketRef) (f : Entries → Entries)
    (hf : ∀ c, entriesWf c = true → entriesWf (f c) = true) (root : Entries)
    (h : entriesWf root = true) : entriesWf (modifyAt r f root) = true := by
  induction r generalizing root with
  | nil => exact hf root h
  | cons name rest ih =>
    exact entriesWf_modifyChild root name _ (fun c hc => ih c hc) h

theorem createBucketIfNotExists_wf (tx : Tx) (r : BucketRef) (key : Bytes) (h : tx.wf = true) :
    (bbolt.Bucket.CreateBucketIfNotExists tx r key).1.wf = true := by
  unfold bbolt.Bucket.CreateBucketIfNotExists
  split
  · exact h
  · split
    · exact h
    · split
      · exact h
      · exact h
      · exact entriesWf_modifyAt r _
          (fun c hc => entriesWf_putEntry c key _ hc (by simp [Node.wf, entriesWf])) tx.root h

theorem put_wf (tx : Tx) (r : BucketRef) (key value : Bytes) (h : tx.wf = true) :
    (bbolt.Bucket.Put tx r key value).1.wf = true := by
  unfold bbolt.Bucket.Put
  repeat' split
  all_goals first
    | exact h
    | exact entriesWf_modifyAt r _
        (fun c hc => entriesWf_putEntry c key _ hc (by simp [Node.wf])) tx.root h

theorem delete_wf (tx : Tx) (r : BucketRef) (key : Bytes) (h : tx.wf = true) :
    (bbolt.Bucket.Delete tx r key).1.wf = true := by
  unfold bbolt.Bucket.Delete
  repeat' split
  all_goals first
    | exact h
    | exact entriesWf_modifyAt r _ (fun c hc => entriesWf_delEntry c key hc) tx.root h

theorem deleteBucket_wf (tx : Tx) (r : BucketRef) (key : Bytes) (h : tx.wf = true) :
    (bbolt.Bucket.DeleteBucket tx r key).1.wf = true := by
  unfold bbolt.Bucket.DeleteBucket
  repeat' split
  all_goals first
    | exact h
    | exact entriesWf_modifyAt r _ (fun c hc => entriesWf_delEntry c key hc) tx.root h

theorem getBucketLoop_step_wf (create : Bool) (i : Nat) (name : Bytes) (tx : Tx)
    (n : Option BucketRef) (res : Tx × Option BucketRef × Option Error) (h : tx.wf = true)
    (hstep :
      (if create then
        if i = 0 then some (bbolt.Tx.CreateBucketIfNotExists tx name)
        else
          match n with
          | none => none
          | some r => some (bbolt.Bucket.CreateBucketIfNotExists tx r name)
      else
        if i = 0 then some (tx, bbolt.Tx.Bucket tx name, none)
        else
          match n with
          | none => none
          | some r => some (tx, bbolt.Bucket.Bucket tx r name, none)) = some res) :
    res.1.wf = true := by
  cases create with
  | true =>
    simp only [if_true] at hstep
    by_cases hi : i = 0
    · simp only [hi, if_true, Option.some.injEq] at hstep
      rw [← hstep]
      exact createBucketIfNotExists_wf tx [] name h
    · simp only [hi, if_false] at hstep
      cases n with
      | none => exact Option.noConfusion hstep
      | some r =>
        simp only [Option.some.injEq] at hstep
        rw [← hstep]
        exact createBucketIfNotExists_wf tx r name h
  | false =>
    simp only [Bool.false_eq_true, if_false] at hstep
    by_cases hi : i = 0
    · simp only [hi, if_true, Option.some.injEq] at hstep
      rw [← hstep]; exact h
    · simp only [hi, if_false] at hstep
      cases n with
      | none => exact Option.noConfusion hstep
      | some r =>
        simp only [Option.some.injEq] at hstep
        rw [← hstep]; exact h

theorem getBucketLoop_wf (create : Bool) (path : List Bytes) (i : Nat) (tx : Tx)
    (n : Option BucketRef) (res : Tx × Option BucketRef × Option Error) (h : tx.wf = true)
    (hres : getBucketLoop create i path tx n = some res) : res.1.wf = true := by
  induction path generalizing i tx n with
  | nil =>
    simp only [getBucketLoop, Option.some.injEq] at hres
    rw [← hres]; exact h
  | cons name rest ih =>
    simp only [getBucketLoop] at hres
    split at hres
    · exact Option.noConfusion hres
    · rename_i tx1 n1 e hstep
      have hw := getBucketLoop_step_wf create i name tx n _ h hstep
      simp only [Option.some.injEq] at hres
      rw [← hres]
      exact hw
    · rename_i tx1 hstep
      have hw := getBucketLoop_step_wf create i name tx n _ h hstep
      simp only [Option.some.injEq] at hres
      rw [← hres]
      exact hw
    · rename_i tx1 r1 hstep
      exact ih (i + 1) tx1 (some r1) (getBucketLoop_step_wf create i name tx n _ h hstep) hres

theorem getBucket_wf (b : bucket) (path : List Bytes) (create : Bool)
    (res : bucket × Option BucketRef × Option Error) (h : b.tx.wf = true)
    (hres : getBucket b path create = some res) : res.1.tx.wf = true := by
  unfold getBucket at hres
  split at hres
  · simp only [Option.some.injEq] at hres
    rw [← hres]; exact h
  · split at hres
    · simp only [Option.some.injEq] at hres
      rw [← hres]; exact h
    · split at hres
      · exact Option.noConfusion hres
      · rename_i tx1 n err hloop
        have hw := getBucketLoop_wf create path 0 b.tx none _ h hloop
        simp only [Option.some.injEq] at hres
        rw [← hres]; exact hw

theorem bucketKeySplit_wf (b : bucket) (keyPath : List Bytes) (create : Bool)
    (res : bucket × Option BucketRef × Bytes × Option Error) (h : b.tx.wf = true)
    (hres : bucketKeySplit b keyPath create = some res) : res.1.tx.wf = true := by
  unfold bucketKeySplit at hres
  split at hres
  · exact Option.noConfusion hres
  · split at hres
    · exact Option.noConfusion hres
    · split at hres
      · exact Option.noConfusion hres
      · rename_i b1 n err hget
        have hw := getBucket_wf b _ create _ h hget
        simp only [Option.some.injEq] at hres
        rw [← hres]; exact hw

/-- The empty store is well formed. -/
theorem emptyRW_wf : emptyRW.tx.wf = true := rfl

/-- `CreateBucket` keeps the store well formed, whatever it returns. -/
theorem CreateBucket_wf (b : bucket) (path : List Bytes) (res : bucket × Option Error)
    (h : b.tx.wf = true) (hres : bucket.CreateBucket b path = some res) :
    res.1.tx.wf = true := by
  unfold bucket.CreateBucket at hres
  split at hres
  · exact Option.noConfusion hres
  · rename_i b1 n err hget
    have hw := getBucket_wf b path true _ h hget
    simp only [Option.some.injEq] at hres
    rw [← hres]; exact hw

/-- `Set` keeps the store well formed, whatever it returns. -/
theorem Set_wf (b : bucket) (keyPath : List Bytes) (value : Bytes) (res : bucket × Option Error)
    (h : b.tx.wf = true) (hres : bucket.Set b keyPath value = some res) :
    res.1.tx.wf = true := by
  unfold bucket.Set at hres
  split at hres
  · simp only [Option.some.injEq] at hres
    rw [← hres]; exact h
  · split at hres
    · simp only [Option.some.injEq] at hres
      rw [← hres]; exact h
    · simp only [Option.some.injEq] at hres
      rw [← hres]; exact h
    · split at hres
      · exact Option.noConfusion hres
      · rename_i hsplit
        have hw := bucketKeySplit_wf b keyPath true _ h hsplit
        simp only [Option.some.injEq] at hres
        rw [← hres]; exact hw
      · exact Option.noConfusion hres
      · rename_i b1 r key hsplit
        have hw := bucketKeySplit_wf b keyPath true _ h hsplit
        simp only [Option.some.injEq] at hres
        rw [← hres]
        exact put_wf b1.tx r key value hw

/-- `Del` keeps the store well formed, whatever it returns. -/
theorem Del_wf (b : bucket) (keyPath : List Bytes) (res : bucket × Option Error)
    (h : b.tx.wf = true) (hres : bucket.Del b keyPath = some res) : res.1.tx.wf = true := by
  unfold bucket.Del at hres
  split at hres
  · simp only [Option.some.injEq] at hres
    rw [← hres]; exact h
  · split at hres
    · simp only [Option.some.injEq] at hres
      rw [← hres]; exact h
    · split at hres
      · exact Option.noConfusion hres
      · rename_i name hname
        simp only [Option.some.injEq] at hres
        rw [← hres]
        exact deleteBucket_wf b.tx [] name h
    · split at hres
      · exact Option.noConfusion hres
      · rename_i hsplit
        have hw := bucketKeySplit_wf b keyPath false _ h hsplit
        simp only [Option.some.injEq] at hres
        rw [← hres]; exact hw
      · exact Option.noConfusion hres
      · rename_i b1 r key hsplit
        have hw := bucketKeySplit_wf b keyPath false _ h hsplit
        split at hres
        · simp only [Option.some.injEq] at hres
          rw [← hres]
          exact deleteBucket_wf b1.tx r key hw
        · simp only [Option.some.injEq] at hres
          rw [← hres]
          exact delete_wf b1.tx r key hw

/-! ## The resolver never faults -/

theorem getBucketLoop_create_total (path : List Bytes) (i : Nat) (tx : Tx) (cur : BucketRef) :
    ∃ res, getBucketLoop true (i + 1) path tx (some cur) = some res := by
  induction path generalizing i tx cur with
  | nil => exact ⟨_, rfl⟩
  | cons name rest ih =>
    simp only [getBucketLoop, Nat.add_one_ne_zero, if_false, if_true]
    rcases bbolt.Bucket.CreateBucketIfNotExists tx cur name with ⟨tx1, n1, e1⟩
    cases e1 with
    | some e => cases n1 <;> exact ⟨_, rfl⟩
    | none =>
      cases n1 with
      | none => exact ⟨_, rfl⟩
      | some r1 => exact ih (i + 1) tx1 r1

/-- `getBucket` returns (no fault), and when it sets no error the bucket it
returns is not `nil` and exists in the store it leaves. -/
theorem getBucket_total (b : bucket) (path : List Bytes) (create : Bool) :
    ∃ b1 n err, getBucket b path create = some (b1, n, err) ∧
      (err = none → ∃ r, n = some r ∧ (bucketAt b1.tx.root r).isSome = true) := by
  obtain ⟨tx, berr⟩ := b
  cases berr with
  | some e => exact ⟨_, _, _, rfl, fun h => Option.noConfusion h⟩
  | none =>
    by_cases hne : path = []
    · subst hne
      exact ⟨_, _, _, rfl, fun h => Option.noConfusion h⟩
    · cases create with
      | false =>
        rw [getBucket_lookup tx path hne]
        cases hB : bucketAt tx.root path with
        | none => exact ⟨_, _, _, rfl, fun h => Option.noConfusion h⟩
        | some B => exact ⟨_, _, _, rfl, fun _ => ⟨path, rfl, by simp [hB]⟩⟩
      | true =>
        rw [getBucket_create tx path hne]
        obtain ⟨⟨tx1, n, err⟩, hres⟩ := getBucketLoop_create_total path 0 tx []
        rw [show (0 : Nat) + 1 = 1 from rfl] at hres
        rw [hres]
        refine ⟨_, _, _, rfl, ?_⟩
        intro herr
        subst herr
        obtain ⟨hn, ⟨c, hc⟩, -⟩ := getBucketLoop_create_ok path 0 tx tx1 [] tx.root n rfl hres
        exact ⟨[] ++ path, hn, by simp at hc; simp [hc]⟩

theorem bucketKeySplit_total (b : bucket) (pre : List Bytes) (key : Bytes) (create : Bool) :
    ∃ b1 n err, bucketKeySplit b (pre ++ [key]) create = some (b1, n, key, err) ∧
      (err = none → ∃ r, n = some r ∧ (bucketAt b1.tx.root r).isSome = true) := by
  obtain ⟨b1, n, err, h, hn⟩ := getBucket_total b pre create
  exact ⟨b1, n, err, by rw [bucketKeySplit_snoc, h], hn⟩

/-- A key path of length at least two, split at its terminal segment. -/
theorem two_le_cases (p : List Bytes) :
    p.length = 0 ∨ p.length = 1 ∨ ∃ a pre key, p = (a :: pre) ++ [key] := by
  by_cases h : 2 ≤ p.length
  · obtain ⟨pre, key, hpre, hp, -⟩ := exists_snoc_of_two_le p h
    cases pre with
    | nil => exact absurd rfl hpre
    | cons a pre => exact Or.inr (Or.inr ⟨a, pre, key, hp⟩)
  · omega

theorem Set_total (b : bucket) (p : List Bytes) (v : Bytes) :
    ∃ res, bucket.Set b p v = some res := by
  apply Option.isSome_iff_exists.mp
  cases hb : b.err with
  | some e => simp [bucket.Set, hb]
  | none =>
    rcases two_le_cases p with h | h | ⟨a, pre, key, rfl⟩
    · simp [bucket.Set, hb, h]
    · simp [bucket.Set, hb, h]
    · rw [Set_deep b (a :: pre) key v hb (by simp)]
      obtain ⟨b1, n, err, h, hn⟩ := getBucket_total b (a :: pre) true
      rw [h]
      cases err with
      | some e => cases n <;> rfl
      | none =>
        obtain ⟨r, hr, -⟩ := hn rfl
        subst hr
        rfl

theorem Get_total (b : bucket) (p : List Bytes) :
    ∃ res, bucket.Get b p = some res := by
  apply Option.isSome_iff_exists.mp
  cases hb : b.err with
  | some e => simp [bucket.Get, hb]
  | none =>
    rcases two_le_cases p with h | h | ⟨a, pre, key, rfl⟩
    · simp [bucket.Get, hb, h]
    · simp [bucket.Get, hb, h]
    · rw [Get_deep b (a :: pre) key hb (by simp)]
      obtain ⟨b1, n, err, h, hn⟩ := getBucket_total b (a :: pre) false
      rw [h]
      cases err with
      | some e => cases n <;> rfl
      | none =>
        obtain ⟨r, hr, -⟩ := hn rfl
        subst hr
        rfl

theorem Del_total (b : bucket) (p : List Bytes) :
    ∃ res, bucket.Del b p = some res := by
  apply Option.isSome_iff_exists.mp
  cases hb : b.err with
  | some e => simp [bucket.Del, hb]
  | none =>
    rcases two_le_cases p with h | h | ⟨a, pre, key, rfl⟩
    · simp [bucket.Del, hb, h]
    · obtain ⟨s, rfl⟩ := List.length_eq_one.mp h
      simp [bucket.Del, hb]
    · rw [Del_deep b (a :: pre) key hb (by simp)]
      obtain ⟨b1, n, err, h, hn⟩ := getBucket_total b (a :: pre) false
      rw [h]
      cases err with
      | some e => cases n <;> rfl
      | none =>
        obtain ⟨r, hr, -⟩ := hn rfl
        subst hr
        by_cases hbk : (bbolt.Bucket.Bucket b1.tx r key).isSome = true
        · simp [hbk]
        · simp [hbk]

theorem scanBody_total (b : bucket) (q : List Bytes) (scan : Bytes) (fn : Visitor) :
    ∃ res, scanBody b q scan fn = some res := by
  apply Option.isSome_iff_exists.mp
  unfold scanBody
  by_cases hq : q.length = 0
  · rw [if_pos hq]
    rfl
  · rw [if_neg hq]
    obtain ⟨b1, n, err, h, hn⟩ := getBucket_total b q false
    rw [h]
    cases err with
    | some e => cases n <;> rfl
    | none =>
      obtain ⟨r, hr, -⟩ := hn rfl
      subst hr
      simp only
      split
      · split <;> rfl
      · split <;> rfl

theorem Scan_total (b : bucket) (q : List Bytes) (scan : Bytes) (fn : Visitor) :
    ∃ res, bucket.Scan b q scan fn = some res := by
  apply Option.isSome_iff_exists.mp
  cases hb : b.err with
  | some e => simp [bucket.Scan, hb]
  | none =>
    obtain ⟨⟨b1, calls, err⟩, h⟩ := scanBody_total b q scan fn
    simp only [bucket.Scan, hb, h]
    split <;> rfl

/-! ## Scanning the root -/

theorem forEachLoop_root (cb : List Visit → Bytes → Option Bytes → List Visit × Option Error)
    (hcb : ∀ calls k v, cb calls k v = (calls ++ [⟨k, none, true⟩], none))
    (es : Entries) (calls : List Visit) :
    bbolt.forEachLoop cb calls es =
      (calls ++ es.map (fun e => ⟨e.1, none, true⟩), none) := by
  induction es generalizing calls with
  | nil => simp [bbolt.forEachLoop]
  | cons e rest ih =>
    obtain ⟨k, n⟩ := e
    simp only [bbolt.forEachLoop, hcb]
    rw [ih]
    simp

theorem bucketVisits_of_all (es : Entries) (h : es.all (fun e => e.2.isBucket) = true) :
    bucketVisits es = es.map (fun e => ⟨e.1, none, true⟩) := by
  unfold bucketVisits
  rw [List.filter_eq_self.mpr]
  intro e he
  exact List.all_eq_true.mp h e he

/-! ## Early termination of `Scan` -/

theorem Ran_callFn (fn : Visitor) (calls : List Visit) (c : Visit) (h : Ran fn calls none) :
    Ran fn (callFn fn calls c).1 (callFn fn calls c).2 :=
  Ran.call calls c h

theorem forEachLoop_ran (fn : Visitor)
    (cb : List Visit → Bytes → Option Bytes → List Visit × Option Error)
    (hcb : ∀ calls k v, Ran fn calls none → Ran fn (cb calls k v).1 (cb calls k v).2)
    (es : Entries) (calls : List Visit) (h : Ran fn calls none) :
    Ran fn (bbolt.forEachLoop cb calls es).1 (bbolt.forEachLoop cb calls es).2 := by
  induction es generalizing calls with
  | nil => simpa [bbolt.forEachLoop] using h
  | cons e rest ih =>
    obtain ⟨k, n⟩ := e
    have hstep := hcb calls k n.value h
    simp only [bbolt.forEachLoop]
    rcases hres : cb calls k n.value with ⟨s1, r⟩
    rw [hres] at hstep
    cases r with
    | some e => simpa using hstep
    | none => exact ih s1 hstep

theorem forEachBucketLoop_ran (fn : Visitor)
    (cb : List Visit → Bytes → List Visit × Option Error)
    (hcb : ∀ calls k, Ran fn calls none → Ran fn (cb calls k).1 (cb calls k).2)
    (es : Entries) (calls : List Visit) (h : Ran fn calls none) :
    Ran fn (bbolt.forEachBucketLoop cb calls es).1 (bbolt.forEachBucketLoop cb calls es).2 := by
  induction es generalizing calls with
  | nil => simpa [bbolt.forEachBucketLoop] using h
  | cons e rest ih =>
    obtain ⟨k, n⟩ := e
    simp only [bbolt.forEachBucketLoop]
    by_cases hb : n.isBucket = true
    · rw [if_pos hb]
      have hstep := hcb calls k h
      rcases hres : cb calls k with ⟨s1, r⟩
      rw [hres] at hstep
      cases r with
      | some e => simpa using hstep
      | none => exact ih s1 hstep
    · rw [if_neg hb]
      exact ih calls h

theorem scanCursorLoop_ran (scan : Bytes) (fn : Visitor) (cur : Entries) (calls : List Visit)
    (h : Ran fn calls none) :
    Ran fn (scanCursorLoop scan fn calls cur).1 (scanCursorLoop scan fn calls cur).2 := by
  induction cur generalizing calls with
  | nil => simpa [scanCursorLoop] using h
  | cons e rest ih =>
    obtain ⟨k, n⟩ := e
    simp only [scanCursorLoop]
    by_cases hp : hasPrefix k scan = false
    · rw [if_pos hp]
      exact h
    · rw [if_neg hp]
      have hstep := Ran_callFn fn calls ⟨k, n.value, false⟩ h
      rcases hres : callFn fn calls ⟨k, n.value, false⟩ with ⟨s1, r⟩
      rw [hres] at hstep
      cases r with
      | some e => simpa using hstep
      | none => exact ih s1 hstep

/-- Once a call has returned an error no further call is made, and that
error is the one the loops hand back. -/
theorem Ran_last (fn : Visitor) (calls : List Visit) (last : Option Error)
    (h : Ran fn calls last) (i : Nat) (hi : i < calls.length) (e : Error)
    (he : fn (calls.take i) (calls.get ⟨i, hi⟩) = some e) :
    i + 1 = calls.length ∧ last = some e := by
  induction h generalizing i e with
  | start => simp at hi
  | call calls c hprev ih =>
    by_cases hlt : i < calls.length
    · have h1 : (calls ++ [c]).take i = calls.take i := by
        rw [List.take_append_of_le_length (Nat.le_of_lt hlt)]
      have h2 : (calls ++ [c]).get ⟨i, hi⟩ = calls.get ⟨i, hlt⟩ := by
        simp [List.getElem_append_left hlt]
      rw [h1, h2] at he
      exact absurd (ih i hlt e he).2 (by simp)
    · have hlen : i = calls.length := by
        simp at hi
        omega
      subst hlen
      have h1 : (calls ++ [c]).take calls.length = calls := by simp
      have h2 : (calls ++ [c]).get ⟨calls.length, hi⟩ = c := by simp
      rw [h1, h2] at he
      exact ⟨by simp, he⟩

theorem scanBody_ran (b : bucket) (q : List Bytes) (scan : Bytes) (fn : Visitor)
    (b1 : bucket) (calls : List Visit) (err : Option Error)
    (h : scanBody b q scan fn = some (b1, calls, err)) : calls = [] ∨ Ran fn calls err := by
  unfold scanBody at h
  split at h
  · have hr := forEachLoop_ran fn
      (fun calls k _ => (fun calls name (_ : Option BucketRef) =>
        callFn fn calls ⟨name, none, true⟩) calls k (bbolt.Bucket.Bucket b.tx [] k))
      (fun calls k _ hc => Ran_callFn fn calls _ hc) (b.tx.contents []) [] Ran.start
    simp only [bbolt.Tx.ForEach, bbolt.Bucket.ForEach, Option.some.injEq, Prod.mk.injEq] at h
    obtain ⟨-, h2, h3⟩ := h
    rw [← h2, ← h3]
    exact Or.inr hr
  · split at h
    · exact Option.noConfusion h
    · simp only [Option.some.injEq, Prod.mk.injEq] at h
      exact Or.inl h.2.1.symm
    · exact Option.noConfusion h
    · rename_i b2 r hget
      split at h
      · have hr1 := forEachBucketLoop_ran fn (fun calls k => callFn fn calls ⟨k, none, true⟩)
          (fun calls k hc => Ran_callFn fn calls _ hc) (b2.tx.contents r) [] Ran.start
        simp only [bbolt.Bucket.ForEachBucket] at h
        split at h
        · rename_i calls1 e hloop
          rw [hloop] at hr1
          simp only [Option.some.injEq, Prod.mk.injEq] at h
          obtain ⟨-, h2, h3⟩ := h
          rw [← h2, ← h3]
          exact Or.inr hr1
        · rename_i calls1 hloop
          rw [hloop] at hr1
          have hr2 := forEachLoop_ran fn
            (fun calls k v =>
              if (bbolt.Bucket.Bucket b2.tx r k).isNone then
                callFn fn calls ⟨k, v, (bbolt.Bucket.Bucket b2.tx r k).isSome⟩
              else (calls, none))
            (fun calls k v hc => by
              by_cases hk : (bbolt.Bucket.Bucket b2.tx r k).isNone = true
              · simp only [hk, if_true]
                exact Ran_callFn fn calls _ hc
              · simp only [hk]
                exact hc) (b2.tx.contents r) calls1 hr1
          simp only [bbolt.Bucket.ForEach, Option.some.injEq, Prod.mk.injEq] at h
          obtain ⟨-, h2, h3⟩ := h
          rw [← h2, ← h3]
          exact Or.inr hr2
      · have hr1 := forEachBucketLoop_ran fn
          (fun calls k =>
            if hasPrefix k scan then callFn fn calls ⟨k, none, true⟩ else (calls, none))
          (fun calls k hc => by
            by_cases hk : hasPrefix k scan = true
            · simp only [hk, if_true]
              exact Ran_callFn fn calls _ hc
            · simp only [hk]
              exact hc) (b2.tx.contents r) [] Ran.start
        simp only [bbolt.Bucket.ForEachBucket] at h
        split at h
        · rename_i calls1 e hloop
          rw [hloop] at hr1
          simp only [Option.some.injEq, Prod.mk.injEq] at h
          obtain ⟨-, h2, h3⟩ := h
          rw [← h2, ← h3]
          exact Or.inr hr1
        · rename_i calls1 hloop
          rw [hloop] at hr1
          have hr2 := scanCursorLoop_ran scan fn (bbolt.Cursor.Seek b2.tx r scan) calls1 hr1
          simp only [Option.some.injEq, Prod.mk.injEq] at h
          obtain ⟨-, h2, h3⟩ := h
          rw [← h2, ← h3]
          exact Or.inr hr2

/-! ## Putting an entry: what stays -/

theorem mem_putEntry_of_mem (es : Entries) (key : Bytes) (n : Node) (e : Bytes × Node)
    (he : e ∈ es) (hne : e.1 ≠ key) : e ∈ putEntry es key n := by
  induction es with
  | nil => simp at he
  | cons e0 rest ih =>
    obtain ⟨k, x⟩ := e0
    by_cases h1 : bytesLt k key = true
    · rw [putEntry_cons_lt k x rest key n h1]
      rcases List.mem_cons.mp he with h | h
      · exact List.mem_cons.mpr (Or.inl h)
      · exact List.mem_cons_of_mem _ (ih h)
    · have hf : bytesLt k key = false := by simpa using h1
      by_cases h2 : k = key
      · subst h2
        rw [putEntry_cons_eq]
        rcases List.mem_cons.mp he with h | h
        · rw [h] at hne
          exact absurd rfl hne
        · exact List.mem_cons_of_mem _ h
      · rw [putEntry_cons_gt k x rest key n hf h2]
        exact List.mem_cons_of_mem _ he

theorem findEntry_putEntry_other (es : Entries) (key m : Bytes) (n : Node) (hs : keysSorted es)
    (hne : m ≠ key) : findEntry (putEntry es key n) m = findEntry es m := by
  have hs2 := keysSorted_putEntry es key n hs
  cases h : findEntry es m with
  | some x =>
    exact findEntry_of_mem _ m x hs2
      (mem_putEntry_of_mem es key n (m, x) (findEntry_mem es m x h) hne)
  | none =>
    cases h2 : findEntry (putEntry es key n) m with
    | none => rfl
    | some x =>
      rcases mem_putEntry es key n (m, x) (findEntry_mem _ m x h2) with heq | hm
      · simp only [Prod.mk.injEq] at heq
        exact absurd heq.1 hne
      · rw [findEntry_of_mem es m x hs hm] at h
        exact Option.noConfusion h

theorem childBucket_putEntry_other (es : Entries) (key m : Bytes) (n : Node)
    (hs : keysSorted es) (hne : m ≠ key) :
    childBucket (putEntry es key n) m = childBucket es m := by
  unfold childBucket
  rw [findEntry_putEntry_other es key m n hs hne]

theorem leafValue_putEntry_other (es : Entries) (key m : Bytes) (n : Node)
    (hs : keysSorted es) (hne : m ≠ key) :
    leafValue (putEntry es key n) m = leafValue es m := by
  unfold leafValue
  rw [findEntry_putEntry_other es key m n hs hne]

theorem leafValue_cons (k : Bytes) (x : Node) (rest : Entries) (key : Bytes) :
    leafValue ((k, x) :: rest) key =
      if bytesLt k key then leafValue rest key else if k = key then x.value else none := by
  unfold leafValue
  rw [findEntry_cons]
  by_cases h1 : bytesLt k key = true
  · simp [h1]
  · by_cases h2 : k = key
    · subst h2
      cases x <;> simp [bytesLt_irrefl, Node.value]
    · simp [h1, h2]

theorem leafValue_of_listing (C C1 : Entries) (key : Bytes) (h : listing C = listing C1) :
    leafValue C key = leafValue C1 key := by
  induction C generalizing C1 with
  | nil =>
    cases C1 with
    | nil => rfl
    | cons e rest => simp [listing] at h
  | cons e rest ih =>
    cases C1 with
    | nil => simp [listing] at h
    | cons e1 rest1 =>
      obtain ⟨k, x⟩ := e
      obtain ⟨k1, x1⟩ := e1
      simp only [listing, List.map_cons, List.cons.injEq, Prod.mk.injEq] at h
      obtain ⟨⟨hk, hv, -⟩, hrest⟩ := h
      rw [leafValue_cons, leafValue_cons, ih rest1 hrest, hk, hv]

theorem bucketAt_put_through (root : Entries) (r rest : BucketRef) (B : Entries)
    (f : Entries → Entries) (hB : bucketAt root r = some B) :
    bucketAt (modifyAt r f root) (r ++ rest) = bucketAt (f B) rest := by
  rw [bucketAt_append, bucketAt_modifyAt_self, hB]
  rfl

theorem bucketAt_through (root : Entries) (r rest : BucketRef) (B : Entries)
    (hB : bucketAt root r = some B) : bucketAt root (r ++ rest) = bucketAt B rest := by
  rw [bucketAt_append, hB]
  rfl

theorem bucketAt_putEntry_other (B : Entries) (key m : Bytes) (n : Node) (rest : BucketRef)
    (hs : keysSorted B) (hne : m ≠ key) :
    bucketAt (putEntry B key n) (m :: rest) = bucketAt B (m :: rest) := by
  simp only [bucketAt, childBucket_putEntry_other B key m n hs hne]

/-- Putting the entry `key` into the bucket at `r`, where `key` was not a
bucket: every bucket that existed still exists. -/
theorem put_keeps_buckets (root : Entries) (r : BucketRef) (B : Entries) (key : Bytes)
    (n : Node) (hB : bucketAt root r = some B) (hs : keysSorted B)
    (hnb : childBucket B key = none) (pre : BucketRef)
    (hpre : (bucketAt root pre).isSome = true) :
    (bucketAt (modifyAt r (fun es => putEntry es key n) root) pre).isSome = true := by
  by_cases hthrough : r <+: pre
  · obtain ⟨rest, rfl⟩ := hthrough
    rw [bucketAt_put_through root r rest B _ hB]
    rw [bucketAt_through root r rest B hB] at hpre
    cases rest with
    | nil => rfl
    | cons m rest =>
      by_cases hm : m = key
      · subst hm
        simp [bucketAt, hnb] at hpre
      · rw [bucketAt_putEntry_other B key m n rest hs hm]
        exact hpre
  · have hframe := bucketAt_modifyAt_frame r (fun es => putEntry es key n) root pre hthrough
    cases h1 : bucketAt root pre with
    | none => simp [h1] at hpre
    | some C =>
      cases h2 : bucketAt (modifyAt r (fun es => putEntry es key n) root) pre with
      | none => simp [h1, h2] at hframe
      | some C1 => rfl

/-- Putting the entry `key` into the bucket at `r`, where `key` was not a
bucket: the leaf stored at any key path other than `r ++ [key]` and not below
it is the same. -/
theorem put_keeps_leaves (root : Entries) (r : BucketRef) (B : Entries) (key : Bytes)
    (n : Node) (hB : bucketAt root r = some B) (hs : keysSorted B)
    (hnb : childBucket B key = none) (pre : BucketRef) (k : Bytes)
    (hother : ¬ (pre = r ∧ k = key)) (hbelow : ¬ (r ++ [key]) <+: pre) :
    leafAt (modifyAt r (fun es => putEntry es key n) root) pre k = leafAt root pre k := by
  unfold leafAt
  by_cases hthrough : r <+: pre
  · obtain ⟨rest, rfl⟩ := hthrough
    rw [bucketAt_put_through root r rest B _ hB, bucketAt_through root r rest B hB]
    cases rest with
    | nil =>
      have hk : k ≠ key := fun e => hother ⟨by simp, e⟩
      simp only [bucketAt]
      exact leafValue_putEntry_other B key k n hs hk
    | cons m rest =>
      have hm : m ≠ key := by
        intro e
        subst e
        exact hbelow ⟨rest, by simp⟩
      rw [bucketAt_putEntry_other B key m n rest hs hm]
  · have hframe := bucketAt_modifyAt_frame r (fun es => putEntry es key n) root pre hthrough
    cases h1 : bucketAt root pre with
    | none =>
      cases h2 : bucketAt (modifyAt r (fun es => putEntry es key n) root) pre with
      | none => rfl
      | some C1 => simp [h1, h2] at hframe
    | some C =>
      cases h2 : bucketAt (modifyAt r (fun es => putEntry es key n) root) pre with
      | none => simp [h1, h2] at hframe
      | some C1 =>
        simp only [h1, h2, Option.map_some', Option.some.injEq] at hframe
        exact leafValue_of_listing C1 C k hframe

/-! ## A creating resolution only adds buckets -/

theorem Grown_refl (root : Entries) : Grown root root :=
  ⟨fun _ h => h, fun _ _ => rfl⟩

theorem Grown_trans (a b c : Entries) (h1 : Grown a b) (h2 : Grown b c) : Grown a c :=
  ⟨fun pre h => h2.1 pre (h1.1 pre h), fun pre key => (h2.2 pre key).trans (h1.2 pre key)⟩

theorem leafValue_putEntry_bucket (B : Entries) (key : Bytes) (c : Entries) :
    leafValue (putEntry B key (.bucket c)) key = none := by
  simp [leafValue, findEntry_putEntry_self]

theorem leafValue_putEntry_leaf (B : Entries) (key v : Bytes) :
    leafValue (putEntry B key (.leaf v)) key = some v := by
  simp [leafValue, findEntry_putEntry_self]

theorem childBucket_none_of_findEntry_none (B : Entries) (key : Bytes)
    (h : findEntry B key = none) : childBucket B key = none := by
  simp [childBucket, h]

/-- Creating the missing bucket `key` in the bucket at `r` only adds a
bucket. -/
theorem grown_putBucket (root : Entries) (r : BucketRef) (B : Entries) (key : Bytes)
    (hB : bucketAt root r = some B) (hs : keysSorted B) (habs : findEntry B key = none) :
    Grown root (modifyAt r (fun es => putEntry es key (.bucket [])) root) := by
  have hnb := childBucket_none_of_findEntry_none B key habs
  refine ⟨fun pre h => put_keeps_buckets root r B key _ hB hs hnb pre h, ?_⟩
  intro pre k
  by_cases hsame : pre = r ∧ k = key
  · obtain ⟨rfl, rfl⟩ := hsame
    have h1 := bucketAt_put_through root pre [] B (fun es => putEntry es k (.bucket [])) hB
    simp only [List.append_nil, bucketAt] at h1
    simp only [leafAt, h1, hB]
    rw [leafValue_putEntry_bucket]
    simp [leafValue, habs]
  · by_cases hbelow : (r ++ [key]) <+: pre
    · obtain ⟨rest, rfl⟩ := hbelow
      have h1 := bucketAt_put_through root r (key :: rest) B
        (fun es => putEntry es key (.bucket [])) hB
      have h2 := bucketAt_through root r (key :: rest) B hB
      simp only [List.append_assoc, List.singleton_append]
      simp only [bucketAt, childBucket_putEntry_bucket, hnb] at h1 h2
      unfold leafAt
      rw [h1, h2]
      cases rest with
      | nil => simp [bucketAt, leafValue, findEntry_nil]
      | cons m rest => simp [bucketAt, childBucket, findEntry_nil]
    · exact put_keeps_leaves root r B key _ hB hs hnb pre k hsame hbelow

theorem createBucketIfNotExists_grown (tx : Tx) (cur : BucketRef) (name : Bytes) (es : Entries)
    (hwf : tx.wf = true) (hcur : bucketAt tx.root cur = some es) :
    Grown tx.root (bbolt.Bucket.CreateBucketIfNotExists tx cur name).1.root := by
  have hs : keysSorted es := entriesWf_sorted es (entriesWf_bucketAt tx.root cur es hwf hcur)
  unfold bbolt.Bucket.CreateBucketIfNotExists
  rw [contents_of_bucketAt tx cur es hcur]
  split
  · exact Grown_refl _
  · split
    · exact Grown_refl _
    · split
      · exact Grown_refl _
      · exact Grown_refl _
      · rename_i habs
        exact grown_putBucket tx.root cur es name hcur hs habs

theorem getBucketLoop_create_grown (path : List Bytes) (i : Nat) (tx : Tx) (cur : BucketRef)
    (es : Entries) (res : Tx × Option BucketRef × Option Error) (hwf : tx.wf = true)
    (hcur : bucketAt tx.root cur = some es)
    (h : getBucketLoop true (i + 1) path tx (some cur) = some res) :
    Grown tx.root res.1.root := by
  induction path generalizing i tx cur es with
  | nil =>
    simp only [getBucketLoop, Option.some.injEq] at h
    rw [← h]
    exact Grown_refl _
  | cons name rest ih =>
    simp only [getBucketLoop, Nat.add_one_ne_zero, if_false, if_true] at h
    have hg := createBucketIfNotExists_grown tx cur name es hwf hcur
    have hw := createBucketIfNotExists_wf tx cur name hwf
    rcases hstep : bbolt.Bucket.CreateBucketIfNotExists tx cur name with ⟨tx2, n2, e2⟩
    rw [hstep] at h hg hw
    cases e2 with
    | some e =>
      cases n2 <;>
      · simp only [Option.some.injEq] at h
        rw [← h]
        exact hg
    | none =>
      cases n2 with
      | none =>
        simp only [Option.some.injEq] at h
        rw [← h]
        exact hg
      | some r1 =>
        obtain ⟨hn2, ⟨c, hc⟩, -⟩ := createBucketIfNotExists_ok tx tx2 cur name es _ hcur hstep
        simp only [Option.some.injEq] at hn2
        subst hn2
        simp only at h
        exact Grown_trans _ _ _ hg (ih (i + 1) tx2 (cur ++ [name]) c hw hc h)

/-- A creating `getBucket` on a well-formed store only adds buckets, whatever
it returns. -/
theorem getBucket_create_grown (tx : Tx) (path : List Bytes)
    (res : bucket × Option BucketRef × Option Error) (hwf : tx.wf = true)
    (h : getBucket ⟨tx, none⟩ path true = some res) :
    Grown tx.root res.1.tx.root ∧ res.1.err = none := by
  by_cases hne : path = []
  · subst hne
    simp only [getBucket, List.length_nil, if_true, Option.some.injEq] at h
    rw [← h]
    exact ⟨Grown_refl _, rfl⟩
  · rw [getBucket_create tx path hne] at h
    rcases hloop : getBucketLoop true 1 path tx (some []) with _ | ⟨tx1, n, err⟩
    · rw [hloop] at h
      exact Option.noConfusion h
    · rw [hloop] at h
      simp only [Option.some.injEq] at h
      rw [← h]
      exact ⟨getBucketLoop_create_grown path 0 tx [] tx.root _ hwf rfl hloop, rfl⟩

/-! ## Engine calls that fail change nothing -/

theorem put_err (tx : Tx) (r : BucketRef) (key value : Bytes) (e : Error)
    (h : (bbolt.Bucket.Put tx r key value).2 = some e) :
    (bbolt.Bucket.Put tx r key value).1 = tx := by
  unfold bbolt.Bucket.Put at h ⊢
  repeat' split
  all_goals first
    | rfl
    | (exfalso; simp_all)

theorem delete_err (tx : Tx) (r : BucketRef) (key : Bytes) (e : Error)
    (h : (bbolt.Bucket.Delete tx r key).2 = some e) :
    (bbolt.Bucket.Delete tx r key).1 = tx := by
  unfold bbolt.Bucket.Delete at h ⊢
  repeat' split
  all_goals first
    | rfl
    | (exfalso; simp_all)

theorem deleteBucket_err (tx : Tx) (r : BucketRef) (key : Bytes) (e : Error)
    (h : (bbolt.Bucket.DeleteBucket tx r key).2 = some e) :
    (bbolt.Bucket.DeleteBucket tx r key).1 = tx := by
  unfold bbolt.Bucket.DeleteBucket at h ⊢
  repeat' split
  all_goals first
    | rfl
    | (exfalso; simp_all)

/-! ## Operations that return an error -/

theorem Del_err_unchanged (tx : Tx) (p : List Bytes) (b1 : bucket) (e : Error)
    (h : bucket.Del ⟨tx, none⟩ p = some (b1, some e)) : b1 = ⟨tx, none⟩ := by
  rcases two_le_cases p with h0 | h1 | ⟨a, pre, key, rfl⟩
  · have hp : p = [] := List.length_eq_zero.mp h0
    subst hp
    simp only [bucket.Del, List.length_nil, Option.some.injEq, Prod.mk.injEq] at h
    exact h.1.symm
  · obtain ⟨s, rfl⟩ := List.length_eq_one.mp h1
    simp only [bucket.Del, List.length_singleton, List.getElem?_cons_zero, bbolt.Tx.DeleteBucket,
      Option.some.injEq, Prod.mk.injEq] at h
    obtain ⟨hb, he⟩ := h
    rw [← hb, deleteBucket_err tx [] s e he]
  · rw [Del_deep _ _ _ rfl (by simp), getBucket_lookup _ _ (by simp)] at h
    cases hB : bucketAt tx.root (a :: pre) with
    | none =>
      simp only [hB, Option.some.injEq, Prod.mk.injEq] at h
      exact h.1.symm
    | some B =>
      simp only [hB] at h
      split at h
      · simp only [Option.some.injEq, Prod.mk.injEq] at h
        obtain ⟨hb, he⟩ := h
        rw [← hb, deleteBucket_err tx _ key e he]
      · simp only [Option.some.injEq, Prod.mk.injEq] at h
        obtain ⟨hb, he⟩ := h
        rw [← hb, delete_err tx _ key e he]

theorem CreateBucket_grown (tx : Tx) (p : List Bytes) (b1 : bucket) (err : Option Error)
    (hwf : tx.wf = true) (h : bucket.CreateBucket ⟨tx, none⟩ p = some (b1, err)) :
    Grown tx.root b1.tx.root ∧ b1.err = none := by
  unfold bucket.CreateBucket at h
  split at h
  · exact Option.noConfusion h
  · rename_i b2 n e2 hget
    simp only [Option.some.injEq, Prod.mk.injEq] at h
    rw [← h.1]
    exact getBucket_create_grown tx p _ hwf hget

theorem Set_err_grown (tx : Tx) (p : List Bytes) (v : Bytes) (b1 : bucket) (e : Error)
    (hwf : tx.wf = true) (h : bucket.Set ⟨tx, none⟩ p v = some (b1, some e)) :
    Grown tx.root b1.tx.root ∧ b1.err = none := by
  rcases two_le_cases p with h0 | h1 | ⟨a, pre, key, rfl⟩
  · simp only [bucket.Set, h0, Option.some.injEq, Prod.mk.injEq] at h
    rw [← h.1]
    exact ⟨Grown_refl _, rfl⟩
  · simp only [bucket.Set, h1, Option.some.injEq, Prod.mk.injEq] at h
    rw [← h.1]
    exact ⟨Grown_refl _, rfl⟩
  · rw [Set_deep _ _ _ _ rfl (by simp)] at h
    obtain ⟨b2, n, err, hget, hn⟩ := getBucket_total ⟨tx, none⟩ (a :: pre) true
    have hg := getBucket_create_grown tx (a :: pre) _ hwf hget
    rw [hget] at h
    cases err with
    | some e2 =>
      cases n <;>
      · simp only [Option.some.injEq, Prod.mk.injEq] at h
        rw [← h.1]
        exact hg
    | none =>
      obtain ⟨r, hr, -⟩ := hn rfl
      subst hr
      simp only [Option.some.injEq, Prod.mk.injEq] at h
      obtain ⟨hb, he⟩ := h
      rw [← hb, put_err b2.tx r key v e he]
      exact hg

/-! ## `Set` on an existing name -/

theorem put_ok_notBucket (tx tx2 : Tx) (r : BucketRef) (key value : Bytes)
    (h : bbolt.Bucket.Put tx r key value = (tx2, none)) :
    childBucket (tx.contents r) key = none := by
  unfold bbolt.Bucket.Put at h
  by_cases hw : tx.writable = false
  · rw [if_pos hw] at h; simp at h
  · rw [if_neg hw] at h
    by_cases h1 : key.length = 0
    · rw [if_pos h1] at h; simp at h
    · rw [if_neg h1] at h
      by_cases h2 : key.length > MaxKeySize
      · rw [if_pos h2] at h; simp at h
      · rw [if_neg h2] at h
        by_cases h3 : value.length > MaxValueSize
        · rw [if_pos h3] at h; simp at h
        · rw [if_neg h3] at h
          cases hf : findEntry (tx.contents r) key with
          | none => simp [childBucket, hf]
          | some x =>
            cases x with
            | leaf v => simp [childBucket, hf]
            | bucket c => rw [hf] at h; simp at h

theorem put_bucket_err (tx : Tx) (r : BucketRef) (key value : Bytes) (c : Entries)
    (hf : findEntry (tx.contents r) key = some (.bucket c)) :
    ∃ e, bbolt.Bucket.Put tx r key value = (tx, some e) := by
  unfold bbolt.Bucket.Put
  rw [hf]
  repeat' split
  all_goals exact ⟨_, rfl⟩

theorem put_leaf_ok (tx : Tx) (r : BucketRef) (key value old : Bytes)
    (hw : tx.writable = true) (hk0 : key.length ≠ 0) (hk : key.length ≤ MaxKeySize)
    (hv : value.length ≤ MaxValueSize)
    (hf : findEntry (tx.contents r) key = some (.leaf old)) :
    bbolt.Bucket.Put tx r key value =
      ({ tx with root := modifyAt r (fun es => putEntry es key (.leaf value)) tx.root },
        none) := by
  unfold bbolt.Bucket.Put
  rw [hf, if_neg (by simp [hw]), if_neg hk0, if_neg (by omega), if_neg (by omega)]

theorem put_too_large (tx : Tx) (r : BucketRef) (key value : Bytes)
    (hw : tx.writable = true) (hk0 : key.length ≠ 0) (hk : key.length ≤ MaxKeySize)
    (hv : value.length > MaxValueSize) :
    bbolt.Bucket.Put tx r key value = (tx, some .ErrValueTooLarge) := by
  unfold bbolt.Bucket.Put
  rw [if_neg (by simp [hw]), if_neg hk0, if_neg (by omega), if_pos hv]

theorem createBucketIfNotExists_resolved (tx : Tx) (cur : BucketRef) (name : Bytes)
    (es c : Entries) (hcur : bucketAt tx.root cur = some es)
    (hc : childBucket es name = some c) :
    ∃ n err, bbolt.Bucket.CreateBucketIfNotExists tx cur name = (tx, n, err) ∧
      (err = none → n = some (cur ++ [name])) := by
  unfold bbolt.Bucket.CreateBucketIfNotExists
  rw [contents_of_bucketAt tx cur es hcur, (childBucket_eq_some es name c).mp hc]
  by_cases hw : tx.writable = false
  · rw [if_pos hw]
    exact ⟨_, _, rfl, fun h => Option.noConfusion h⟩
  · rw [if_neg hw]
    by_cases hn : name.length = 0
    · rw [if_pos hn]
      exact ⟨_, _, rfl, fun h => Option.noConfusion h⟩
    · rw [if_neg hn]
      exact ⟨_, _, rfl, fun _ => rfl⟩

/-- A creating resolution of a path that already names a bucket changes
nothing, whether it succeeds or fails. -/
theorem getBucketLoop_create_resolved (path : List Bytes) (i : Nat) (tx : Tx) (cur : BucketRef)
    (es c : Entries) (hcur : bucketAt tx.root cur = some es) (hc : bucketAt es path = some c) :
    ∃ n err, getBucketLoop true (i + 1) path tx (some cur) = some (tx, n, err) ∧
      (err = none → n = some (cur ++ path)) := by
  induction path generalizing i cur es with
  | nil => exact ⟨_, _, rfl, fun _ => by simp⟩
  | cons name rest ih =>
    simp only [bucketAt] at hc
    cases hch : childBucket es name with
    | none => simp [hch] at hc
    | some c1 =>
      simp only [hch] at hc
      have hnext : bucketAt tx.root (cur ++ [name]) = some c1 := by
        rw [bucketAt_snoc, hcur]; simp [hch]
      obtain ⟨n1, e1, hstep, hn1⟩ := createBucketIfNotExists_resolved tx cur name es c1 hcur hch
      simp only [getBucketLoop, Nat.add_one_ne_zero, if_false, if_true, hstep]
      cases e1 with
      | some e => cases n1 <;> exact ⟨_, _, rfl, fun h => Option.noConfusion h⟩
      | none =>
        rw [hn1 rfl]
        obtain ⟨n2, e2, hloop, hn2⟩ := ih (i + 1) (cur ++ [name]) c1 hnext hc
        exact ⟨n2, e2, hloop, fun h => by simpa using hn2 h⟩

/-- The unprefixed `Scan` of an existing bucket with a visitor that always
returns `nil`. -/
theorem Scan_all_ok (tx : Tx) (q : List Bytes) (B : Entries) (fn : Visitor)
    (hwf : tx.wf = true) (hq : q ≠ []) (hB : bucketAt tx.root q = some B)
    (hfn : ∀ calls c, fn calls c = none) :
    bucket.Scan ⟨tx, none⟩ q [] fn =
      some (⟨tx, none⟩, bucketVisits B ++ leafVisits B, none) := by
  have hs : keysSorted B := entriesWf_sorted B (entriesWf_bucketAt tx.root q B hwf hB)
  have hl : q.length ≠ 0 := fun e => hq (List.length_eq_zero.mp e)
  have h1 := forEachBucketLoop_all fn hfn B []
  have h2 := forEachLoop_leaves fn hfn (bbolt.Bucket.Bucket tx q) B
    (engineBucket_flag tx q B hB hs) ([] ++ bucketVisits B)
  simp only [bucket.Scan, scanBody, hl, if_false, getBucket_lookup _ q hq, hB,
    List.length_nil, if_true, bbolt.Bucket.ForEachBucket, bbolt.Bucket.ForEach,
    contents_of_bucketAt tx q B hB, h1, h2]
  simp

theorem bucketAt_isSome_of_append (root : Entries) (a b : BucketRef)
    (h : (bucketAt root (a ++ b)).isSome = true) : (bucketAt root a).isSome = true := by
  rw [bucketAt_append] at h
  cases h1 : bucketAt root a with
  | none => simp [h1] at h
  | some c => rfl

theorem engineGet_eq_leafAt (tx : Tx) (pre : BucketRef) (key : Bytes) (C : Entries)
    (hC : bucketAt tx.root pre = some C) :
    bbolt.Bucket.Get tx pre key = leafAt tx.root pre key := by
  unfold bbolt.Bucket.Get leafAt leafValue
  rw [contents_of_bucketAt tx pre C hC, hC]

/-! ## The root holds only buckets -/

theorem rootBuckets_iff (tx : Tx) :
    tx.rootBuckets = true ↔ ∀ e ∈ tx.root, e.2.isBucket = true := by
  simp [Tx.rootBuckets, List.all_eq_true]

theorem delEntry_sublist (es : Entries) (key : Bytes) : (delEntry es key).Sublist es := by
  induction es with
  | nil => exact List.Sublist.refl _
  | cons e rest ih =>
    obtain ⟨k, x⟩ := e
    by_cases h1 : bytesLt k key = true
    · simp only [delEntry, h1, if_true]
      exact List.Sublist.cons₂ _ ih
    · have hf : bytesLt k key = false := by simpa using h1
      by_cases h2 : k = key
      · subst h2
        simp only [delEntry, hf, Bool.false_eq_true, if_false, if_true]
        exact List.sublist_cons_self _ _
      · simp only [delEntry, hf, h2, Bool.false_eq_true, if_false]
        exact List.Sublist.refl _

theorem rootBuckets_modifyAt_put (tx : Tx) (r : BucketRef) (key : Bytes) (n : Node)
    (h : tx.rootBuckets = true) (hn : r = [] → n.isBucket = true) :
    Tx.rootBuckets { tx with root := modifyAt r (fun es => putEntry es key n) tx.root } = true := by
  rw [rootBuckets_iff] at h ⊢
  intro e he
  cases r with
  | nil =>
    rcases mem_putEntry tx.root key n e he with heq | hm
    · rw [heq]; exact hn rfl
    · exact h e hm
  | cons m rest =>
    rcases mem_modifyChild tx.root m _ e he with hm | ⟨c, -, heq⟩
    · exact h e hm
    · rw [heq]; rfl

theorem rootBuckets_modifyAt_del (tx : Tx) (r : BucketRef) (key : Bytes)
    (h : tx.rootBuckets = true) :
    Tx.rootBuckets { tx with root := modifyAt r (fun es => delEntry es key) tx.root } = true := by
  rw [rootBuckets_iff] at h ⊢
  intro e he
  cases r with
  | nil => exact h e ((delEntry_sublist tx.root key).subset he)
  | cons m rest =>
    rcases mem_modifyChild tx.root m _ e he with hm | ⟨c, -, heq⟩
    · exact h e hm
    · rw [heq]; rfl

theorem createBucketIfNotExists_rootBuckets (tx : Tx) (r : BucketRef) (key : Bytes)
    (h : tx.rootBuckets = true) :
    (bbolt.Bucket.CreateBucketIfNotExists tx r key).1.rootBuckets = true := by
  unfold bbolt.Bucket.CreateBucketIfNotExists
  repeat' split
  all_goals first
    | exact h
    | exact rootBuckets_modifyAt_put tx r key _ h (fun _ => rfl)

theorem put_rootBuckets (tx : Tx) (r : BucketRef) (key value : Bytes)
    (h : tx.rootBuckets = true) (hr : r ≠ []) :
    (bbolt.Bucket.Put tx r key value).1.rootBuckets = true := by
  unfold bbolt.Bucket.Put
  repeat' split
  all_goals first
    | exact h
    | exact rootBuckets_modifyAt_put tx r key _ h (fun e => absurd e hr)

theorem delete_rootBuckets (tx : Tx) (r : BucketRef) (key : Bytes)
    (h : tx.rootBuckets = true) : (bbolt.Bucket.Delete tx r key).1.rootBuckets = true := by
  unfold bbolt.Bucket.Delete
  repeat' split
  all_goals first
    | exact h
    | exact rootBuckets_modifyAt_del tx r key h

theorem deleteBucket_rootBuckets (tx : Tx) (r : BucketRef) (key : Bytes)
    (h : tx.rootBuckets = true) : (bbolt.Bucket.DeleteBucket tx r key).1.rootBuckets = true := by
  unfold bbolt.Bucket.DeleteBucket
  repeat' split
  all_goals first
    | exact h
    | exact rootBuckets_modifyAt_del tx r key h

theorem getBucketLoop_rootBuckets (create : Bool) (path : List Bytes) (i : Nat) (tx : Tx)
    (n : Option BucketRef) (res : Tx × Option BucketRef × Option Error)
    (h : tx.rootBuckets = true) (hres : getBucketLoop create i path tx n = some res) :
    res.1.rootBuckets = true := by
  induction path generalizing i tx n with
  | nil =>
    simp only [getBucketLoop, Option.some.injEq] at hres
    rw [← hres]; exact h
  | cons name rest ih =>
    simp only [getBucketLoop] at hres
    have hstep : ∀ res1,
        (if create then
          if i = 0 then some (bbolt.Tx.CreateBucketIfNotExists tx name)
          else
            match n with
            | none => none
            | some r => some (bbolt.Bucket.CreateBucketIfNotExists tx r name)
        else
          if i = 0 then some (tx, bbolt.Tx.Bucket tx name, none)
          else
            match n with
            | none => none
            | some r => some (tx, bbolt.Bucket.Bucket tx r name, none)) = some res1 →
        res1.1.rootBuckets = true := by
      intro res1 hs
      cases create with
      | true =>
        simp only [if_true] at hs
        by_cases hi : i = 0
        · simp only [hi, if_true, Option.some.injEq] at hs
          rw [← hs]
          exact createBucketIfNotExists_rootBuckets tx [] name h
        · simp only [hi, if_false] at hs
          cases n with
          | none => exact Option.noConfusion hs
          | some r =>
            simp only [Option.some.injEq] at hs
            rw [← hs]
            exact createBucketIfNotExists_rootBuckets tx r name h
      | false =>
        simp only [Bool.false_eq_true, if_false] at hs
        by_cases hi : i = 0
        · simp only [hi, if_true, Option.some.injEq] at hs
          rw [← hs]; exact h
        · simp only [hi, if_false] at hs
          cases n with
          | none => exact Option.noConfusion hs
          | some r =>
            simp only [Option.some.injEq] at hs
            rw [← hs]; exact h
    split at hres
    · exact Option.noConfusion hres
    · rename_i tx1 n1 e hs
      have hw := hstep _ hs
      simp only [Option.some.injEq] at hres
      rw [← hres]
      exact hw
    · rename_i tx1 hs
      have hw := hstep _ hs
      simp only [Option.some.injEq] at hres
      rw [← hres]
      exact hw
    · rename_i tx1 r1 hs
      exact ih (i + 1) tx1 (some r1) (hstep _ hs) hres

theorem getBucket_rootBuckets (b : bucket) (path : List Bytes) (create : Bool)
    (res : bucket × Option BucketRef × Option Error) (h : b.tx.rootBuckets = true)
    (hres : getBucket b path create = some res) : res.1.tx.rootBuckets = true := by
  unfold getBucket at hres
  split at hres
  · simp only [Option.some.injEq] at hres
    rw [← hres]; exact h
  · split at hres
    · simp only [Option.some.injEq] at hres
      rw [← hres]; exact h
    · split at hres
      · exact Option.noConfusion hres
      · rename_i tx1 n err hloop
        have hw := getBucketLoop_rootBuckets create path 0 b.tx none _ h hloop
        simp only [Option.some.injEq] at hres
        rw [← hres]; exact hw

/-- `CreateBucket` keeps the root holding only buckets. -/
theorem CreateBucket_rootBuckets (b : bucket) (path : List Bytes) (res : bucket × Option Error)
    (h : b.tx.rootBuckets = true) (hres : bucket.CreateBucket b path = some res) :
    res.1.tx.rootBuckets = true := by
  unfold bucket.CreateBucket at hres
  split at hres
  · exact Option.noConfusion hres
  · rename_i b1 n err hget
    have hw := getBucket_rootBuckets b path true _ h hget
    simp only [Option.some.injEq] at hres
    rw [← hres]; exact hw

/-- `Set` keeps the root holding only buckets: it puts its leaf below the
root. -/
theorem Set_rootBuckets (tx : Tx) (p : List Bytes) (v : Bytes) (res : bucket × Option Error)
    (h : tx.rootBuckets = true) (hres : bucket.Set ⟨tx, none⟩ p v = some res) :
    res.1.tx.rootBuckets = true := by
  rcases two_le_cases p with h0 | h1 | ⟨a, pre, key, rfl⟩
  · simp only [bucket.Set, h0, Option.some.injEq] at hres
    rw [← hres]; exact h
  · simp only [bucket.Set, h1, Option.some.injEq] at hres
    rw [← hres]; exact h
  · rw [Set_deep _ _ _ _ rfl (by simp)] at hres
    obtain ⟨b2, n, err, hget, -⟩ := getBucket_total ⟨tx, none⟩ (a :: pre) true
    have hroot2 := getBucket_rootBuckets ⟨tx, none⟩ (a :: pre) true _ h hget
    rw [getBucket_create tx (a :: pre) (by simp)] at hget
    rcases hloop : getBucketLoop true 1 (a :: pre) tx (some []) with _ | ⟨tx1, n1, e1⟩
    · rw [hloop] at hget
      exact Option.noConfusion hget
    · rw [hloop] at hget
      simp only [Option.some.injEq, Prod.mk.injEq] at hget
      obtain ⟨hb2, hn, herr⟩ := hget
      subst hb2 hn herr
      rw [getBucket_create tx (a :: pre) (by simp), hloop] at hres
      cases e1 with
      | some e =>
        cases n1 <;>
        · simp only [Option.some.injEq] at hres
          rw [← hres]
          exact hroot2
      | none =>
        obtain ⟨hn, -⟩ := getBucketLoop_create_ok (a :: pre) 0 tx tx1 [] tx.root n1 rfl hloop
        subst hn
        simp only [Option.some.injEq] at hres
        rw [← hres]
        exact put_rootBuckets tx1 _ key v hroot2 (by simp)

/-- `Del` keeps the root holding only buckets. -/
theorem Del_rootBuckets (tx : Tx) (p : List Bytes) (res : bucket × Option Error)
    (h : tx.rootBuckets = true) (hres : bucket.Del ⟨tx, none⟩ p = some res) :
    res.1.tx.rootBuckets = true := by
  rcases two_le_cases p with h0 | h1 | ⟨a, pre, key, rfl⟩
  · simp only [bucket.Del, h0, Option.some.injEq] at hres
    rw [← hres]; exact h
  · obtain ⟨s, rfl⟩ := List.length_eq_one.mp h1
    simp only [bucket.Del, List.length_singleton, List.getElem?_cons_zero,
      bbolt.Tx.DeleteBucket, Option.some.injEq] at hres
    rw [← hres]
    exact deleteBucket_rootBuckets tx [] s h
  · rw [Del_deep _ _ _ rfl (by simp), getBucket_lookup _ _ (by simp)] at hres
    cases hB : bucketAt tx.root (a :: pre) with
    | none =>
      simp only [hB, Option.some.injEq] at hres
      rw [← hres]; exact h
    | some B =>
      simp only [hB] at hres
      split at hres
      · simp only [Option.some.injEq] at hres
        rw [← hres]
        exact deleteBucket_rootBuckets tx _ key h
      · simp only [Option.some.injEq] at hres
        rw [← hres]
        exact delete_rootBuckets tx _ key h

/-! ## What a grown store still holds -/

theorem mem_listing_of_findEntry (C : Entries) (k : Bytes) (n : Node)
    (h : findEntry C k = some n) : (k, n.value, n.isBucket) ∈ listing C := by
  unfold listing
  exact List.mem_map.mpr ⟨(k, n), findEntry_mem C k n h, rfl⟩

/-- In a store that has only grown, every bucket that existed still holds
every entry it held: the same name with the same leaf value, or still a
bucket. -/
theorem Grown_listing (root root1 : Entries) (hwf : entriesWf root = true)
    (hg : Grown root root1) (pre : BucketRef) (C : Entries)
    (hC : bucketAt root pre = some C) :
    ∃ C1, bucketAt root1 pre = some C1 ∧ ∀ e ∈ listing C, e ∈ listing C1 := by
  have hs : keysSorted C := entriesWf_sorted C (entriesWf_bucketAt root pre C hwf hC)
  obtain ⟨C1, hC1⟩ := Option.isSome_iff_exists.mp (hg.1 pre (by simp [hC]))
  refine ⟨C1, hC1, ?_⟩
  intro e he
  obtain ⟨⟨k, n⟩, hm, rfl⟩ := List.mem_map.mp he
  have hf := findEntry_of_mem C k n hs hm
  cases n with
  | leaf v =>
    have h1 : leafAt root pre k = some v := by simp [leafAt, hC, leafValue, hf]
    have h2 := hg.2 pre k
    rw [h1] at h2
    simp only [leafAt, hC1, leafValue] at h2
    cases hf1 : findEntry C1 k with
    | none => simp [hf1] at h2
    | some x =>
      cases x with
      | bucket c => simp [hf1] at h2
      | leaf w =>
        simp only [hf1, Option.some.injEq] at h2
        subst h2
        exact mem_listing_of_findEntry C1 k (.leaf w) hf1
  | bucket c =>
    have h1 : (bucketAt root (pre ++ [k])).isSome = true := by
      rw [bucketAt_snoc, hC]
      simp [childBucket, hf]
    have h2 := hg.1 (pre ++ [k]) h1
    rw [bucketAt_snoc, hC1] at h2
    cases hc1 : childBucket C1 k with
    | none => simp [hc1] at h2
    | some c1 =>
      exact mem_listing_of_findEntry C1 k (.bucket c1) ((childBucket_eq_some C1 k c1).mp hc1)

/-! ## A creating resolution adds buckets along its path only -/

/-- Creating the missing bucket `key` in the bucket at `r` adds the bucket
`r ++ [key]` and no other. -/
theorem put_bucket_bound (root : Entries) (r : BucketRef) (B : Entries) (key : Bytes)
    (hB : bucketAt root r = some B) (hs : keysSorted B) (pre : BucketRef)
    (hpre : (bucketAt (modifyAt r (fun es => putEntry es key (.bucket [])) root) pre).isSome
      = true) :
    (bucketAt root pre).isSome = true ∨ pre = r ++ [key] := by
  by_cases hthrough : r <+: pre
  · obtain ⟨rest, rfl⟩ := hthrough
    rw [bucketAt_put_through root r rest B _ hB] at hpre
    rw [bucketAt_through root r rest B hB]
    cases rest with
    | nil => exact Or.inl rfl
    | cons m rest =>
      by_cases hm : m = key
      · subst hm
        simp only [bucketAt, childBucket_putEntry_bucket] at hpre
        cases rest with
        | nil => exact Or.inr rfl
        | cons m2 rest => simp [bucketAt, childBucket, findEntry_nil] at hpre
      · rw [bucketAt_putEntry_other B key m _ rest hs hm] at hpre
        exact Or.inl hpre
  · have hframe := bucketAt_modifyAt_frame r (fun es => putEntry es key (.bucket [])) root pre
      hthrough
    cases h1 : bucketAt root pre with
    | some C => exact Or.inl rfl
    | none =>
      cases h2 : bucketAt (modifyAt r (fun es => putEntry es key (.bucket [])) root) pre with
      | none => simp [h2] at hpre
      | some C1 => simp [h1, h2] at hframe

theorem createBucketIfNotExists_bound (tx : Tx) (cur : BucketRef) (name : Bytes) (es : Entries)
    (hwf : tx.wf = true) (hcur : bucketAt tx.root cur = some es) (pre : BucketRef)
    (hpre : (bucketAt (bbolt.Bucket.CreateBucketIfNotExists tx cur name).1.root pre).isSome
      = true) :
    (bucketAt tx.root pre).isSome = true ∨ pre = cur ++ [name] := by
  have hs : keysSorted es := entriesWf_sorted es (entriesWf_bucketAt tx.root cur es hwf hcur)
  unfold bbolt.Bucket.CreateBucketIfNotExists at hpre
  rw [contents_of_bucketAt tx cur es hcur] at hpre
  split at hpre
  · exact Or.inl hpre
  · split at hpre
    · exact Or.inl hpre
    · split at hpre
      · exact Or.inl hpre
      · exact Or.inl hpre
      · exact put_bucket_bound tx.root cur es name hcur hs pre hpre

theorem prefix_snoc_of_cons (cur : BucketRef) (name : Bytes) (rest : List Bytes) :
    (cur ++ [name]) <+: (cur ++ name :: rest) :=
  ⟨rest, by simp⟩

theorem getBucketLoop_create_bound (path : List Bytes) (i : Nat) (tx : Tx) (cur : BucketRef)
    (es : Entries) (res : Tx × Option BucketRef × Option Error) (hwf : tx.wf = true)
    (hcur : bucketAt tx.root cur = some es)
    (h : getBucketLoop true (i + 1) path tx (some cur) = some res) (pre : BucketRef)
    (hpre : (bucketAt res.1.root pre).isSome = true) :
    (bucketAt tx.root pre).isSome = true ∨ pre <+: (cur ++ path) := by
  induction path generalizing i tx cur es with
  | nil =>
    simp only [getBucketLoop, Option.some.injEq] at h
    rw [← h] at hpre
    exact Or.inl hpre
  | cons name rest ih =>
    simp only [getBucketLoop, Nat.add_one_ne_zero, if_false, if_true] at h
    have hb := createBucketIfNotExists_bound tx cur name es hwf hcur pre
    have hw := createBucketIfNotExists_wf tx cur name hwf
    rcases hstep : bbolt.Bucket.CreateBucketIfNotExists tx cur name with ⟨tx2, n2, e2⟩
    rw [hstep] at h hb hw
    have hfinish : (bucketAt tx2.root pre).isSome = true →
        (bucketAt tx.root pre).isSome = true ∨ pre <+: (cur ++ name :: rest) := by
      intro h2
      rcases hb h2 with h3 | h3
      · exact Or.inl h3
      · rw [h3]
        exact Or.inr (prefix_snoc_of_cons cur name rest)
    cases e2 with
    | some e =>
      cases n2 <;>
      · simp only [Option.some.injEq] at h
        rw [← h] at hpre
        exact hfinish hpre
    | none =>
      cases n2 with
      | none =>
        simp only [Option.some.injEq] at h
        rw [← h] at hpre
        exact hfinish hpre
      | some r1 =>
        obtain ⟨hn2, ⟨c, hc⟩, -⟩ := createBucketIfNotExists_ok tx tx2 cur name es _ hcur hstep
        simp only [Option.some.injEq] at hn2
        subst hn2
        simp only at h
        rcases ih (i + 1) tx2 (cur ++ [name]) c hw hc h with h2 | h2
        · exact hfinish h2
        · exact Or.inr (by simpa using h2)

/-- A creating `getBucket` on a well-formed store adds buckets along its path
only, whatever it returns. -/
theorem getBucket_create_along (tx : Tx) (path : List Bytes)
    (res : bucket × Option BucketRef × Option Error) (hwf : tx.wf = true)
    (h : getBucket ⟨tx, none⟩ path true = some res) :
    CreatedAlong path tx.root res.1.tx.root := by
  refine ⟨(getBucket_create_grown tx path res hwf h).1, ?_⟩
  intro pre hpre
  by_cases hne : path = []
  · subst hne
    simp only [getBucket, List.length_nil, if_true, Option.some.injEq] at h
    rw [← h] at hpre
    exact Or.inl hpre
  · rw [getBucket_create tx path hne] at h
    rcases hloop : getBucketLoop true 1 path tx (some []) with _ | ⟨tx1, n, err⟩
    · rw [hloop] at h
      exact Option.noConfusion h
    · rw [hloop] at h
      simp only [Option.some.injEq] at h
      rw [← h] at hpre
      have := getBucketLoop_create_bound path 0 tx [] tx.root _ hwf rfl hloop pre hpre
      simpa using this

theorem CreatedAlong_refl (path : List Bytes) (root : Entries) : CreatedAlong path root root :=
  ⟨Grown_refl root, fun _ h => Or.inl h⟩

theorem CreateBucket_along (tx : Tx) (p : List Bytes) (b1 : bucket) (err : Option Error)
    (hwf : tx.wf = true) (h : bucket.CreateBucket ⟨tx, none⟩ p = some (b1, err)) :
    CreatedAlong p tx.root b1.tx.root := by
  unfold bucket.CreateBucket at h
  split at h
  · exact Option.noConfusion h
  · rename_i b2 n e2 hget
    simp only [Option.some.injEq, Prod.mk.injEq] at h
    rw [← h.1]
    exact getBucket_create_along tx p _ hwf hget

theorem Set_err_along (tx : Tx) (p : List Bytes) (v : Bytes) (b1 : bucket) (e : Error)
    (hwf : tx.wf = true) (h : bucket.Set ⟨tx, none⟩ p v = some (b1, some e)) :
    CreatedAlong p.dropLast tx.root b1.tx.root := by
  rcases two_le_cases p with h0 | h1 | ⟨a, pre, key, rfl⟩
  · simp only [bucket.Set, h0, Option.some.injEq, Prod.mk.injEq] at h
    rw [← h.1]
    exact CreatedAlong_refl _ _
  · simp only [bucket.Set, h1, Option.some.injEq, Prod.mk.injEq] at h
    rw [← h.1]
    exact CreatedAlong_refl _ _
  · rw [Set_deep _ _ _ _ rfl (by simp)] at h
    obtain ⟨b2, n, err, hget, hn⟩ := getBucket_total ⟨tx, none⟩ (a :: pre) true
    have hg := getBucket_create_along tx (a :: pre) _ hwf hget
    rw [List.dropLast_concat]
    rw [hget] at h
    cases err with
    | some e2 =>
      cases n <;>
      · simp only [Option.some.injEq, Prod.mk.injEq] at h
        rw [← h.1]
        exact hg
    | none =>
      obtain ⟨r, hr, -⟩ := hn rfl
      subst hr
      simp only [Option.some.injEq, Prod.mk.injEq] at h
      obtain ⟨hb, he⟩ := h
      rw [← hb, put_err b2.tx r key v e he]
      exact hg

/-! ## The prefixed `Scan` visits names with the prefix only -/

theorem forEachBucketLoop_forall (P : Visit → Prop)
    (cb : List Visit → Bytes → List Visit × Option Error)
    (hcb : ∀ calls k, (∀ c ∈ calls, P c) → ∀ c ∈ (cb calls k).1, P c)
    (es : Entries) (calls : List Visit) (h : ∀ c ∈ calls, P c) :
    ∀ c ∈ (bbolt.forEachBucketLoop cb calls es).1, P c := by
  induction es generalizing calls with
  | nil => simpa [bbolt.forEachBucketLoop] using h
  | cons e rest ih =>
    obtain ⟨k, n⟩ := e
    simp only [bbolt.forEachBucketLoop]
    by_cases hb : n.isBucket = true
    · rw [if_pos hb]
      have hstep := hcb calls k h
      rcases hres : cb calls k with ⟨s1, r⟩
      rw [hres] at hstep
      cases r with
      | some e => simpa using hstep
      | none => exact ih s1 hstep
    · rw [if_neg hb]
      exact ih calls h

theorem scanCursorLoop_forall (scan : Bytes) (fn : Visitor) (cur : Entries)
    (calls : List Visit) (h : ∀ c ∈ calls, hasPrefix c.k scan = true) :
    ∀ c ∈ (scanCursorLoop scan fn calls cur).1, hasPrefix c.k scan = true := by
  induction cur generalizing calls with
  | nil => simpa [scanCursorLoop] using h
  | cons e rest ih =>
    obtain ⟨k, n⟩ := e
    simp only [scanCursorLoop]
    by_cases hp : hasPrefix k scan = false
    · rw [if_pos hp]
      exact h
    · rw [if_neg hp]
      have hk : hasPrefix k scan = true := by simpa using hp
      have hstep : ∀ c ∈ (callFn fn calls ⟨k, n.value, false⟩).1,
          hasPrefix c.k scan = true := by
        intro c hc
        simp only [callFn, List.mem_append, List.mem_singleton] at hc
        rcases hc with hc | hc
        · exact h c hc
        · rw [hc]; exact hk
      rcases hres : callFn fn calls ⟨k, n.value, false⟩ with ⟨s1, r⟩
      rw [hres] at hstep
      cases r with
      | some e => simpa using hstep
      | none => exact ih s1 hstep

theorem scanBody_names (b : bucket) (q : List Bytes) (scan : Bytes) (fn : Visitor)
    (b1 : bucket) (calls : List Visit) (err : Option Error) (hq : q ≠ []) (hscan : scan ≠ [])
    (h : scanBody b q scan fn = some (b1, calls, err)) :
    ∀ c ∈ calls, hasPrefix c.k scan = true := by
  have hql : q.length ≠ 0 := fun e => hq (List.length_eq_zero.mp e)
  have hsl : scan.length ≠ 0 := fun e => hscan (List.length_eq_zero.mp e)
  unfold scanBody at h
  rw [if_neg hql] at h
  split at h
  · exact Option.noConfusion h
  · simp only [Option.some.injEq, Prod.mk.injEq] at h
    rw [← h.2.1]
    intro c hc
    simp at hc
  · exact Option.noConfusion h
  · rename_i b2 r hget
    rw [if_neg hsl] at h
    have hr1 := forEachBucketLoop_forall (fun c => hasPrefix c.k scan = true)
      (fun calls k =>
        if hasPrefix k scan then callFn fn calls ⟨k, none, true⟩ else (calls, none))
      (fun calls k hc => by
        by_cases hk : hasPrefix k scan = true
        · simp only [hk, if_true, callFn]
          intro c hmem
          rcases List.mem_append.mp hmem with hmem | hmem
          · exact hc c hmem
          · rw [List.mem_singleton.mp hmem]; exact hk
        · simp only [hk]
          exact hc) (b2.tx.contents r) [] (by simp)
    simp only [bbolt.Bucket.ForEachBucket] at h
    split at h
    · rename_i calls1 e hloop
      rw [hloop] at hr1
      simp only [Option.some.injEq, Prod.mk.injEq] at h
      rw [← h.2.1]
      exact hr1
    · rename_i calls1 hloop
      rw [hloop] at hr1
      have hr2 := scanCursorLoop_forall scan fn (bbolt.Cursor.Seek b2.tx r scan) calls1 hr1
      simp only [Option.some.injEq, Prod.mk.injEq] at h
      rw [← h.2.1]
      exact hr2

/-! ## Claims -/

/-- C1. Round trip: for every store state, every key path `p` with
`len(p) ≥ 2` and every value `v`, when `Set(p, v)` returns no error (which
only a read-write transaction allows), a following `Get(p)` on the resulting
state returns `v` with no error and leaves that state as it is. -/
theorem set_get_roundtrip (tx : Tx) (p : List Bytes) (v : Bytes) (b1 : bucket)
    (hlen : 2 ≤ p.length) (hset : bucket.Set ⟨tx, none⟩ p v = some (b1, none)) :
    bucket.Get b1 p = some (b1, some v, none) := by
  obtain ⟨pre, key, hpre, rfl, -⟩ := exists_snoc_of_two_le p hlen
  rw [Set_deep _ _ _ _ rfl hpre, getBucket_create tx pre hpre] at hset
  rcases hloop : getBucketLoop true 1 pre tx (some []) with _ | ⟨tx1, n, e⟩
  · rw [hloop] at hset; simp at hset
  · rw [hloop] at hset
    cases e with
    | some e => cases n <;> simp at hset
    | none =>
      obtain ⟨hn, ⟨c, hc⟩, -, -, -⟩ :=
        getBucketLoop_create_ok pre 0 tx tx1 [] tx.root n rfl hloop
      subst hn
      simp only [List.nil_append, Option.some.injEq, Prod.mk.injEq] at hset hc
      obtain ⟨hb1, hput⟩ := hset
      have hput2 := put_ok tx1 _ pre key v (Prod.ext rfl hput)
      subst hb1
      simp only [hput2]
      have hat : bucketAt (modifyAt pre (fun es => putEntry es key (.leaf v)) tx1.root) pre =
          some (putEntry c key (.leaf v)) := by
        rw [bucketAt_modifyAt_self, hc]; rfl
      rw [Get_deep _ _ _ rfl hpre, getBucket_lookup _ pre hpre]
      simp only [hat]
      simp [bbolt.Bucket.Get, Tx.contents, hat, findEntry_putEntry_self]

/-- C1, at a concrete input: `Set([users, alice], A1)` on the empty store. -/
theorem set_get_roundtrip_witness :
    bucket.Get ⟨⟨[(kUsers, .bucket [(kAlice, .leaf vA1)])], true⟩, none⟩ [kUsers, kAlice] =
      some (⟨⟨[(kUsers, .bucket [(kAlice, .leaf vA1)])], true⟩, none⟩, some vA1, none) :=
  set_get_roundtrip ⟨[], true⟩ [kUsers, kAlice] vA1 _ (by decide) (by rfl)

/-- C2. Path-length validation: on every store state, `Set([], v)`, `Get([])`
and `Del([])` fail with `ErrKeyRequired`, `CreateBucket([])` fails with
`ErrBucketNameRequired`, `Set([s], v)` and `Get([s])` fail with
`ErrBucketNameRequired`, and each of these calls leaves the store unchanged. -/
theorem path_length_validation (tx : Tx) (v s : Bytes) :
    bucket.Set ⟨tx, none⟩ [] v = some (⟨tx, none⟩, some .ErrKeyRequired) ∧
    bucket.Get ⟨tx, none⟩ [] = some (⟨tx, none⟩, none, some .ErrKeyRequired) ∧
    bucket.Del ⟨tx, none⟩ [] = some (⟨tx, none⟩, some .ErrKeyRequired) ∧
    bucket.CreateBucket ⟨tx, none⟩ [] = some (⟨tx, none⟩, some .ErrBucketNameRequired) ∧
    bucket.Set ⟨tx, none⟩ [s] v = some (⟨tx, none⟩, some .ErrBucketNameRequired) ∧
    bucket.Get ⟨tx, none⟩ [s] = some (⟨tx, none⟩, none, some .ErrBucketNameRequired) :=
  ⟨rfl, rfl, rfl, rfl, rfl, rfl⟩

/-- C3. Missing bucket prefix: on every store state, when the bucket prefix of
a key path `p` with `len(p) ≥ 2` does not resolve to a bucket (its first or a
later segment names no bucket along the chain from the root), `Get(p)` and
`Del(p)` fail with `ErrBucketNotFound`; when a non-empty path `q` does not
resolve to a bucket, `Scan(q, scan, fn)` fails with `ErrBucketNotFound`
without calling `fn`; all three leave the store unchanged. -/
theorem missing_bucket_not_found (tx : Tx) (p q : List Bytes) (scan : Bytes) (fn : Visitor)
    (hlen : 2 ≤ p.length) (hp : bucketAt tx.root p.dropLast = none)
    (hq : q ≠ []) (hq2 : bucketAt tx.root q = none) :
    bucket.Get ⟨tx, none⟩ p = some (⟨tx, none⟩, none, some .ErrBucketNotFound) ∧
    bucket.Del ⟨tx, none⟩ p = some (⟨tx, none⟩, some .ErrBucketNotFound) ∧
    bucket.Scan ⟨tx, none⟩ q scan fn = some (⟨tx, none⟩, [], some .ErrBucketNotFound) := by
  obtain ⟨pre, key, hpre, rfl, hdrop⟩ := exists_snoc_of_two_le p hlen
  rw [hdrop] at hp
  refine ⟨?_, ?_, ?_⟩
  · rw [Get_deep _ _ _ rfl hpre, getBucket_lookup _ pre hpre]
    simp [hp]
  · rw [Del_deep _ _ _ rfl hpre, getBucket_lookup _ pre hpre]
    simp [hp]
  · have hl : q.length ≠ 0 := by
      intro e
      exact hq (List.length_eq_zero.mp e)
    simp [bucket.Scan, scanBody, hl, getBucket_lookup _ q hq, hq2]

/-- C3, at a concrete input: in `usersStore` the segment `alice` of the bucket
prefix `[users, alice]` names a leaf, not a bucket, and `[bob]` names no
top-level bucket. -/
theorem missing_bucket_not_found_witness :
    bucket.Get usersStore [kUsers, kAlice, kBob] =
        some (usersStore, none, some .ErrBucketNotFound) ∧
    bucket.Del usersStore [kUsers, kAlice, kBob] = some (usersStore, some .ErrBucketNotFound) ∧
    bucket.Scan usersStore [kBob] [] okVisitor = some (usersStore, [], some .ErrBucketNotFound) :=
  missing_bucket_not_found usersStore.tx [kUsers, kAlice, kBob] [kBob] [] okVisitor
    (by decide) (by rfl) (by simp) (by rfl)

/-- C4. Absent key is not an error: on every store state, for a key path
`pre ++ [key]` (the paths of length at least two) whose bucket prefix `pre`
resolves to the bucket `B`, if `key` is not a leaf key of `B` then `Get`
returns an absent value and no error, and the store is unchanged. -/
theorem get_absent_key (tx : Tx) (pre : List Bytes) (key : Bytes) (B : Entries)
    (hpre : pre ≠ []) (hB : bucketAt tx.root pre = some B)
    (habs : ∀ v, (key, Node.leaf v) ∉ B) :
    bucket.Get ⟨tx, none⟩ (pre ++ [key]) = some (⟨tx, none⟩, none, none) := by
  rw [Get_deep _ _ _ rfl hpre, getBucket_lookup _ pre hpre]
  simp only [hB]
  have : bbolt.Bucket.Get tx pre key = none := by
    unfold bbolt.Bucket.Get
    rw [contents_of_bucketAt tx pre B hB]
    cases hf : findEntry B key with
    | none => rfl
    | some x =>
      cases x with
      | bucket c => rfl
      | leaf v => exact absurd (findEntry_mem B key _ hf) (habs v)
  simp [this]

/-- C4, at a concrete input: `admins` is a child bucket of `users`, not a leaf. -/
theorem get_absent_key_witness :
    bucket.Get usersStore ([kUsers] ++ [kAdmins]) = some (usersStore, none, none) :=
  get_absent_key usersStore.tx [kUsers] kAdmins
    [(kAdmins, .bucket []), (kAlice, .leaf vA1), (kBob, .leaf vB1)] (by simp) (by rfl)
    (by intro v; simp [kAdmins, kAlice, kBob])

/-- C5. `CreateBucket` is idempotent: on every store state, if
`CreateBucket(p)` returns no error then `CreateBucket(p)` on the resulting
state returns no error again and leaves that whole state as it is. -/
theorem createBucket_idempotent (tx : Tx) (p : List Bytes) (b1 : bucket)
    (h : bucket.CreateBucket ⟨tx, none⟩ p = some (b1, none)) :
    bucket.CreateBucket b1 p = some (b1, none) := by
  have hne : p ≠ [] := by
    intro e
    subst e
    simp [bucket.CreateBucket, getBucket] at h
  unfold bucket.CreateBucket at h
  rw [getBucket_create tx p hne] at h
  rcases hloop : getBucketLoop true 1 p tx (some []) with _ | ⟨tx1, n, e⟩
  · rw [hloop] at h; simp at h
  · rw [hloop] at h
    simp only [Option.some.injEq, Prod.mk.injEq] at h
    obtain ⟨hb1, he⟩ := h
    subst hb1 he
    obtain ⟨-, ⟨c, hc⟩, hw1, hw, hnames⟩ :=
      getBucketLoop_create_ok p 0 tx tx1 [] tx.root n rfl hloop
    have hagain := getBucketLoop_create_existing p 0 tx1 [] tx1.root c rfl
      (by rw [hw1]; exact hw hne) hnames (by simpa using hc)
    unfold bucket.CreateBucket
    rw [getBucket_create tx1 p hne]
    rw [show (0 : Nat) + 1 = 1 from rfl] at hagain
    rw [hagain]

/-- C5, at a concrete input: `CreateBucket([users, admins])` on the store
that already holds `users`. -/
theorem createBucket_idempotent_witness :
    bucket.CreateBucket
        ⟨⟨[(kUsers, .bucket [(kAdmins, .bucket []), (kAlice, .leaf vA1)])], true⟩, none⟩
        [kUsers, kAdmins] =
      some (⟨⟨[(kUsers, .bucket [(kAdmins, .bucket []), (kAlice, .leaf vA1)])], true⟩, none⟩,
        none) :=
  createBucket_idempotent ⟨[(kUsers, .bucket [(kAlice, .leaf vA1)])], true⟩ [kUsers, kAdmins] _
    (by rfl)

/-- C6, as stated, fails in a read-only transaction: in the store
`users/{alice = A1}` of a `View` transaction, `bob` names nothing in `users`
yet `Del([users, bob])` returns `ErrTxNotWritable`, and `Del([users, alice])`
returns the same error and leaves the leaf in place. -/
theorem del_deep_readonly_counterexample :
    bucketAt aliceRO.tx.root [kUsers] = some [(kAlice, .leaf vA1)] ∧
    findEntry [(kAlice, .leaf vA1)] kBob = none ∧
    bucket.Del aliceRO [kUsers, kBob] = some (aliceRO, some .ErrTxNotWritable) ∧
    bucket.Del aliceRO [kUsers, kAlice] = some (aliceRO, some .ErrTxNotWritable) ∧
    bucket.Get aliceRO [kUsers, kAlice] = some (aliceRO, some vA1, none) :=
  ⟨rfl, rfl, rfl, rfl, rfl⟩

/-- C6, amended. In a read-write transaction on a well-formed store, for a key
path `pre ++ [key]` (the paths of length at least two) whose bucket prefix
resolves to the bucket `B`: `Del` returns no error; afterwards the bucket at
`pre` holds exactly the entries of `B` not named `key`, each as it was (a
child bucket `key` is gone with its subtree, a leaf `key` is gone, and `B` is
unchanged when `key` names nothing), so no path through `key` resolves any
more; every bucket whose path does not pass through `pre` has the same direct
contents as before; and `Get` of the path returns an absent value. -/
theorem del_deep_rw (tx : Tx) (pre : List Bytes) (key : Bytes) (B : Entries)
    (hw : tx.writable = true) (hwf : tx.wf = true) (hpre : pre ≠ [])
    (hB : bucketAt tx.root pre = some B) :
    ∃ tx1,
      bucket.Del ⟨tx, none⟩ (pre ++ [key]) = some (⟨tx1, none⟩, none) ∧
      bucketAt tx1.root pre = some (without B key) ∧
      (∀ rest, bucketAt tx1.root (pre ++ key :: rest) = none) ∧
      (∀ q, ¬ pre <+: q →
        (bucketAt tx1.root q).map listing = (bucketAt tx.root q).map listing) ∧
      bucket.Get ⟨tx1, none⟩ (pre ++ [key]) = some (⟨tx1, none⟩, none, none) := by
  have hs : keysSorted B := entriesWf_sorted B (entriesWf_bucketAt tx.root pre B hwf hB)
  obtain ⟨tx1, hdel, -, hat, hframe⟩ := engineDel_result tx pre key B hw hB hs
  refine ⟨tx1, ?_, hat, ?_, hframe, ?_⟩
  · rw [Del_deep _ _ _ rfl hpre, getBucket_lookup _ pre hpre]
    simp only [hB]
    by_cases hb : (bbolt.Bucket.Bucket tx pre key).isSome = true
    · rw [if_pos hb] at hdel
      simp [hb, hdel]
    · rw [if_neg hb] at hdel
      simp [hb, hdel]
  · intro rest
    rw [bucketAt_append, hat]
    exact bucketAt_cons_none _ key rest (childBucket_without_self B key)
  · rw [Get_deep _ _ _ rfl hpre, getBucket_lookup _ pre hpre]
    simp only [hat]
    have : bbolt.Bucket.Get tx1 pre key = none :=
      engineGet_absent tx1 pre key (without B key) hat (by intro v; simp [without])
    simp [this]

/-- C6 amended, at a concrete input: deleting the child bucket `admins` of
`users` in `usersStore`. -/
theorem del_deep_rw_witness :
    ∃ tx1,
      bucket.Del usersStore ([kUsers] ++ [kAdmins]) = some (⟨tx1, none⟩, none) ∧
      bucketAt tx1.root [kUsers] =
        some (without [(kAdmins, .bucket []), (kAlice, .leaf vA1), (kBob, .leaf vB1)] kAdmins) ∧
      (∀ rest, bucketAt tx1.root ([kUsers] ++ kAdmins :: rest) = none) ∧
      (∀ q, ¬ [kUsers] <+: q →
        (bucketAt tx1.root q).map listing = (bucketAt usersStore.tx.root q).map listing) ∧
      bucket.Get ⟨tx1, none⟩ ([kUsers] ++ [kAdmins]) = some (⟨tx1, none⟩, none, none) :=
  del_deep_rw usersStore.tx [kUsers] kAdmins
    [(kAdmins, .bucket []), (kAlice, .leaf vA1), (kBob, .leaf vB1)] rfl (by decide) (by simp)
    (by rfl)

/-- C7, as stated, fails in a read-only transaction: the top-level bucket
`users` exists, yet `Del([users])` returns `ErrTxNotWritable` and the bucket
stays. -/
theorem del_top_readonly_counterexample :
    childBucket aliceRO.tx.root kUsers = some [(kAlice, .leaf vA1)] ∧
    bucket.Del aliceRO [kUsers] = some (aliceRO, some .ErrTxNotWritable) :=
  ⟨rfl, rfl⟩

/-- C7, amended. In a read-write transaction on a well-formed store,
`Del([s])` succeeds exactly when a top-level bucket named `s` exists. When it
does, the root afterwards holds exactly the entries not named `s`, each as it
was, so every other top-level bucket is unchanged, and `Get` of every key
path `s :: rest` and `Scan` of every path `s :: rest` fail with
`ErrBucketNotFound` without visiting. When it does not, `Del([s])` returns an
error and the store is unchanged. -/
theorem del_top_rw (tx : Tx) (s : Bytes) (hw : tx.writable = true) (hwf : tx.wf = true) :
    ((childBucket tx.root s).isSome = true →
      bucket.Del ⟨tx, none⟩ [s] = some (⟨⟨without tx.root s, true⟩, none⟩, none) ∧
      (∀ t, t ≠ s → childBucket (without tx.root s) t = childBucket tx.root t) ∧
      (∀ rest, rest ≠ [] →
        bucket.Get ⟨⟨without tx.root s, true⟩, none⟩ (s :: rest) =
          some (⟨⟨without tx.root s, true⟩, none⟩, none, some .ErrBucketNotFound)) ∧
      (∀ rest scan fn,
        bucket.Scan ⟨⟨without tx.root s, true⟩, none⟩ (s :: rest) scan fn =
          some (⟨⟨without tx.root s, true⟩, none⟩, [], some .ErrBucketNotFound))) ∧
    ((childBucket tx.root s).isSome = false →
      ∃ e, bucket.Del ⟨tx, none⟩ [s] = some (⟨tx, none⟩, some e)) := by
  have hs : keysSorted tx.root := entriesWf_sorted tx.root hwf
  constructor
  · intro hex
    obtain ⟨c, hc⟩ := Option.isSome_iff_exists.mp hex
    have hf := (childBucket_eq_some tx.root s c).mp hc
    have hnone : ∀ rest, bucketAt (without tx.root s) (s :: rest) = none :=
      fun rest => bucketAt_cons_none _ s rest (childBucket_without_self tx.root s)
    refine ⟨?_, ?_, ?_, ?_⟩
    · simp [bucket.Del, bbolt.Tx.DeleteBucket, bbolt.Bucket.DeleteBucket, Tx.contents, bucketAt,
        hf, hw, modifyAt, delEntry_eq_without tx.root s hs]
    · intro t ht
      simp [childBucket, findEntry_without_other tx.root s t hs ht]
    · intro rest hrest
      have hsplit : s :: rest = (s :: rest.dropLast) ++ [rest.getLast hrest] := by
        rw [List.cons_append, List.dropLast_append_getLast hrest]
      rw [hsplit, Get_deep _ _ _ rfl (by simp), getBucket_lookup _ _ (by simp)]
      simp [hnone]
    · intro rest scan fn
      simp [bucket.Scan, scanBody, getBucket_lookup _ (s :: rest) (by simp), hnone]
  · intro hex
    have hc : childBucket tx.root s = none := by
      cases h : childBucket tx.root s with
      | none => rfl
      | some c => simp [h] at hex
    cases hf : findEntry tx.root s with
    | none =>
      exact ⟨.ErrBucketNotFound, by
        simp [bucket.Del, bbolt.Tx.DeleteBucket, bbolt.Bucket.DeleteBucket, Tx.contents, bucketAt,
          hf, hw]⟩
    | some x =>
      cases x with
      | leaf v =>
        exact ⟨.ErrIncompatibleValue, by
          simp [bucket.Del, bbolt.Tx.DeleteBucket, bbolt.Bucket.DeleteBucket, Tx.contents,
            bucketAt, hf, hw]⟩
      | bucket c => simp [childBucket, hf] at hc

/-- C7 amended, at a concrete input: deleting the top-level bucket `users` of
`usersStore` empties the root. -/
theorem del_top_rw_witness :
    bucket.Del usersStore [kUsers] = some (⟨⟨[], true⟩, none⟩, none) :=
  ((del_top_rw usersStore.tx kUsers rfl (by decide)).1 (by rfl)).1

/-- C8. `Scan` without prefix: on every well-formed store, for a non-empty
path resolving to the bucket `B` and a visitor that always returns `nil`,
`Scan(path, empty, fn)` returns no error, leaves the store unchanged, and its
calls are first `fn(name, nil, true)` for every child bucket of `B`, then
`fn(name, value, false)` for every leaf entry of `B`, each pass in key order;
the names visited are the names present in `B`, each exactly once. -/
theorem scan_all_entries (tx : Tx) (q : List Bytes) (B : Entries) (fn : Visitor)
    (hwf : tx.wf = true) (hq : q ≠ []) (hB : bucketAt tx.root q = some B)
    (hfn : ∀ calls c, fn calls c = none) :
    bucket.Scan ⟨tx, none⟩ q [] fn =
        some (⟨tx, none⟩, bucketVisits B ++ leafVisits B, none) ∧
    (bucketVisits B).Pairwise (fun a b => bytesLt a.k b.k = true) ∧
    (leafVisits B).Pairwise (fun a b => bytesLt a.k b.k = true) ∧
    ((bucketVisits B ++ leafVisits B).map Visit.k).Perm (B.map Prod.fst) ∧
    ((bucketVisits B ++ leafVisits B).map Visit.k).Nodup := by
  have hs : keysSorted B := entriesWf_sorted B (entriesWf_bucketAt tx.root q B hwf hB)
  have hl : q.length ≠ 0 := fun e => hq (List.length_eq_zero.mp e)
  refine ⟨?_, bucketVisits_sorted B hs, leafVisits_sorted B hs, visit_names_perm B, ?_⟩
  · have h1 := forEachBucketLoop_all fn hfn B []
    have h2 := forEachLoop_leaves fn hfn (bbolt.Bucket.Bucket tx q) B
      (engineBucket_flag tx q B hB hs) ([] ++ bucketVisits B)
    simp only [bucket.Scan, scanBody, hl, if_false, getBucket_lookup _ q hq, hB,
      List.length_nil, if_true, bbolt.Bucket.ForEachBucket, bbolt.Bucket.ForEach,
      contents_of_bucketAt tx q B hB, h1, h2]
    simp
  · exact (List.Perm.nodup_iff (visit_names_perm B)).mpr (names_nodup B hs)

/-- C8, at the scenario of the specification: after `Set([users, alice], A1)`,
`Set([users, bob], B1)` and `CreateBucket([users, admins])` on the empty
store, `Scan([users], nil, fn)` makes exactly the calls `(admins, nil, true)`,
`(alice, A1, false)`, `(bob, B1, false)`. -/
theorem scan_all_entries_witness :
    ((emptyRW.Set [kUsers, kAlice] vA1).bind fun r1 =>
      (r1.1.Set [kUsers, kBob] vB1).bind fun r2 =>
        (r2.1.CreateBucket [kUsers, kAdmins]).map fun r3 => r3.1) = some usersStore ∧
    bucket.Scan usersStore [kUsers] [] okVisitor =
      some (usersStore,
        [⟨kAdmins, none, true⟩, ⟨kAlice, some vA1, false⟩, ⟨kBob, some vB1, false⟩], none) :=
  ⟨by rfl,
    (scan_all_entries usersStore.tx [kUsers]
      [(kAdmins, .bucket []), (kAlice, .leaf vA1), (kBob, .leaf vB1)] okVisitor
      (by decide) (by simp) (by rfl) (fun _ _ => rfl)).1⟩

/-- C9, at the failing input: in `usersStore` the prefixed scan
`Scan([users], "a", fn)` reports the child bucket `admins` a second time in
its leaf pass, as `fn(admins, nil, false)`. -/
theorem scan_prefix_reports_bucket_as_leaf :
    bucket.Scan usersStore [kUsers] [97] okVisitor =
      some (usersStore,
        [⟨kAdmins, none, true⟩, ⟨kAdmins, none, false⟩, ⟨kAlice, some vA1, false⟩], none) := by
  rfl

/-- C10, as stated, fails for the empty key path: there `Scan` lists the root
and does not look at the prefix; `Scan([], "z", fn)` on `usersStore` calls
`fn(users, nil, true)` although `users` does not start with `z`. -/
theorem scan_root_unfiltered :
    bucket.Scan usersStore [] [122] okVisitor =
        some (usersStore, [⟨kUsers, none, true⟩], none) ∧
    hasPrefix kUsers [122] = false :=
  ⟨by rfl, by rfl⟩

/-- C10, amended. Prefix filter below the root: for every handle, every
non-empty key path, every non-empty prefix and every visitor, `Scan` returns
and every name it has passed to `fn` starts with the prefix byte for byte. -/
theorem prefixed_scan_names (b : bucket) (q : List Bytes) (scan : Bytes) (fn : Visitor)
    (hq : q ≠ []) (hscan : scan ≠ []) :
    ∃ b1 calls err, bucket.Scan b q scan fn = some (b1, calls, err) ∧
      ∀ c ∈ calls, hasPrefix c.k scan = true := by
  obtain ⟨⟨b1, calls, err⟩, h⟩ := Scan_total b q scan fn
  refine ⟨b1, calls, err, h, ?_⟩
  unfold bucket.Scan at h
  split at h
  · simp only [Option.some.injEq, Prod.mk.injEq] at h
    rw [← h.2.1]
    intro c hc
    simp at hc
  · split at h
    · exact Option.noConfusion h
    · rename_i b2 calls2 err2 hbody
      have hnames := scanBody_names b q scan fn b2 calls2 err2 hq hscan hbody
      split at h
      · simp only [Option.some.injEq, Prod.mk.injEq] at h
        rw [← h.2.1]
        exact hnames
      · simp only [Option.some.injEq, Prod.mk.injEq] at h
        rw [← h.2.1]
        exact hnames

/-- C10 amended, at a concrete input: `Scan([users], "b", fn)` on `usersStore`
passes `bob` only. -/
theorem prefixed_scan_names_witness :
    bucket.Scan usersStore [kUsers] [98] okVisitor =
      some (usersStore, [⟨kBob, some vB1, false⟩], none) ∧
    ∃ b1 calls err, bucket.Scan usersStore [kUsers] [98] okVisitor = some (b1, calls, err) ∧
      ∀ c ∈ calls, hasPrefix c.k [98] = true :=
  ⟨by rfl, prefixed_scan_names usersStore [kUsers] [98] okVisitor (by simp) (by simp)⟩

/-- C14. Deferred error short-circuit: on a transaction handle whose deferred
error is `e` (any error, a stop signal such as `io.EOF` included), and for
every input, `CreateBucket`, `Set`, `Get`, `Del` and `Scan` each return
exactly `e`; `Get` returns an absent value, `Scan` makes no call to `fn`, the
store is unchanged, and `Err()` returns `e`. -/
theorem deferred_error_short_circuit (tx : Tx) (e : Error) (p : List Bytes) (v scan : Bytes)
    (fn : Visitor) :
    bucket.CreateBucket ⟨tx, some e⟩ p = some (⟨tx, some e⟩, some e) ∧
    bucket.Set ⟨tx, some e⟩ p v = some (⟨tx, some e⟩, some e) ∧
    bucket.Get ⟨tx, some e⟩ p = some (⟨tx, some e⟩, none, some e) ∧
    bucket.Del ⟨tx, some e⟩ p = some (⟨tx, some e⟩, some e) ∧
    bucket.Scan ⟨tx, some e⟩ p scan fn = some (⟨tx, some e⟩, [], some e) ∧
    bucket.Err ⟨tx, some e⟩ = some e :=
  ⟨rfl, rfl, rfl, rfl, rfl, rfl⟩

/-- C20. Resolver result is well defined: for every handle, bucket path and
value of `create`, `getBucket` returns without a fault (at every loop step
after the first the bucket descended from is the non-nil result of the step
before), and it either sets an error or returns a non-nil bucket that exists
in the store; on an empty path (and no deferred error) it sets
`ErrBucketNameRequired`.  Consequently `Set`, `Get`, `Del` and `Scan` never
use a nil bucket: each returns for every input. -/
theorem getBucket_well_defined (b : bucket) (path : List Bytes) (create : Bool) :
    (∃ b1 n err, getBucket b path create = some (b1, n, err) ∧
      (err = none → ∃ r, n = some r ∧ (bucketAt b1.tx.root r).isSome = true)) ∧
    (b.err = none → getBucket b [] create = some (b, none, some .ErrBucketNameRequired)) ∧
    (∀ p v, ∃ res, bucket.Set b p v = some res) ∧
    (∀ p, ∃ res, bucket.Get b p = some res) ∧
    (∀ p, ∃ res, bucket.Del b p = some res) ∧
    (∀ q scan fn, ∃ res, bucket.Scan b q scan fn = some res) := by
  refine ⟨getBucket_total b path create, ?_, Set_total b, Get_total b, Del_total b,
    Scan_total b⟩
  intro hb
  simp [getBucket, hb]

/-- C11. `Scan` of the root: on every store state of the engine (keys unique
per bucket, the root holding only buckets) and for a visitor that always
returns `nil`, `Scan([], empty, fn)` returns no error, leaves the store
unchanged, and its calls are `fn(name, nil, true)` once for each top-level
bucket name, in key order, and nothing else. -/
theorem scan_root_buckets (tx : Tx) (fn : Visitor) (hwf : tx.wf = true)
    (hroot : tx.rootBuckets = true) (hfn : ∀ calls c, fn calls c = none) :
    bucket.Scan ⟨tx, none⟩ [] [] fn = some (⟨tx, none⟩, bucketVisits tx.root, none) ∧
    (bucketVisits tx.root).map Visit.k = tx.root.map Prod.fst ∧
    (tx.root.map Prod.fst).Nodup := by
  have hall := bucketVisits_of_all tx.root hroot
  refine ⟨?_, ?_, names_nodup tx.root (entriesWf_sorted tx.root hwf)⟩
  · have hloop := forEachLoop_root
      (fun calls k _ => (fun calls name (_ : Option BucketRef) =>
        callFn fn calls ⟨name, none, true⟩) calls k (bbolt.Bucket.Bucket tx [] k))
      (fun calls k v => by simp [callFn, hfn]) tx.root []
    simp only [bucket.Scan, scanBody, List.length_nil, if_true, bbolt.Tx.ForEach,
      bbolt.Bucket.ForEach, Tx.contents, bucketAt, Option.getD_some, hloop, hall]
    simp
  · rw [hall]
    simp [List.map_map, Function.comp_def]

/-- C11, at a concrete input: the root of `usersStore` holds the one bucket
`users`. -/
theorem scan_root_buckets_witness :
    bucket.Scan usersStore [] [] okVisitor = some (usersStore, [⟨kUsers, none, true⟩], none) :=
  (scan_root_buckets usersStore.tx okVisitor (by decide) (by decide) (fun _ _ => rfl)).1

/-- C12. Early termination of `Scan`: for every handle, path, prefix and
visitor, `Scan` returns, and if some call to `fn` returned an error `e` then
that call was the last one (no call follows it, in the bucket pass or in the
leaf pass) and `Scan` returns `nil` when `e` is `io.EOF`, `fs.SkipAll` or
`fs.SkipDir`, and exactly `e` otherwise. -/
theorem scan_early_termination (b : bucket) (q : List Bytes) (scan : Bytes) (fn : Visitor) :
    ∃ b1 calls err, bucket.Scan b q scan fn = some (b1, calls, err) ∧
      ∀ (i : Nat) (hi : i < calls.length) (e : Error),
        fn (calls.take i) (calls.get ⟨i, hi⟩) = some e →
          i + 1 = calls.length ∧ err = stopFilter e := by
  cases hb : b.err with
  | some e0 =>
    refine ⟨b, [], some e0, by simp [bucket.Scan, hb], ?_⟩
    intro i hi
    simp at hi
  | none =>
    obtain ⟨⟨b2, calls, err2⟩, hbody⟩ := scanBody_total b q scan fn
    have hran := scanBody_ran b q scan fn b2 calls err2 hbody
    refine ⟨b2, calls, if err2 = some .EOF ∨ err2 = some .SkipAll ∨ err2 = some .SkipDir
      then none else err2, ?_, ?_⟩
    · simp only [bucket.Scan, hb, hbody]
      split <;> simp_all
    · intro i hi e he
      rcases hran with hnil | hran
      · subst hnil
        simp at hi
      · obtain ⟨h1, h2⟩ := Ran_last fn calls err2 hran i hi e he
        subst h2
        refine ⟨h1, ?_⟩
        simp [stopFilter]

/-- C12, at concrete inputs: on `usersStore`, a visitor answering `io.EOF`
is called once and `Scan` returns `nil`; a visitor failing at its second call
is called twice (the leaf `bob` is not visited) and `Scan` returns its error. -/
theorem scan_early_termination_witness :
    bucket.Scan usersStore [kUsers] [] eofVisitor =
      some (usersStore, [⟨kAdmins, none, true⟩], none) ∧
    bucket.Scan usersStore [kUsers] [] failSecondVisitor =
      some (usersStore, [⟨kAdmins, none, true⟩, ⟨kAlice, some vA1, false⟩], some (.other 7)) ∧
    ∃ b1 calls err, bucket.Scan usersStore [kUsers] [] eofVisitor = some (b1, calls, err) ∧
      ∀ (i : Nat) (hi : i < calls.length) (e : Error),
        eofVisitor (calls.take i) (calls.get ⟨i, hi⟩) = some e →
          i + 1 = calls.length ∧ err = stopFilter e :=
  ⟨by rfl, by rfl, scan_early_termination usersStore [kUsers] [] eofVisitor⟩

/-- C15. Open-time failure is deferred to first use: on a handle whose store
failed to open with error `e` (no engine database), `View`, `Update` and
`Batch` each return exactly `e` without invoking `fn`, and `Bolt()` returns
`e` with no engine reference; on a handle that opened successfully, `View`
and `Update` invoke `fn` once and `Batch` at least once, each time with a
transaction handle whose `Err()` is `nil`, and return what `fn` returned. -/
theorem open_failure_deferred (e : Error) (db : bbolt.DB) (fn : TxFunc) :
    boltDB.View (Open (none, some e)) fn = some (Open (none, some e), some e, []) ∧
    boltDB.Update (Open (none, some e)) fn = some (Open (none, some e), some e, []) ∧
    boltDB.Batch (Open (none, some e)) fn = some (Open (none, some e), some e, []) ∧
    boltDB.Bolt (Open (none, some e)) = (none, some e) ∧
    (∃ b1, boltDB.View (Open (some db, none)) fn =
      some (b1, (fn ⟨⟨db.root, false⟩, none⟩).2, [⟨⟨db.root, false⟩, none⟩])) ∧
    (∃ b1, boltDB.Update (Open (some db, none)) fn =
      some (b1, (fn ⟨⟨db.root, true⟩, none⟩).2, [⟨⟨db.root, true⟩, none⟩])) ∧
    (∃ b1 err log, boltDB.Batch (Open (some db, none)) fn = some (b1, err, log) ∧
      log ≠ [] ∧ ∀ h ∈ log, h.Err = none) := by
  refine ⟨rfl, rfl, rfl, rfl, ⟨_, rfl⟩, ?_, ?_⟩
  · simp only [boltDB.Update, Open, bbolt.DB.Update, txClosure]
    rcases fn ⟨⟨db.root, true⟩, none⟩ with ⟨tx1, err⟩
    cases err <;> exact ⟨_, rfl⟩
  · simp only [boltDB.Batch, Open, bbolt.DB.Batch, bbolt.DB.Update, txClosure]
    rcases fn ⟨⟨db.root, true⟩, none⟩ with ⟨tx1, err⟩
    cases err with
    | none => exact ⟨_, _, _, rfl, by simp, by simp [bucket.Err]⟩
    | some e1 =>
      simp only [List.nil_append]
      rcases fn ⟨⟨db.root, true⟩, none⟩ with ⟨tx2, err2⟩
      cases err2 with
      | none => exact ⟨_, _, _, rfl, by simp, by simp [bucket.Err]⟩
      | some e2 => exact ⟨_, _, _, rfl, by simp, by simp [bucket.Err]⟩

/-- C16, at the failing input: on a handle whose store failed to open,
`Close`, `Copy` and `CopyFile` call into the absent engine database and
panic. -/
theorem close_copy_fault_on_failed_open (r : Option Error) :
    boltDB.Close failedDB r = none ∧
    boltDB.Copy failedDB r = none ∧
    boltDB.CopyFile failedDB r = none :=
  ⟨rfl, rfl, rfl⟩

/-- C13, as stated, fails: on the empty store in a read-write transaction
`Set([users, ""], A1)` returns `ErrKeyRequired` and
`CreateBucket([users, ""])` returns `ErrBucketNameRequired`, yet both have
created the bucket `users`, which did not exist before. -/
theorem error_after_create_counterexample :
    bucket.Set emptyRW [kUsers, []] vA1 =
      some (⟨⟨[(kUsers, .bucket [])], true⟩, none⟩, some .ErrKeyRequired) ∧
    bucket.CreateBucket emptyRW [kUsers, []] =
      some (⟨⟨[(kUsers, .bucket [])], true⟩, none⟩, some .ErrBucketNameRequired) ∧
    bucketAt emptyRW.tx.root [kUsers] = none ∧
    bucketAt [(kUsers, .bucket [])] [kUsers] = some [] :=
  ⟨by rfl, by rfl, by rfl, by rfl⟩

/-- C13, amended. On every well-formed store state: when `Del(p)` returns an
error the store is identical to the state before the call; when `Set(p, v)`
or `CreateBucket(p)` returns an error, no leaf entry has been written,
removed or changed, every bucket that existed still exists, and no bucket
has been created other than buckets named by an initial segment of the
bucket path (`p` without its terminal segment for `Set`, `p` for
`CreateBucket`), which the resolver may have created before the failing
step. -/
theorem error_keeps_entries (tx : Tx) (p : List Bytes) (v : Bytes) (hwf : tx.wf = true) :
    (∀ b1 e, bucket.Del ⟨tx, none⟩ p = some (b1, some e) → b1 = ⟨tx, none⟩) ∧
    (∀ b1 e, bucket.Set ⟨tx, none⟩ p v = some (b1, some e) →
      CreatedAlong p.dropLast tx.root b1.tx.root ∧ b1.err = none) ∧
    (∀ b1 e, bucket.CreateBucket ⟨tx, none⟩ p = some (b1, some e) →
      CreatedAlong p tx.root b1.tx.root ∧ b1.err = none) :=
  ⟨fun b1 e h => Del_err_unchanged tx p b1 e h,
    fun b1 e h => ⟨Set_err_along tx p v b1 e hwf h, (Set_err_grown tx p v b1 e hwf h).2⟩,
    fun b1 e h =>
      ⟨CreateBucket_along tx p b1 (some e) hwf h, (CreateBucket_grown tx p b1 (some e) hwf h).2⟩⟩

/-- C13 amended, at a concrete input: the failing `Set([users, ""], A1)` on
the empty store added the bucket `users`, named by the path, and nothing
else. -/
theorem error_keeps_entries_witness :
    CreatedAlong [kUsers] emptyRW.tx.root [(kUsers, .bucket [])] :=
  ((error_keeps_entries emptyRW.tx [kUsers, []] vA1 (by decide)).2.1
    ⟨⟨[(kUsers, .bucket [])], true⟩, none⟩ .ErrKeyRequired (by rfl)).1

/-- C17, as stated, fails: `alice` names a leaf of `users`, yet
`Set([users, alice], B1)` returns `ErrTxNotWritable` in a read-only
transaction, and in a read-write transaction `Set` of a value longer than
`MaxValueSize` returns `ErrValueTooLarge`; the old value stays in both. -/
theorem set_existing_leaf_counterexample :
    findEntry [(kAlice, .leaf vA1)] kAlice = some (.leaf vA1) ∧
    bucket.Set aliceRO [kUsers, kAlice] vB1 = some (aliceRO, some .ErrTxNotWritable) ∧
    bucket.Set aliceRW [kUsers, kAlice] bigValue = some (aliceRW, some .ErrValueTooLarge) := by
  refine ⟨by rfl, by rfl, ?_⟩
  have hsplit : [kUsers, kAlice] = [kUsers] ++ [kAlice] := rfl
  have hloop := getBucketLoop_create_existing [kUsers] 0 aliceRW.tx [] aliceRW.tx.root
    [(kAlice, .leaf vA1)] rfl rfl (by decide) (by rfl)
  have hput := put_too_large aliceRW.tx ([] ++ [kUsers]) kAlice bigValue rfl (by decide)
    (by decide) (by simp [bigValue])
  rw [hsplit, Set_deep aliceRW [kUsers] kAlice bigValue rfl (by simp)]
  rw [show aliceRW = ⟨aliceRW.tx, none⟩ from rfl, getBucket_create aliceRW.tx [kUsers] (by simp)]
  rw [show (0 : Nat) + 1 = 1 from rfl] at hloop
  rw [hloop]
  simp only [hput]

/-- C17, amended. For a key path `pre ++ [key]` (the paths of length at least
two) whose bucket prefix resolves to the bucket `B`: if `key` names a child
bucket of `B`, `Set` fails with an error and the whole store, that child
bucket and its subtree included, is unchanged; if `key` names a leaf of `B`,
the transaction is read-write, the value is at most `MaxValueSize` bytes and
the segments are as the engine stores them (none empty, `key` at most
`MaxKeySize` bytes), `Set` succeeds, the bucket holds `key` with the value
`v` in place of the old one, and a `Get` of the path returns `v`. -/
theorem set_existing_name (tx : Tx) (pre : List Bytes) (key v : Bytes) (B : Entries)
    (hpre : pre ≠ []) (hB : bucketAt tx.root pre = some B) :
    (∀ c, findEntry B key = some (.bucket c) →
      ∃ e, bucket.Set ⟨tx, none⟩ (pre ++ [key]) v = some (⟨tx, none⟩, some e)) ∧
    (∀ old, findEntry B key = some (.leaf old) → tx.writable = true →
      (∀ name ∈ pre, name.length ≠ 0) → key.length ≠ 0 → key.length ≤ MaxKeySize →
      v.length ≤ MaxValueSize →
      ∃ tx1, bucket.Set ⟨tx, none⟩ (pre ++ [key]) v = some (⟨tx1, none⟩, none) ∧
        bucketAt tx1.root pre = some (putEntry B key (.leaf v)) ∧
        bucket.Get ⟨tx1, none⟩ (pre ++ [key]) = some (⟨tx1, none⟩, some v, none)) := by
  constructor
  · intro c hf
    obtain ⟨n, err, hloop, hn⟩ := getBucketLoop_create_resolved pre 0 tx [] tx.root B rfl hB
    rw [show (0 : Nat) + 1 = 1 from rfl] at hloop
    rw [Set_deep _ _ _ _ rfl hpre, getBucket_create tx pre hpre, hloop]
    cases err with
    | some e => cases n <;> exact ⟨e, rfl⟩
    | none =>
      have hn2 := hn rfl
      simp only [List.nil_append] at hn2
      subst hn2
      obtain ⟨e, he⟩ := put_bucket_err tx pre key v c
        (by rw [contents_of_bucketAt tx pre B hB]; exact hf)
      exact ⟨e, by simp [he]⟩
  · intro old hf hw hnames hk0 hk hv
    have hloop := getBucketLoop_create_existing pre 0 tx [] tx.root B rfl hw hnames hB
    rw [show (0 : Nat) + 1 = 1 from rfl] at hloop
    have hput := put_leaf_ok tx pre key v old hw hk0 hk hv
      (by rw [contents_of_bucketAt tx pre B hB]; exact hf)
    have hat : bucketAt (modifyAt pre (fun es => putEntry es key (.leaf v)) tx.root) pre =
        some (putEntry B key (.leaf v)) := by
      rw [bucketAt_modifyAt_self, hB]; rfl
    refine ⟨{ tx with root := modifyAt pre (fun es => putEntry es key (.leaf v)) tx.root },
      ?_, hat, ?_⟩
    · rw [Set_deep _ _ _ _ rfl hpre, getBucket_create tx pre hpre, hloop]
      simp only [List.nil_append, hput]
    · rw [Get_deep _ _ _ rfl hpre, getBucket_lookup _ pre hpre]
      simp only [hat]
      simp [bbolt.Bucket.Get, Tx.contents, hat, findEntry_putEntry_self]

/-- C17 amended, at a concrete input: `Set([users, alice], B1)` on
`users/{alice = A1}` in a read-write transaction. -/
theorem set_existing_name_witness :
    ∃ tx1, bucket.Set aliceRW ([kUsers] ++ [kAlice]) vB1 = some (⟨tx1, none⟩, none) ∧
      bucketAt tx1.root [kUsers] = some (putEntry [(kAlice, .leaf vA1)] kAlice (.leaf vB1)) ∧
      bucket.Get ⟨tx1, none⟩ ([kUsers] ++ [kAlice]) = some (⟨tx1, none⟩, some vB1, none) :=
  (set_existing_name aliceRW.tx [kUsers] kAlice vB1 [(kAlice, .leaf vA1)] (by simp)
    (by rfl)).2 vA1 (by rfl) rfl (by decide) (by decide) (by decide) (by decide)

/-- C18. Creating resolution builds the whole chain: on every well-formed
store state, if `CreateBucket(p)` returns no error then the bucket reached by
the resolver is the one at the end of the full path; afterwards every
non-empty initial segment of `p` resolves without creating (so an unprefixed
`Scan` of it with a visitor that always returns `nil` returns no error);
every bucket that existed before still exists and still holds every entry it
held (the same name with the same leaf value, or still a bucket); and the
leaf entries of the store are the same. -/
theorem createBucket_builds_chain (tx : Tx) (p : List Bytes) (b1 : bucket)
    (hwf : tx.wf = true) (h : bucket.CreateBucket ⟨tx, none⟩ p = some (b1, none)) :
    getBucket ⟨tx, none⟩ p true = some (b1, some p, none) ∧
    (∀ i, i < p.length →
      getBucket b1 (p.take (i + 1)) false = some (b1, some (p.take (i + 1)), none) ∧
      ∀ fn : Visitor, (∀ calls c, fn calls c = none) →
        ∃ calls, bucket.Scan b1 (p.take (i + 1)) [] fn = some (b1, calls, none)) ∧
    (∀ pre C, bucketAt tx.root pre = some C →
      ∃ C1, bucketAt b1.tx.root pre = some C1 ∧ ∀ e ∈ listing C, e ∈ listing C1) ∧
    Grown tx.root b1.tx.root := by
  have hg := CreateBucket_grown tx p b1 none hwf h
  have hwf1 := CreateBucket_wf ⟨tx, none⟩ p (b1, none) hwf h
  have hne : p ≠ [] := by
    intro e
    subst e
    simp [bucket.CreateBucket, getBucket] at h
  unfold bucket.CreateBucket at h
  rw [getBucket_create tx p hne] at h ⊢
  rcases hloop : getBucketLoop true 1 p tx (some []) with _ | ⟨tx1, n, e⟩
  · rw [hloop] at h; simp at h
  · rw [hloop] at h
    simp only [Option.some.injEq, Prod.mk.injEq] at h
    obtain ⟨hb1, he⟩ := h
    subst hb1 he
    obtain ⟨hn, ⟨c, hc⟩, -⟩ := getBucketLoop_create_ok p 0 tx tx1 [] tx.root n rfl hloop
    simp only [List.nil_append] at hn hc
    subst hn
    refine ⟨rfl, ?_, fun pre C hC => Grown_listing tx.root tx1.root hwf hg.1 pre C hC, hg.1⟩
    intro i hi
    have htake : p.take (i + 1) ≠ [] := by
      intro e
      have h1 := congrArg List.length e
      rw [List.length_take, List.length_nil] at h1
      omega
    have hsome : (bucketAt tx1.root (p.take (i + 1))).isSome = true := by
      apply bucketAt_isSome_of_append tx1.root (p.take (i + 1)) (p.drop (i + 1))
      rw [List.take_append_drop, hc]
      rfl
    obtain ⟨B, hB⟩ := Option.isSome_iff_exists.mp hsome
    refine ⟨?_, ?_⟩
    · rw [getBucket_lookup tx1 _ htake, hB]
    · intro fn hfn
      exact ⟨_, Scan_all_ok tx1 _ B fn hwf1 htake hB hfn⟩

/-- C18, at a concrete input: `CreateBucket([users, admins])` on the store
`users/{alice = A1}`. -/
theorem createBucket_builds_chain_witness :
    Grown aliceRW.tx.root [(kUsers, .bucket [(kAdmins, .bucket []), (kAlice, .leaf vA1)])] :=
  (createBucket_builds_chain aliceRW.tx [kUsers, kAdmins]
    ⟨⟨[(kUsers, .bucket [(kAdmins, .bucket []), (kAlice, .leaf vA1)])], true⟩, none⟩
    (by decide) (by rfl)).2.2.2

/-- C19. `Set` does not disturb other keys: on every well-formed store state,
for distinct key paths `p` and `q` of length at least two, if `Get(q)`
returned `r` (a value or absent) with no error and `Set(p, v)` returns no
error, then `Get(q)` on the resulting state returns `r` with no error. -/
theorem set_keeps_other_keys (tx : Tx) (p q : List Bytes) (v : Bytes) (r : Option Bytes)
    (b1 : bucket) (hwf : tx.wf = true) (hp : 2 ≤ p.length) (hq : 2 ≤ q.length) (hne : p ≠ q)
    (hget : bucket.Get ⟨tx, none⟩ q = some (⟨tx, none⟩, r, none))
    (hset : bucket.Set ⟨tx, none⟩ p v = some (b1, none)) :
    bucket.Get b1 q = some (b1, r, none) := by
  obtain ⟨pre0, k0, hpre0, rfl, -⟩ := exists_snoc_of_two_le p hp
  obtain ⟨pre, k, hpre, rfl, -⟩ := exists_snoc_of_two_le q hq
  -- the state before: `pre` resolves and holds `r` under `k`
  rw [Get_deep _ _ _ rfl hpre, getBucket_lookup _ pre hpre] at hget
  cases hC : bucketAt tx.root pre with
  | none => simp [hC] at hget
  | some C =>
    simp only [hC, Option.some.injEq, Prod.mk.injEq, and_true, true_and] at hget
    rw [engineGet_eq_leafAt tx pre k C hC] at hget
    -- the creating resolution
    rw [Set_deep _ _ _ _ rfl hpre0, getBucket_create tx pre0 hpre0] at hset
    rcases hloop : getBucketLoop true 1 pre0 tx (some []) with _ | ⟨tx1, n, e⟩
    · rw [hloop] at hset; simp at hset
    · rw [hloop] at hset
      cases e with
      | some e => cases n <;> simp at hset
      | none =>
        obtain ⟨hn, ⟨B1, hB1⟩, -⟩ := getBucketLoop_create_ok pre0 0 tx tx1 [] tx.root n rfl hloop
        have hgrown := getBucketLoop_create_grown pre0 0 tx [] tx.root _ hwf rfl hloop
        have hwf1 := getBucketLoop_wf true pre0 1 tx (some []) _ hwf hloop
        subst hn
        simp only [List.nil_append, Option.some.injEq, Prod.mk.injEq] at hset hB1
        obtain ⟨hb1, hput⟩ := hset
        have hputeq : bbolt.Bucket.Put tx1 pre0 k0 v = (_, none) := Prod.ext rfl hput
        have hput2 := put_ok tx1 _ pre0 k0 v hputeq
        have hnb := put_ok_notBucket tx1 _ pre0 k0 v hputeq
        rw [contents_of_bucketAt tx1 pre0 B1 hB1] at hnb
        have hs1 : keysSorted B1 :=
          entriesWf_sorted B1 (entriesWf_bucketAt tx1.root pre0 B1 hwf1 hB1)
        subst hb1
        simp only [hput2]
        -- the bucket `pre` is still there, with the same leaf under `k`
        have hsome1 : (bucketAt tx1.root pre).isSome = true := hgrown.1 pre (by simp [hC])
        have hsome2 := put_keeps_buckets tx1.root pre0 B1 k0 (.leaf v) hB1 hs1 hnb pre hsome1
        have hother : ¬ (pre = pre0 ∧ k = k0) := by
          rintro ⟨rfl, rfl⟩
          exact hne rfl
        have hbelow : ¬ (pre0 ++ [k0]) <+: pre := by
          rintro ⟨rest, rfl⟩
          have h3 := bucketAt_isSome_of_append tx1.root (pre0 ++ [k0]) rest hsome1
          rw [bucketAt_snoc, hB1] at h3
          simp [hnb] at h3
        have hleaf := put_keeps_leaves tx1.root pre0 B1 k0 (.leaf v) hB1 hs1 hnb pre k
          hother hbelow
        obtain ⟨C2, hC2⟩ := Option.isSome_iff_exists.mp hsome2
        rw [Get_deep _ _ _ rfl hpre, getBucket_lookup _ pre hpre]
        simp only [hC2]
        rw [engineGet_eq_leafAt _ pre k C2 hC2, hleaf, hgrown.2 pre k, hget]

/-- C19, at a concrete input: `Set([users, bob], B1)` on `users/{alice = A1}`
leaves `Get([users, alice])` at `A1`. -/
theorem set_keeps_other_keys_witness :
    bucket.Get ⟨⟨[(kUsers, .bucket [(kAlice, .leaf vA1), (kBob, .leaf vB1)])], true⟩, none⟩
        [kUsers, kAlice] =
      some (⟨⟨[(kUsers, .bucket [(kAlice, .leaf vA1), (kBob, .leaf vB1)])], true⟩, none⟩,
        some vA1, none) :=
  set_keeps_other_keys aliceRW.tx [kUsers, kBob] [kUsers, kAlice] vB1 (some vA1) _
    (by decide) (by decide) (by decide) (by decide) (by rfl) (by rfl)

end Bolt
